import Mathlib

/-!
# Verification of `src/lib/Util.cpp` (namespace `hand_detect`)

Shallow embedding of the scoring code of the hand-detection project: `IoU_score`,
`avg_IoU_score`, `pixel_accuracy`, `crop_bboxes`, `extract_bboxes` and the OpenCV
primitives they call.

Modelling conventions.

* `int` is the 32-bit two's-complement type.  Its values are modelled by `Int`, and
  the `int` arithmetic of the code whose exact result can leave `[-2^31, 2^31)` is
  reduced by `wrap32`: the product of `Rect::area()`, the sums and differences of
  `crop_bboxes`, the padded coordinates of `extract_bboxes`, and `rows * cols` of
  `pixel_accuracy`.  The corner arithmetic inside OpenCV's `&` and `|` is taken on
  rectangles whose corners do not overflow, which the hypothesis `NoOverflow`
  states wherever a theorem depends on the value of an overlap ratio.  The counters
  and indices of `avg_IoU_score` are bounded by the sizes of the two vectors and are
  not wrapped, and `cvRound` is exact on the values inside the `int` range.
* `double` is modelled by `Dbl`: an exact rational, an infinity, or NaN.  Rounding
  of the quotient and of the running sum is not modelled: arithmetic on finite
  values is exact.  Division by zero follows IEEE-754 (`0/0 = NaN`, `x/0 = ±inf`),
  comparisons with NaN are false.
* An access `v[i]` to a `std::vector` outside `0 .. size-1` is undefined behaviour
  in C++; the model reports it as `Failure.outOfRange`.  A failed `CV_Assert` is
  `Failure.assertion`.
* The `cout` diagnostic line of `avg_IoU_score` is not modelled as output; the
  field `picks` of the loop state keeps the history of arg-max selections.
* A `cv::Mat` is its dimensions, its type code and its pixels.
* The text source of `extract_bboxes` is the sequence of quadruples that the passes
  of its reading loop leave in `x, y, w, h`; the C library function `sqrt` is a
  parameter, of which only the exact values `sqrt(1.0) = 1.0` and `sqrt(4.0) = 2.0`
  are used.
-/

namespace hand_detect

/-! ## 32-bit integers -/

/-- The value held by a C++ `int` (32 bits, two's complement) after an arithmetic
operation whose exact result is `z`: `z` reduced modulo 2^32 into `[-2^31, 2^31)`. -/
def wrap32 (z : Int) : Int := (z + 2147483648) % 4294967296 - 2147483648

/-- The integer is a value of the type `int`. -/
def isInt (z : Int) : Prop := -2147483648 ≤ z ∧ z < 2147483648

instance (z : Int) : Decidable (isInt z) := by
  unfold isInt; infer_instance

/-! ## Doubles -/

/-- Values of a C++ `double`: a finite value (kept exact), `±inf`, or NaN. -/
inductive Dbl where
  | num (q : ℚ)
  | inf (positive : Bool)
  | nan
deriving DecidableEq

namespace Dbl

/-- The conversion `static_cast<double>(z)` of an `int`. -/
def ofInt (z : Int) : Dbl := num z

/-- The comparison `a > b` on doubles (false as soon as one side is NaN). -/
def gt : Dbl → Dbl → Bool
  | num a, num b => decide (b < a)
  | num _, inf p => !p
  | inf p, num _ => p
  | inf p, inf q => p && !q
  | _, _ => false

/-- The comparison `a < b` on doubles. -/
def lt (a b : Dbl) : Bool := gt b a

/-- The sum `a + b` on doubles. -/
def add : Dbl → Dbl → Dbl
  | num a, num b => num (a + b)
  | num _, inf p => inf p
  | inf p, num _ => inf p
  | inf p, inf q => if p = q then inf p else nan
  | _, _ => nan

/-- The quotient `a / b` on doubles (a zero divisor is `+0.0`). -/
def div : Dbl → Dbl → Dbl
  | num a, num b =>
      if b = 0 then (if a = 0 then nan else inf (decide (0 < a))) else num (a / b)
  | num _, inf _ => num 0
  | inf p, num b => inf (p == decide (0 ≤ b))
  | _, _ => nan

/-- A double that holds a finite value. -/
def isNum : Dbl → Bool
  | num _ => true
  | _ => false

end Dbl

/-! ## Rectangles (`cv::Rect`) -/

/-- The type `cv::Rect` (`cv::Rect_<int>`): top-left corner, width and height. -/
structure Rect where
  x : Int
  y : Int
  width : Int
  height : Int
deriving DecidableEq

namespace Rect

/-- The method `Rect::area()`: `width * height`, a product of two `int`s. -/
def area (r : Rect) : Int := wrap32 (r.width * r.height)

/-- The method `Rect::empty()`: `width <= 0 || height <= 0`. -/
def empty (r : Rect) : Bool := decide (r.width ≤ 0) || decide (r.height ≤ 0)

/-- The default rectangle `Rect()`: all four fields are 0. -/
def zero : Rect := ⟨0, 0, 0, 0⟩

/-- The method `Rect::contains(Point(px, py))`: the pixel lies in the half-open box. -/
def contains (r : Rect) (px py : Int) : Prop :=
  r.x ≤ px ∧ px < r.x + r.width ∧ r.y ≤ py ∧ py < r.y + r.height

instance (r : Rect) (px py : Int) : Decidable (r.contains px py) := by
  unfold contains; infer_instance

/-- OpenCV `operator&` on `cv::Rect` (`a & b`, rectangle intersection):
the overlap box, or `Rect()` when the overlap is empty.  The corner sums and
differences are exact: this is the value of the operator on rectangles that satisfy
`inRange`, where no `int` operation of the operator overflows. -/
def and (a b : Rect) : Rect :=
  let x1 := max a.x b.x
  let y1 := max a.y b.y
  let w := min (a.x + a.width) (b.x + b.width) - x1
  let h := min (a.y + a.height) (b.y + b.height) - y1
  if w ≤ 0 ∨ h ≤ 0 then zero else ⟨x1, y1, w, h⟩

/-- OpenCV `operator|` on `cv::Rect` (`a | b`): the minimum-area rectangle that
contains both `a` and `b` (an empty operand is ignored).  The corner sums and
differences are exact, as for `&`. -/
def or (a b : Rect) : Rect :=
  if a.empty then b
  else if !b.empty then
    let x1 := min a.x b.x
    let y1 := min a.y b.y
    ⟨x1, y1, max (a.x + a.width) (b.x + b.width) - x1,
      max (a.y + a.height) (b.y + b.height) - y1⟩
  else a

/-- A well-formed rectangle of the data model: `width, height ≥ 0`. -/
def wellFormed (r : Rect) : Prop := 0 ≤ r.width ∧ 0 ≤ r.height

/-- A non-degenerate rectangle: `width > 0` and `height > 0`. -/
def nonDegenerate (r : Rect) : Prop := 0 < r.width ∧ 0 < r.height

/-- Two rectangles share no pixel. -/
def disjoint (a b : Rect) : Prop := ∀ px py : Int, ¬ (a.contains px py ∧ b.contains px py)

/-- The corners of the rectangle lie in `[-2^30, 2^30)`, so that no sum or difference
of two corner coordinates leaves the range of `int`. -/
def inRange (r : Rect) : Prop :=
  -1073741824 ≤ r.x ∧ r.x < 1073741824 ∧ -1073741824 ≤ r.y ∧ r.y < 1073741824 ∧
  -1073741824 ≤ r.x + r.width ∧ r.x + r.width < 1073741824 ∧
  -1073741824 ≤ r.y + r.height ∧ r.y + r.height < 1073741824

/-- The exact product `width * height` of the two extents. -/
def exactArea (r : Rect) : Int := r.width * r.height

/-- The exact product `width * height` is a value of `int`: `area()` does not
overflow. -/
def areaFits (r : Rect) : Prop := isInt r.exactArea

end Rect

/-! ## `IoU_score` -/

/-- `hand_detect::IoU_score` (Util.cpp 15-19):
`I = detected & ground_truth; U = detected | ground_truth; return I.area() / U.area()`
with both areas converted to `double`. -/
def IoU_score (detected ground_truth : Rect) : Dbl :=
  let I := detected.and ground_truth
  let U := detected.or ground_truth
  Dbl.div (Dbl.ofInt I.area) (Dbl.ofInt U.area)

/-- The overlap ratio in the words of the specification: area of the intersection
divided by the area of the union, the union area being the number of pixels covered
by at least one rectangle, `area(A) + area(B) - area(A ∩ B)`. -/
def IoU_spec (A B : Rect) : ℚ :=
  ((A.and B).area : ℚ) / ((A.area + B.area - (A.and B).area : Int) : ℚ)

/-! ## `avg_IoU_score` -/

/-- Run-time failures of the modelled code: an out-of-range vector access, a failed
`CV_Assert`, an OpenCV `CV_Error(StsBadArg)`. -/
inductive Failure where
  | outOfRange
  | assertion
  | badArg
deriving DecidableEq

/-- The read `v[i]` of a `std::vector` with an `int` index. -/
def vecGet {α : Type} (v : List α) (i : Int) : Except Failure α :=
  if 0 ≤ i then
    match v[i.toNat]? with
    | some a => .ok a
    | none => .error .outOfRange
  else .error .outOfRange

/-- The write `v[i] = a` of a `std::vector` with an `int` index. -/
def vecSet {α : Type} (v : List α) (i : Int) (a : α) : Except Failure (List α) :=
  if 0 ≤ i ∧ i < (v.length : Int) then .ok (v.set i.toNat a) else .error .outOfRange

/-- The local `struct Score` of `avg_IoU_score` (Util.cpp 100-103): the match record
of one ground-truth box. -/
structure Score where
  IoU : Dbl
  det_index : Int
deriving DecidableEq

/-- The default member initialisers of `Score`: `IoU = 0`, `det_index = -1`. -/
def Score.init : Score := ⟨Dbl.num 0, -1⟩

/-- The three locals of the arg-max scan (Util.cpp 125-127). -/
structure ArgMax where
  max_IoU : Dbl
  gt_index : Int
  det_index : Int
deriving DecidableEq

/-- The inner `for j` loop of the scan (Util.cpp 131-137) over row `i`, from column `j`. -/
def scanRow (i : Nat) : Nat → List Dbl → ArgMax → ArgMax
  | _, [], a => a
  | j, v :: vs, a =>
      scanRow i (j + 1) vs (if Dbl.gt v a.max_IoU then ⟨v, (i : Int), (j : Int)⟩ else a)

/-- The outer `for i` loop of the scan (Util.cpp 130-138), from row `i`. -/
def scanRows : Nat → List (List Dbl) → ArgMax → ArgMax
  | _, [], a => a
  | i, row :: rows, a => scanRows (i + 1) rows (scanRow i 0 row a)

/-- The arg-max scan of one iteration (Util.cpp 125-138): `max_IoU = 0`,
`gt_index = det_index = -1`, then every entry in row-major order replaces the
current maximum when it is strictly larger.  The matrix has exactly
`ground_truth.size()` rows of `detected.size()` entries, so the two index loops
visit the entries of the rows in order. -/
def findMax (all_IoU_scores : List (List Dbl)) : ArgMax :=
  scanRows 0 all_IoU_scores ⟨Dbl.num 0, -1, -1⟩

/-- The column invalidation `all_IoU_scores[i][det_index] = -1` for every row `i`
(Util.cpp 156-158). -/
def invalidate : List (List Dbl) → Int → Except Failure (List (List Dbl))
  | [], _ => .ok []
  | row :: rows, j =>
      match vecSet row j (Dbl.num (-1)) with
      | .error e => .error e
      | .ok row1 =>
          match invalidate rows j with
          | .error e => .error e
          | .ok rows1 => .ok (row1 :: rows1)

/-- One arg-max selection that passed the threshold test: the selected indices and
whether the iteration wrote a match record (history, not program state). -/
structure Pick where
  gt_index : Int
  det_index : Int
  recorded : Bool
deriving DecidableEq

/-- The variables of `avg_IoU_score` that live across iterations of the main loop. -/
structure LoopState where
  all_IoU_scores : List (List Dbl)
  IoU_scores : List Score
  avg_IoU : Dbl
  tp : Int
  fp : Int
  picks : List Pick

/-- The `if (IoU_scores[gt_index].det_index == -1)` block (Util.cpp 144-154). -/
def recordMatch (s : LoopState) (a : ArgMax) : Except Failure LoopState :=
  match vecGet s.IoU_scores a.gt_index with
  | .error e => .error e
  | .ok r =>
      if r.det_index = -1 then
        match vecGet s.all_IoU_scores a.gt_index with
        | .error e => .error e
        | .ok row =>
            match vecGet row a.det_index with
            | .error e => .error e
            | .ok v =>
                match vecSet s.IoU_scores a.gt_index ⟨v, a.det_index⟩ with
                | .error e => .error e
                | .ok recs =>
                    .ok { s with
                          IoU_scores := recs
                          avg_IoU := Dbl.add s.avg_IoU v
                          fp := s.fp - 1
                          tp := s.tp + 1
                          picks := s.picks ++ [⟨a.gt_index, a.det_index, true⟩] }
      else .ok { s with picks := s.picks ++ [⟨a.gt_index, a.det_index, false⟩] }

/-- The body of the main loop (Util.cpp 125-158); `none` is the `break`. -/
def loopBody (threshold : Dbl) (s : LoopState) : Except Failure (Option LoopState) :=
  let a := findMax s.all_IoU_scores
  if Dbl.lt a.max_IoU threshold then .ok none
  else
    match recordMatch s a with
    | .error e => .error e
    | .ok s1 =>
        match invalidate s1.all_IoU_scores a.det_index with
        | .error e => .error e
        | .ok M => .ok (some { s1 with all_IoU_scores := M })

/-- The main loop `for (c_gt = 0; c_gt < ground_truth.size(); c_gt++)`
(Util.cpp 124-159) with `k` iterations left. -/
def mainLoop (threshold : Dbl) : Nat → LoopState → Except Failure LoopState
  | 0, s => .ok s
  | k + 1, s =>
      match loopBody threshold s with
      | .error e => .error e
      | .ok none => .ok s
      | .ok (some s1) => mainLoop threshold k s1

/-- The state of `avg_IoU_score` at its `return`. -/
structure Outcome where
  score : Dbl
  tp : Int
  fp : Int
  fn : Int
  IoU_scores : List Score
  all_IoU_scores : List (List Dbl)
  picks : List Pick

/-- The matrix filled by Util.cpp 117-122:
`all_IoU_scores[i][j] = IoU_score(detected[j], ground_truth[i])`. -/
def fillMatrix (detected ground_truth : List Rect) : List (List Dbl) :=
  ground_truth.map (fun g => detected.map (fun d => IoU_score d g))

/-- The state before the main loop (Util.cpp 105-122). -/
def initState (detected ground_truth : List Rect) : LoopState :=
  { all_IoU_scores := fillMatrix detected ground_truth
    IoU_scores := List.replicate ground_truth.length Score.init
    avg_IoU := Dbl.num 0
    tp := 0
    fp := (detected.length : Int)
    picks := [] }

/-- The whole of `hand_detect::avg_IoU_score` (Util.cpp 99-165), returning every
variable that is live at the `return`. -/
def avg_IoU_run (detected ground_truth : List Rect) (threshold : Dbl) :
    Except Failure Outcome :=
  match mainLoop threshold ground_truth.length (initState detected ground_truth) with
  | .error e => .error e
  | .ok s =>
      let fn : Int := (s.IoU_scores.length : Int) - s.tp
      .ok { score := Dbl.div s.avg_IoU (Dbl.ofInt (s.tp + s.fp + fn))
            tp := s.tp
            fp := s.fp
            fn := fn
            IoU_scores := s.IoU_scores
            all_IoU_scores := s.all_IoU_scores
            picks := s.picks }

/-- The value returned by `hand_detect::avg_IoU_score`. -/
def avg_IoU_score (detected ground_truth : List Rect) (threshold : Dbl) :
    Except Failure Dbl :=
  match avg_IoU_run detected ground_truth threshold with
  | .error e => .error e
  | .ok o => .ok o.score

/-! ## Vocabulary of the proofs: matrix entries, scan and loop invariants -/

namespace Rect

instance (r : Rect) : Decidable r.wellFormed := by
  unfold wellFormed; infer_instance

instance (r : Rect) : Decidable r.nonDegenerate := by
  unfold nonDegenerate; infer_instance

end Rect

/-- The precondition of `IoU_score`: the area in the denominator is not zero. -/
def IoU_defined (d g : Rect) : Prop := (d.or g).area ≠ 0

/-- No `int` operation of `IoU_score(A, B)` overflows: the corners of both rectangles
lie in `[-2^30, 2^30)` and the exact areas of `A & B` and `A | B` are values of `int`. -/
def NoOverflow (A B : Rect) : Prop :=
  A.inRange ∧ B.inRange ∧ (A.and B).areaFits ∧ (A.or B).areaFits

instance (r : Rect) : Decidable r.inRange := by
  unfold Rect.inRange; infer_instance

instance (r : Rect) : Decidable r.areaFits := by
  unfold Rect.areaFits; infer_instance

instance (A B : Rect) : Decidable (NoOverflow A B) := by
  unfold NoOverflow; infer_instance

instance (d g : Rect) : Decidable (IoU_defined d g) := by
  unfold IoU_defined; infer_instance

/-- The matrix entry `M[i][j]`, when both indices are in range. -/
def entry (M : List (List Dbl)) (i j : Nat) : Option Dbl :=
  match M[i]? with
  | some row => row[j]?
  | none => none

/-- Position `(i', j')` comes before `(i, j)` in row-major order. -/
def Before (i j i' j' : Nat) : Prop := i' < i ∨ (i' = i ∧ j' < j)

/-- What the scan knows when it is about to read position `(i, j)`: the current
maximum is either the initial one or the first largest positive entry read so far. -/
structure ScanInv (M : List (List Dbl)) (i j : Nat) (a : ArgMax) : Prop where
  pos : a = ⟨Dbl.num 0, -1, -1⟩ ∨ ∃ i' j' : Nat, Before i j i' j' ∧ a.gt_index = (i' : Int) ∧
      a.det_index = (j' : Int) ∧ entry M i' j' = some a.max_IoU ∧
      Dbl.gt a.max_IoU (Dbl.num 0) = true
  maxi : ∀ i' j' w, Before i j i' j' → entry M i' j' = some w → Dbl.gt w a.max_IoU = false
  first : ∀ i' j' i'' j'' : Nat, a.gt_index = (i' : Int) → a.det_index = (j' : Int) →
      Before i' j' i'' j'' → entry M i'' j'' ≠ some a.max_IoU

/-- The matrix after the column `j` has been overwritten with `-1`. -/
def killColumn (M : List (List Dbl)) (j : Nat) : List (List Dbl) :=
  M.map (fun row => row.set j (Dbl.num (-1)))

/-- The matrix and the record table have the dimensions fixed by the two inputs. -/
structure Shape (n m : Nat) (s : LoopState) : Prop where
  rows : s.all_IoU_scores.length = n
  cols : ∀ row ∈ s.all_IoU_scores, row.length = m
  recs : s.IoU_scores.length = n

/-- The effect of an iteration that passes the threshold test with the arg-max
`v` at row `i`, column `j`. -/
structure StepSpec (s s1 : LoopState) (i j : Nat) (v : Dbl) : Prop where
  fm : findMax s.all_IoU_scores = ⟨v, (i : Int), (j : Int)⟩
  ent : entry s.all_IoU_scores i j = some v
  pos : Dbl.gt v (Dbl.num 0) = true
  mat : s1.all_IoU_scores = killColumn s.all_IoU_scores j
  upd : (∃ r, s.IoU_scores[i]? = some r ∧ r.det_index = -1 ∧
          s1.IoU_scores = s.IoU_scores.set i ⟨v, (j : Int)⟩ ∧
          s1.avg_IoU = Dbl.add s.avg_IoU v ∧ s1.tp = s.tp + 1 ∧ s1.fp = s.fp - 1 ∧
          s1.picks = s.picks ++ [⟨(i : Int), (j : Int), true⟩]) ∨
        (∃ r, s.IoU_scores[i]? = some r ∧ r.det_index ≠ -1 ∧
          s1.IoU_scores = s.IoU_scores ∧
          s1.avg_IoU = s.avg_IoU ∧ s1.tp = s.tp ∧ s1.fp = s.fp ∧
          s1.picks = s.picks ++ [⟨(i : Int), (j : Int), false⟩])

/-! ## The invariant of the main loop -/

/-- The finite value held by a double (0 for the non-finite ones). -/
def Dbl.val : Dbl → ℚ
  | Dbl.num q => q
  | _ => 0

/-- The detection indices selected so far. -/
def pickedCols (s : LoopState) : List Int := s.picks.map Pick.det_index

/-- The ground-truth indices for which a match record was written so far. -/
def recordedRows (s : LoopState) : List Int :=
  (s.picks.filter Pick.recorded).map Pick.gt_index

/-- Every entry of the matrix is a finite value. -/
def AllNum (M : List (List Dbl)) : Prop :=
  ∀ i j w, entry M i j = some w → ∃ q : ℚ, w = Dbl.num q

/-- The invariant of the main loop of `avg_IoU_score`, relative to the matrix `M0`
filled before the loop. -/
structure Inv (n m : Nat) (τ : Dbl) (M0 : List (List Dbl)) (s : LoopState) : Prop where
  rng : ∀ p ∈ s.picks, ∃ i j : Nat, p.gt_index = (i : Int) ∧ p.det_index = (j : Int) ∧
      i < n ∧ j < m
  mat : ∀ i j : Nat, entry s.all_IoU_scores i j =
      if (j : Int) ∈ pickedCols s then (entry M0 i j).map (fun _ => Dbl.num (-1))
      else entry M0 i j
  det_nodup : (pickedCols s).Nodup
  gt_nodup : (recordedRows s).Nodup
  tp_eq : s.tp = ((recordedRows s).length : Int)
  fp_eq : s.tp + s.fp = (m : Int)
  recs : ∀ (i : Nat) (r : Score), s.IoU_scores[i]? = some r →
      (r = Score.init ∧ (i : Int) ∉ recordedRows s) ∨
      (∃ j : Nat, r.det_index = (j : Int) ∧ (⟨(i : Int), (j : Int), true⟩ : Pick) ∈ s.picks ∧
        entry M0 i j = some r.IoU ∧ Dbl.gt r.IoU (Dbl.num 0) = true ∧ Dbl.lt r.IoU τ = false)
  sum : AllNum M0 → s.avg_IoU = Dbl.num ((s.IoU_scores.map (fun r => r.IoU.val)).sum)

/-- The outcome that `avg_IoU_run` builds from the final loop state. -/
def outcomeOf (s : LoopState) : Outcome :=
  { score := Dbl.div s.avg_IoU
      (Dbl.ofInt (s.tp + s.fp + ((s.IoU_scores.length : Int) - s.tp)))
    tp := s.tp
    fp := s.fp
    fn := (s.IoU_scores.length : Int) - s.tp
    IoU_scores := s.IoU_scores
    all_IoU_scores := s.all_IoU_scores
    picks := s.picks }

/-- The match records that hold a match (`det_index` is not the sentinel `-1`). -/
def matchRecords (recs : List Score) : List Score :=
  recs.filter (fun r => decide (r.det_index ≠ -1))

/-! ## Vocabulary of the claims on particular runs -/

/-- The history of a run that matched row `k` with column `k` for every `k < c`. -/
def diagPicks (c : Nat) : List Pick :=
  (List.range c).map (fun k : Nat => (⟨(k : Int), (k : Int), true⟩ : Pick))

/-- No two positions of the matrix hold the same positive value. -/
def TieFree (M : List (List Dbl)) : Prop :=
  ∀ (i j a b : Nat) (v : Dbl), entry M i j = some v → entry M a b = some v →
    Dbl.gt v (Dbl.num 0) = true → i = a ∧ j = b

/-- A match record that holds no match yet. -/
def Score.free (r : Score) : Bool := decide (r.det_index = -1)

/-- The state `s1` is the state `s` with the rows renumbered by `σ` and the columns
by `π`: row `i` of `s1` is row `σ i` of `s`, column `j` of `s1` is column `π j` of `s`. -/
structure Reindexed (σ π : Nat → Nat) (s s1 : LoopState) : Prop where
  mat : ∀ i j, entry s1.all_IoU_scores i j = entry s.all_IoU_scores (σ i) (π j)
  recs : ∀ i, (s1.IoU_scores[i]?).map Score.free = (s.IoU_scores[σ i]?).map Score.free
  avg : s1.avg_IoU = s.avg_IoU
  tp : s1.tp = s.tp
  fp : s1.fp = s.fp

/-! ## Images (`cv::Mat`), `pixel_accuracy` and `crop_bboxes` -/

/-- The difference `a - b` on doubles. -/
def Dbl.sub : Dbl → Dbl → Dbl
  | Dbl.num a, Dbl.num b => Dbl.num (a - b)
  | Dbl.num _, Dbl.inf p => Dbl.inf (!p)
  | Dbl.inf p, Dbl.num _ => Dbl.inf p
  | Dbl.inf p, Dbl.inf q => if p = q then Dbl.nan else Dbl.inf p
  | _, _ => Dbl.nan

/-- The fields of a `cv::Mat` that the code reads: its dimensions, its type code and,
for a single-channel 8-bit matrix, its pixels row by row. -/
structure Mat where
  rows : Int
  cols : Int
  type : Int
  data : List (List Nat)
deriving DecidableEq

/-- The OpenCV type code `CV_8UC1` (8-bit unsigned, one channel). -/
def CV_8UC1 : Int := 0

/-- The method `Mat::empty()`: the matrix has no element. -/
def Mat.empty (a : Mat) : Bool := decide (a.rows = 0) || decide (a.cols = 0)

/-- The matrix expression `a ^ b`: OpenCV raises `CV_Error(StsBadArg)` when an operand
is empty, otherwise the result is the bitwise exclusive or, pixel by pixel. -/
def Mat.xor (a b : Mat) : Except Failure (List (List Nat)) :=
  if a.empty || b.empty then .error .badArg
  else .ok (List.zipWith (fun ra rb => List.zipWith (fun p q => Nat.xor p q) ra rb)
    a.data b.data)

/-- OpenCV `countNonZero`: the number of pixels different from 0. -/
def countNonZero (pixels : List (List Nat)) : Int :=
  ((pixels.map (fun row => (row.filter (fun p => decide (p ≠ 0))).length)).sum : Nat)

/-- `hand_detect::pixel_accuracy` (Util.cpp 21-28): three `CV_Assert`s, then
`1 - countNonZero(detected ^ ground_truth) / (detected.rows * detected.cols)`, the
count held in a `double` and the divisor an `int` product converted to `double`. -/
def pixel_accuracy (detected ground_truth : Mat) : Except Failure Dbl :=
  if detected.type ≠ CV_8UC1 then .error .assertion
  else if ground_truth.type ≠ CV_8UC1 then .error .assertion
  else if ¬ (detected.rows = ground_truth.rows ∧ detected.cols = ground_truth.cols) then
    .error .assertion
  else
    match detected.xor ground_truth with
    | .error e => .error e
    | .ok pixels =>
        let count_different : Dbl := Dbl.ofInt (countNonZero pixels)
        .ok (Dbl.sub (Dbl.num 1)
          (Dbl.div count_different (Dbl.ofInt (wrap32 (detected.rows * detected.cols)))))

/-- `hand_detect::crop_bboxes` (Util.cpp 202-211): the four `if`s in order, each
working on the rectangle left by the previous ones; the result is the final `box`.
The sums and differences are `int` operations. -/
def crop_bboxes (input : Mat) (box : Rect) : Rect :=
  let b1 : Rect := if box.x < 0 then { box with x := 0 } else box
  let b2 : Rect := if b1.y < 0 then { b1 with y := 0 } else b1
  let b3 : Rect :=
    if input.cols < wrap32 (b2.x + b2.width) then
      { b2 with width := wrap32 (input.cols - b2.x) }
    else b2
  let b4 : Rect :=
    if input.rows < wrap32 (b3.y + b3.height) then
      { b3 with height := wrap32 (input.rows - b3.y) }
    else b3
  b4

/-- The pixels of the image: `[0, cols) × [0, rows)`. -/
def Mat.inside (input : Mat) (px py : Int) : Prop :=
  0 ≤ px ∧ px < input.cols ∧ 0 ≤ py ∧ py < input.rows

/-! ## `extract_bboxes` -/

/-- OpenCV `cvRound`: the integer nearest to the value, a tie going to the even
neighbour (the default rounding mode of `lrint` and of the SSE2 conversion). -/
def cvRound (value : ℚ) : Int :=
  let f : Int := ⌊value⌋
  let r : ℚ := value - (f : ℚ)
  if r < 1 / 2 then f
  else if 1 / 2 < r then f + 1
  else if f % 2 = 0 then f else f + 1

/-- The four `int` locals `x, y, w, h` after one pass of
`boxes_txt >> x >> y >> w >> h` (Util.cpp 57-58); a value that could not be read
keeps its initial `-1`. -/
structure Quad where
  x : Int
  y : Int
  w : Int
  h : Int
  inRange : isInt x ∧ isInt y ∧ isInt w ∧ isInt h := by decide
deriving DecidableEq

/-- The test `x<0 || y<0 || w<0 || h<0` of Util.cpp 59, negated. -/
def Quad.valid (q : Quad) : Bool :=
  !(decide (q.x < 0) || decide (q.y < 0) || decide (q.w < 0) || decide (q.h < 0))

/-- The rectangle built by Util.cpp 61-63 for a record.  The parameter `sqrt` is the
C library function `sqrt` on doubles; the products of doubles are exact and the four
arguments of `emplace_back` are `int` expressions. -/
def paddedBox (sqrt : ℚ → ℚ) (scale_factor : ℚ) (q : Quad) : Rect :=
  let padding_x : Int := cvRound ((1 / 2 : ℚ) * (q.w : ℚ) * (sqrt scale_factor - 1))
  let padding_y : Int := cvRound ((1 / 2 : ℚ) * (q.h : ℚ) * (sqrt scale_factor - 1))
  ⟨wrap32 (q.x - padding_x), wrap32 (q.y - padding_y),
    wrap32 (q.w + wrap32 (2 * padding_x)), wrap32 (q.h + wrap32 (2 * padding_y))⟩

/-- The `while(!boxes_txt.eof())` loop of Util.cpp 56-64 over the records still to be
read, with the vector `boxes` built so far. -/
def extractLoop (sqrt : ℚ → ℚ) (scale_factor : ℚ) : List Quad → List Rect → List Rect
  | [], boxes => boxes
  | q :: rest, boxes =>
      if q.x < 0 ∨ q.y < 0 ∨ q.w < 0 ∨ q.h < 0 then extractLoop sqrt scale_factor rest boxes
      else extractLoop sqrt scale_factor rest (boxes ++ [paddedBox sqrt scale_factor q])

/-- `hand_detect::extract_bboxes` (Util.cpp 30-67).  The source is `none` when the
file cannot be opened, otherwise the sequence of quadruples read by the passes of
the loop. -/
def extract_bboxes (sqrt : ℚ → ℚ) (source : Option (List Quad)) (scale_factor : ℚ) :
    Except Failure (List Rect) :=
  if ¬ (0 < scale_factor) then .error .assertion
  else
    match source with
    | none => .ok []
    | some records => .ok (extractLoop sqrt scale_factor records [])

/-! # Theorems -/

/-! ## Facts about doubles -/

namespace Dbl

theorem gt_irrefl (a : Dbl) : gt a a = false := by
  cases a <;> simp [gt]

theorem gt_trans {a b c : Dbl} (h1 : gt a b = true) (h2 : gt b c = true) : gt a c = true := by
  cases a <;> cases b <;> cases c <;> simp_all [gt]
  exact lt_trans h2 h1

theorem gt_asymm {a b : Dbl} (h : gt a b = true) : gt b a = false := by
  cases a <;> cases b <;> simp_all [gt]
  exact le_of_lt h

/-- Two doubles that are not NaN (each is larger than something) and are not
strictly ordered are equal. -/
theorem eq_of_not_gt {v w x y : Dbl} (hv : gt v x = true) (hw : gt w y = true)
    (h1 : gt v w = false) (h2 : gt w v = false) : v = w := by
  cases v <;> cases w <;> cases x <;> cases y <;> simp_all [gt]
  all_goals exact le_antisymm h1 h2

end Dbl

/-! ## Facts about rectangles and `IoU_score` -/

namespace Rect

theorem and_self_eq (r : Rect) (h : r.nonDegenerate) : r.and r = r := by
  obtain ⟨hw, hh⟩ := h
  unfold Rect.and
  simp only [max_self, min_self, add_sub_cancel_left]
  rw [if_neg (by omega)]

theorem or_self_eq (r : Rect) (h : r.nonDegenerate) : r.or r = r := by
  obtain ⟨hw, hh⟩ := h
  have he : r.empty = false := by
    unfold Rect.empty
    simp only [Bool.or_eq_false_iff, decide_eq_false_iff_not]
    omega
  unfold Rect.or
  simp [he]

theorem wrap32_eq (z : Int) (h : isInt z) : wrap32 z = z := by
  unfold isInt at h
  unfold wrap32
  omega

theorem wrap32_isInt (z : Int) : isInt (wrap32 z) := by
  unfold isInt wrap32
  omega

theorem wrap32_zero : wrap32 0 = 0 := by decide

/-- When the exact product fits an `int`, `area()` is that product. -/
theorem area_eq (r : Rect) (h : r.areaFits) : r.area = r.exactArea :=
  wrap32_eq _ h

theorem zero_area : Rect.zero.area = 0 := by decide

theorem exactArea_pos (r : Rect) (h : r.nonDegenerate) : 0 < r.exactArea :=
  Int.mul_pos h.1 h.2

theorem area_pos (r : Rect) (h : r.nonDegenerate) (hf : r.areaFits) : 0 < r.area := by
  rw [area_eq r hf]
  exact exactArea_pos r h

theorem nonDegenerate_of_area (r : Rect) (hwf : r.wellFormed) (h : r.area ≠ 0) :
    r.nonDegenerate := by
  obtain ⟨hw, hh⟩ := hwf
  unfold area at h
  constructor
  · rcases lt_or_eq_of_le hw with h1 | h1
    · exact h1
    · exact absurd (by rw [← h1, Int.zero_mul, wrap32_zero]) h
  · rcases lt_or_eq_of_le hh with h1 | h1
    · exact h1
    · exact absurd (by rw [← h1, Int.mul_zero, wrap32_zero]) h

theorem empty_eq_false (r : Rect) (h : r.nonDegenerate) : r.empty = false := by
  obtain ⟨hw, hh⟩ := h
  unfold Rect.empty
  simp only [Bool.or_eq_false_iff, decide_eq_false_iff_not]
  omega

theorem empty_of_not_nonDegenerate (r : Rect) (h : ¬ r.nonDegenerate) : r.empty = true := by
  unfold nonDegenerate at h
  unfold Rect.empty
  simp only [Bool.or_eq_true, decide_eq_true_eq]
  omega

/-- Rectangles that share no pixel have the empty intersection `Rect()`. -/
theorem and_eq_zero_of_disjoint (a b : Rect) (h : a.disjoint b) : a.and b = zero := by
  unfold Rect.and
  simp only
  split
  · rfl
  · rename_i hc
    exfalso
    apply h (max a.x b.x) (max a.y b.y)
    unfold contains
    omega

/-- An intersection `a & b` covers exactly the pixels covered by both rectangles. -/
theorem and_contains (a b : Rect) (px py : Int) :
    (a.and b).contains px py ↔ a.contains px py ∧ b.contains px py := by
  unfold Rect.and
  simp only
  split
  · unfold contains zero
    simp only
    omega
  · unfold contains
    simp only
    omega

/-- The box `a | b` of two well-formed rectangles, one of them of non-zero area,
has a positive exact area. -/
theorem or_exactArea_pos (a b : Rect) (ha : a.wellFormed) (hb : b.wellFormed)
    (hne : a.area ≠ 0 ∨ b.area ≠ 0) : 0 < (a.or b).exactArea := by
  by_cases hA : a.nonDegenerate
  · by_cases hB : b.nonDegenerate
    · have h1 := empty_eq_false a hA
      have h2 := empty_eq_false b hB
      obtain ⟨haw, hah⟩ := hA
      obtain ⟨hbw, hbh⟩ := hB
      unfold Rect.or
      simp only [h1, h2, Bool.false_eq_true, if_false, Bool.not_false, if_true]
      unfold exactArea
      simp only
      apply Int.mul_pos <;> omega
    · have h1 := empty_eq_false a hA
      have h2 := empty_of_not_nonDegenerate b hB
      unfold Rect.or
      simp only [h1, h2, Bool.false_eq_true, if_false, Bool.not_true]
      exact exactArea_pos a hA
  · have h1 := empty_of_not_nonDegenerate a hA
    unfold Rect.or
    simp only [h1, if_true]
    have hb0 : b.area ≠ 0 := by
      rcases hne with h | h
      · exact absurd (nonDegenerate_of_area a ha h) hA
      · exact h
    exact exactArea_pos b (nonDegenerate_of_area b hb hb0)

/-- The box `a | b` of two well-formed rectangles, one of them of non-zero area,
has positive area when its exact area fits an `int`. -/
theorem or_area_pos (a b : Rect) (ha : a.wellFormed) (hb : b.wellFormed)
    (hne : a.area ≠ 0 ∨ b.area ≠ 0) (hf : (a.or b).areaFits) : 0 < (a.or b).area := by
  rw [area_eq _ hf]
  exact or_exactArea_pos a b ha hb hne

/-- The box `a | b` has a positive exact area as soon as `b` is non-degenerate. -/
theorem or_exactArea_pos_right (a b : Rect) (hb : b.nonDegenerate) :
    0 < (a.or b).exactArea := by
  by_cases hA : a.nonDegenerate
  · have h1 := empty_eq_false a hA
    have h2 := empty_eq_false b hb
    obtain ⟨haw, hah⟩ := hA
    obtain ⟨hbw, hbh⟩ := hb
    unfold Rect.or
    simp only [h1, h2, Bool.false_eq_true, if_false, Bool.not_false, if_true]
    unfold exactArea
    simp only
    apply Int.mul_pos <;> omega
  · have h1 := empty_of_not_nonDegenerate a hA
    unfold Rect.or
    simp only [h1, if_true]
    exact exactArea_pos b hb

theorem or_area_pos_right (a b : Rect) (hb : b.nonDegenerate) (hf : (a.or b).areaFits) :
    0 < (a.or b).area := by
  rw [area_eq _ hf]
  exact or_exactArea_pos_right a b hb

end Rect

/-- Two different non-degenerate rectangles: the intersection is strictly smaller
than the box `A | B`. -/
theorem and_exactArea_lt_or (A B : Rect) (hA : A.nonDegenerate) (hB : B.nonDegenerate)
    (hne : A ≠ B) :
    0 ≤ (A.and B).exactArea ∧ (A.and B).exactArea < (A.or B).exactArea := by
  have h1 := Rect.empty_eq_false A hA
  have h2 := Rect.empty_eq_false B hB
  obtain ⟨haw, hah⟩ := hA
  obtain ⟨hbw, hbh⟩ := hB
  have hU : A.or B = ⟨min A.x B.x, min A.y B.y,
      max (A.x + A.width) (B.x + B.width) - min A.x B.x,
      max (A.y + A.height) (B.y + B.height) - min A.y B.y⟩ := by
    unfold Rect.or
    simp only [h1, h2, Bool.false_eq_true, if_false, Bool.not_false, if_true]
  have hUw : 0 < max (A.x + A.width) (B.x + B.width) - min A.x B.x := by omega
  have hUh : 0 < max (A.y + A.height) (B.y + B.height) - min A.y B.y := by omega
  rw [hU]
  unfold Rect.and
  simp only
  split
  · refine ⟨le_refl _, ?_⟩
    show (0 : Int) * 0 < _ * _
    rw [Int.zero_mul]
    exact Int.mul_pos hUw hUh
  · rename_i hc
    have hIw : 0 < min (A.x + A.width) (B.x + B.width) - max A.x B.x := by omega
    have hIh : 0 < min (A.y + A.height) (B.y + B.height) - max A.y B.y := by omega
    have hle1 : min (A.x + A.width) (B.x + B.width) - max A.x B.x ≤
        max (A.x + A.width) (B.x + B.width) - min A.x B.x := by omega
    have hle2 : min (A.y + A.height) (B.y + B.height) - max A.y B.y ≤
        max (A.y + A.height) (B.y + B.height) - min A.y B.y := by omega
    have hstrict : min (A.x + A.width) (B.x + B.width) - max A.x B.x <
        max (A.x + A.width) (B.x + B.width) - min A.x B.x ∨
        min (A.y + A.height) (B.y + B.height) - max A.y B.y <
        max (A.y + A.height) (B.y + B.height) - min A.y B.y := by
      by_contra hcon
      apply hne
      have hx : A.x = B.x := by omega
      have hy : A.y = B.y := by omega
      have hw : A.width = B.width := by omega
      have hh : A.height = B.height := by omega
      cases A; cases B
      simp only at hx hy hw hh
      subst hx; subst hy; subst hw; subst hh
      rfl
    unfold Rect.exactArea
    simp only
    generalize min (A.x + A.width) (B.x + B.width) - max A.x B.x = wi at *
    generalize min (A.y + A.height) (B.y + B.height) - max A.y B.y = hi at *
    generalize max (A.x + A.width) (B.x + B.width) - min A.x B.x = wu at *
    generalize max (A.y + A.height) (B.y + B.height) - min A.y B.y = hu at *
    refine ⟨le_of_lt (Int.mul_pos hIw hIh), ?_⟩
    rcases hstrict with hs | hs
    · calc wi * hi ≤ wi * hu := Int.mul_le_mul_of_nonneg_left hle2 (le_of_lt hIw)
        _ < wu * hu := Int.mul_lt_mul_of_pos_right hs hUh
    · calc wi * hi < wi * hu := Int.mul_lt_mul_of_pos_left hs hIw
        _ ≤ wu * hu := Int.mul_le_mul_of_nonneg_right hle1 (le_of_lt hUh)

theorem and_area_lt_or_area (A B : Rect) (hA : A.nonDegenerate) (hB : B.nonDegenerate)
    (hne : A ≠ B) (hI : (A.and B).areaFits) (hU : (A.or B).areaFits) :
    0 ≤ (A.and B).area ∧ (A.and B).area < (A.or B).area := by
  rw [Rect.area_eq _ hI, Rect.area_eq _ hU]
  exact and_exactArea_lt_or A B hA hB hne

/-- Two different non-degenerate rectangles have an overlap ratio below 1, when no
area overflows. -/
theorem IoU_score_lt_one (A B : Rect) (hA : A.nonDegenerate) (hB : B.nonDegenerate)
    (hne : A ≠ B) (hI : (A.and B).areaFits) (hU : (A.or B).areaFits) :
    ∃ q : ℚ, IoU_score A B = Dbl.num q ∧ 0 ≤ q ∧ q < 1 := by
  obtain ⟨h0, h1⟩ := and_area_lt_or_area A B hA hB hne hI hU
  have hUpos : 0 < (A.or B).area := lt_of_le_of_lt h0 h1
  have hUq : (0 : ℚ) < ((A.or B).area : ℚ) := by exact_mod_cast hUpos
  refine ⟨((A.and B).area : ℚ) / ((A.or B).area : ℚ), ?_, ?_, ?_⟩
  · unfold IoU_score Dbl.ofInt Dbl.div
    simp only
    rw [if_neg (ne_of_gt hUq)]
  · exact div_nonneg (by exact_mod_cast h0) (le_of_lt hUq)
  · rw [div_lt_one hUq]
    exact_mod_cast h1

theorem IoU_score_num (d g : Rect) (h : IoU_defined d g) :
    IoU_score d g = Dbl.num (((d.and g).area : ℚ) / ((d.or g).area : ℚ)) := by
  unfold IoU_score Dbl.ofInt Dbl.div
  simp only
  rw [if_neg (by exact_mod_cast h)]

/-- The overlap ratio of a non-degenerate rectangle with itself, when its area does
not overflow. -/
theorem IoU_score_same (R : Rect) (h : R.nonDegenerate) (hf : R.areaFits) :
    IoU_score R R = Dbl.num 1 := by
  have hdef : IoU_defined R R := by
    unfold IoU_defined
    rw [Rect.or_self_eq R h]
    exact ne_of_gt (Rect.area_pos R h hf)
  rw [IoU_score_num R R hdef, Rect.and_self_eq R h, Rect.or_self_eq R h]
  congr 1
  exact div_self (by exact_mod_cast ne_of_gt (Rect.area_pos R h hf))

/-- The parts of `NoOverflow R R` for a non-degenerate rectangle. -/
theorem NoOverflow.self_fits {R : Rect} (h : R.nonDegenerate) (hno : NoOverflow R R) :
    R.areaFits := by
  have h1 := hno.2.2.2
  rw [Rect.or_self_eq R h] at h1
  exact h1

theorem IoU_score_eq_zero (A B : Rect) (hI : (A.and B).area = 0) (hU : (A.or B).area ≠ 0) :
    IoU_score A B = Dbl.num 0 := by
  unfold IoU_score Dbl.ofInt Dbl.div
  simp only [hI, Int.cast_zero, zero_div]
  rw [if_neg (by exact_mod_cast hU)]

/-! ## The arg-max scan -/

theorem getElem?_append_cons {α : Type} (pre : List α) (v : α) (vs : List α) :
    (pre ++ v :: vs)[pre.length]? = some v := by
  rw [List.getElem?_append_right (le_refl _)]
  simp

theorem ScanInv.nonneg {M : List (List Dbl)} {i j : Nat} {a : ArgMax} (h : ScanInv M i j a) :
    a.max_IoU = Dbl.num 0 ∨ Dbl.gt a.max_IoU (Dbl.num 0) = true := by
  rcases h.pos with h0 | ⟨_, _, _, _, _, _, hp⟩
  · left; rw [h0]
  · right; exact hp

theorem scanInv_init (M : List (List Dbl)) : ScanInv M 0 0 ⟨Dbl.num 0, -1, -1⟩ := by
  refine ⟨Or.inl rfl, ?_, ?_⟩
  · intro i' j' w hb _
    rcases hb with h | ⟨_, h⟩ <;> omega
  · intro i' j' i'' j'' h
    simp at h

/-- Reading the entry at `(i, j)` keeps the scan invariant. -/
theorem scanInv_step {M : List (List Dbl)} {i j : Nat} {a : ArgMax} {v : Dbl}
    (h : ScanInv M i j a) (hv : entry M i j = some v) :
    ScanInv M i (j + 1) (if Dbl.gt v a.max_IoU then ⟨v, (i : Int), (j : Int)⟩ else a) := by
  by_cases hg : Dbl.gt v a.max_IoU = true
  · rw [if_pos hg]
    have hv0 : Dbl.gt v (Dbl.num 0) = true := by
      rcases h.nonneg with h0 | h0
      · rw [← h0]; exact hg
      · exact Dbl.gt_trans hg h0
    refine ⟨Or.inr ⟨i, j, Or.inr ⟨rfl, Nat.lt_succ_self j⟩, rfl, rfl, hv, hv0⟩, ?_, ?_⟩
    · intro i' j' w hb hw
      show Dbl.gt w v = false
      rcases hb with hb | ⟨hi, hj⟩
      · have h1 := h.maxi i' j' w (Or.inl hb) hw
        by_contra hc
        rw [Bool.not_eq_false] at hc
        rw [Dbl.gt_trans hc hg] at h1
        exact Bool.noConfusion h1
      · rcases Nat.lt_succ_iff_lt_or_eq.mp hj with hj | hj
        · have h1 := h.maxi i' j' w (Or.inr ⟨hi, hj⟩) hw
          by_contra hc
          rw [Bool.not_eq_false] at hc
          rw [Dbl.gt_trans hc hg] at h1
          exact Bool.noConfusion h1
        · subst hi; subst hj
          rw [hv] at hw
          cases hw
          exact Dbl.gt_irrefl _
    · intro i' j' i'' j'' hi hj hb hw
      have hi : (i : Int) = i' := hi
      have hj : (j : Int) = j' := hj
      have hi1 : i = i' := by exact_mod_cast hi
      have hj1 : j = j' := by exact_mod_cast hj
      subst hi1; subst hj1
      have h1 := h.maxi i'' j'' v hb hw
      rw [hg] at h1
      exact Bool.noConfusion h1
  · rw [if_neg hg]
    rw [Bool.not_eq_true] at hg
    refine ⟨?_, ?_, h.first⟩
    · rcases h.pos with h0 | ⟨i', j', hb, h1⟩
      · exact Or.inl h0
      · refine Or.inr ⟨i', j', ?_, h1⟩
        rcases hb with hb | ⟨hi, hj⟩
        · exact Or.inl hb
        · exact Or.inr ⟨hi, Nat.lt_succ_of_lt hj⟩
    · intro i' j' w hb hw
      rcases hb with hb | ⟨hi, hj⟩
      · exact h.maxi i' j' w (Or.inl hb) hw
      · rcases Nat.lt_succ_iff_lt_or_eq.mp hj with hj | hj
        · exact h.maxi i' j' w (Or.inr ⟨hi, hj⟩) hw
        · subst hi; subst hj
          rw [hv] at hw
          cases hw
          exact hg

/-- The end of row `i` is the start of row `i + 1`. -/
theorem scanInv_nextRow {M : List (List Dbl)} {i : Nat} {a : ArgMax} {row : List Dbl}
    (hrow : M[i]? = some row) (h : ScanInv M i row.length a) : ScanInv M (i + 1) 0 a := by
  refine ⟨?_, ?_, h.first⟩
  · rcases h.pos with h0 | ⟨i', j', hb, h1⟩
    · exact Or.inl h0
    · refine Or.inr ⟨i', j', ?_, h1⟩
      rcases hb with hb | ⟨hi, _⟩
      · exact Or.inl (Nat.lt_succ_of_lt hb)
      · exact Or.inl (by omega)
  · intro i' j' w hb hw
    rcases hb with hb | ⟨_, hj⟩
    · rcases Nat.lt_succ_iff_lt_or_eq.mp hb with hb | hb
      · exact h.maxi i' j' w (Or.inl hb) hw
      · subst hb
        refine h.maxi i' j' w (Or.inr ⟨rfl, ?_⟩) hw
        unfold entry at hw
        rw [hrow] at hw
        simp only at hw
        exact (List.getElem?_eq_some.mp hw).1
    · omega

theorem scanRow_inv {M : List (List Dbl)} {i : Nat} {row : List Dbl} (hrow : M[i]? = some row) :
    ∀ (vs pre : List Dbl) (a : ArgMax), row = pre ++ vs → ScanInv M i pre.length a →
      ScanInv M i row.length (scanRow i pre.length vs a) := by
  intro vs
  induction vs with
  | nil =>
      intro pre a hpre h
      simp only [List.append_nil] at hpre
      subst hpre
      exact h
  | cons v vs ih =>
      intro pre a hpre h
      have hv : entry M i pre.length = some v := by
        unfold entry
        rw [hrow, hpre]
        exact getElem?_append_cons pre v vs
      have h1 := scanInv_step h hv
      have h2 := ih (pre ++ [v]) _ (by simp [hpre]) (by simpa using h1)
      simpa [scanRow] using h2

theorem scanRows_inv {M : List (List Dbl)} :
    ∀ (rows pre : List (List Dbl)) (a : ArgMax), M = pre ++ rows → ScanInv M pre.length 0 a →
      ScanInv M M.length 0 (scanRows pre.length rows a) := by
  intro rows
  induction rows with
  | nil =>
      intro pre a hpre h
      simp only [List.append_nil] at hpre
      subst hpre
      exact h
  | cons row rows ih =>
      intro pre a hpre h
      have hrow : M[pre.length]? = some row := by
        rw [hpre]
        exact getElem?_append_cons pre row rows
      have h1 := scanRow_inv hrow row [] a rfl h
      have h2 := scanInv_nextRow hrow h1
      have h3 := ih (pre ++ [row]) _ (by simp [hpre]) (by simpa using h2)
      simpa [scanRows] using h3

theorem findMax_inv (M : List (List Dbl)) : ScanInv M M.length 0 (findMax M) :=
  scanRows_inv M [] _ rfl (scanInv_init M)

theorem entry_lt {M : List (List Dbl)} {i j : Nat} {w : Dbl} (h : entry M i j = some w) :
    i < M.length := by
  unfold entry at h
  cases hM : M[i]? with
  | none => rw [hM] at h; cases h
  | some row => exact (List.getElem?_eq_some.mp hM).1

/-- No entry of the matrix is larger than the maximum found by the scan. -/
theorem findMax_max (M : List (List Dbl)) (i j : Nat) (w : Dbl) (h : entry M i j = some w) :
    Dbl.gt w (findMax M).max_IoU = false :=
  (findMax_inv M).maxi i j w (Or.inl (entry_lt h)) h

/-- The scan ends either with its initial values or at a positive entry of the matrix. -/
theorem findMax_cases (M : List (List Dbl)) :
    findMax M = ⟨Dbl.num 0, -1, -1⟩ ∨ ∃ i j : Nat, (findMax M).gt_index = (i : Int) ∧
      (findMax M).det_index = (j : Int) ∧ entry M i j = some (findMax M).max_IoU ∧
      Dbl.gt (findMax M).max_IoU (Dbl.num 0) = true := by
  rcases (findMax_inv M).pos with h | ⟨i, j, _, h⟩
  · exact Or.inl h
  · exact Or.inr ⟨i, j, h⟩

/-- The scan returns the first position, in row-major order, of the largest entry,
provided that entry is positive. -/
theorem findMax_eq (M : List (List Dbl)) (i j : Nat) (v : Dbl) (hv : entry M i j = some v)
    (hpos : Dbl.gt v (Dbl.num 0) = true)
    (hmax : ∀ i' j' w, entry M i' j' = some w → Dbl.gt w v = false)
    (hfirst : ∀ i' j', Before i j i' j' → entry M i' j' ≠ some v) :
    findMax M = ⟨v, (i : Int), (j : Int)⟩ := by
  have hI := findMax_inv M
  rcases findMax_cases M with h0 | ⟨i1, j1, hi1, hj1, he1, hp1⟩
  · have h1 := findMax_max M i j v hv
    rw [h0] at h1
    rw [hpos] at h1
    exact Bool.noConfusion h1
  · have h1 := findMax_max M i j v hv
    have h2 := hmax i1 j1 _ he1
    have heq : v = (findMax M).max_IoU := Dbl.eq_of_not_gt hpos hp1 h1 h2
    have hnb1 : ¬ Before i j i1 j1 := by
      intro hb
      exact hfirst i1 j1 hb (by rw [he1, heq])
    have hnb2 : ¬ Before i1 j1 i j := by
      intro hb
      exact hI.first i1 j1 i j hi1 hj1 hb (by rw [hv, heq])
    have hij : i1 = i ∧ j1 = j := by
      unfold Before at hnb1 hnb2
      omega
    obtain ⟨rfl, rfl⟩ := hij
    cases hfm : findMax M with
    | mk mx gi di =>
      rw [hfm] at hi1 hj1 heq
      simp only at hi1 hj1 heq
      rw [hi1, hj1, heq]

/-! ## One iteration of the main loop -/

theorem vecGet_ok {α : Type} (v : List α) (i : Nat) (a : α) (h : v[i]? = some a) :
    vecGet v (i : Int) = .ok a := by
  unfold vecGet
  rw [if_pos (Int.ofNat_nonneg i)]
  simp only [Int.toNat_ofNat, h]

theorem vecSet_ok {α : Type} (v : List α) (i : Nat) (a : α) (h : i < v.length) :
    vecSet v (i : Int) a = .ok (v.set i a) := by
  unfold vecSet
  rw [if_pos ⟨Int.ofNat_nonneg i, by exact_mod_cast h⟩]
  simp only [Int.toNat_ofNat]

theorem invalidate_ok (j : Nat) : ∀ M : List (List Dbl), (∀ row ∈ M, j < row.length) →
    invalidate M (j : Int) = .ok (killColumn M j) := by
  intro M
  induction M with
  | nil => intro _; rfl
  | cons row rows ih =>
      intro h
      have h1 : j < row.length := h row (List.mem_cons_self _ _)
      have h2 := ih (fun r hr => h r (List.mem_cons_of_mem _ hr))
      simp only [invalidate, vecSet_ok row j _ h1, h2, killColumn, List.map_cons]

theorem entry_killColumn (M : List (List Dbl)) (j i j' : Nat) :
    entry (killColumn M j) i j' =
      if j = j' then (entry M i j').map (fun _ => Dbl.num (-1)) else entry M i j' := by
  unfold entry killColumn
  rw [List.getElem?_map]
  cases hM : M[i]? with
  | none => simp
  | some row =>
      simp only [Option.map_some']
      rw [List.getElem?_set']
      by_cases hj : j = j'
      · simp only [hj, if_true, Option.map_eq_map]
        rfl
      · simp only [hj, if_false]

theorem entry_bounds {n m : Nat} {s : LoopState} (hs : Shape n m s) {i j : Nat} {w : Dbl}
    (h : entry s.all_IoU_scores i j = some w) : i < n ∧ j < m := by
  unfold entry at h
  cases hM : s.all_IoU_scores[i]? with
  | none => rw [hM] at h; cases h
  | some row =>
      rw [hM] at h
      simp only at h
      have h1 := List.getElem?_eq_some.mp hM
      have h2 := List.getElem?_eq_some.mp h
      obtain ⟨hi, hrow⟩ := h1
      have hmem : row ∈ s.all_IoU_scores := by
        rw [← hrow]; exact List.getElem_mem _
      rw [hs.rows] at hi
      exact ⟨hi, by rw [← hs.cols row hmem]; exact h2.1⟩

theorem entry_some_of_bounds {n m : Nat} {s : LoopState} (hs : Shape n m s) {i j : Nat}
    (hi : i < n) (hj : j < m) : ∃ w, entry s.all_IoU_scores i j = some w := by
  have hi1 : i < s.all_IoU_scores.length := by rw [hs.rows]; exact hi
  have hmem : s.all_IoU_scores[i] ∈ s.all_IoU_scores := List.getElem_mem _
  have hj1 : j < (s.all_IoU_scores[i]).length := by rw [hs.cols _ hmem]; exact hj
  refine ⟨(s.all_IoU_scores[i])[j], ?_⟩
  unfold entry
  rw [List.getElem?_eq_getElem hi1]
  simp only
  rw [List.getElem?_eq_getElem hj1]

/-- With a positive threshold an iteration either breaks or performs a step on
in-range indices; it never fails. -/
theorem loopBody_spec {n m : Nat} {τ : Dbl} (hτ : Dbl.gt τ (Dbl.num 0) = true)
    {s : LoopState} (hs : Shape n m s) :
    (loopBody τ s = .ok none ∧ Dbl.lt (findMax s.all_IoU_scores).max_IoU τ = true) ∨
    ∃ s1 i j v, loopBody τ s = .ok (some s1) ∧ StepSpec s s1 i j v ∧ Dbl.lt v τ = false := by
  by_cases hlt : Dbl.lt (findMax s.all_IoU_scores).max_IoU τ = true
  · left
    refine ⟨?_, hlt⟩
    unfold loopBody
    simp only [hlt, if_true]
  · right
    rcases findMax_cases s.all_IoU_scores with h0 | ⟨i, j, hi, hj, he, hp⟩
    · exfalso
      apply hlt
      rw [h0]
      exact hτ
    · obtain ⟨hin, hjm⟩ := entry_bounds hs he
      have hfm : findMax s.all_IoU_scores =
          ⟨(findMax s.all_IoU_scores).max_IoU, (i : Int), (j : Int)⟩ := by
        cases hf : findMax s.all_IoU_scores with
        | mk mx gi di =>
          rw [hf] at hi hj
          simp only at hi hj
          rw [hi, hj]
      generalize (findMax s.all_IoU_scores).max_IoU = v at hfm he hp hlt
      have hir : i < s.IoU_scores.length := by rw [hs.recs]; exact hin
      have hrec : s.IoU_scores[i]? = some s.IoU_scores[i] := List.getElem?_eq_getElem hir
      have hcols : ∀ row ∈ s.all_IoU_scores, j < row.length := by
        intro row hrow
        rw [hs.cols row hrow]; exact hjm
      rw [Bool.not_eq_true] at hlt
      by_cases hd : (s.IoU_scores[i]).det_index = -1
      · -- the iteration writes a match record
        have hrow : ∃ row, s.all_IoU_scores[i]? = some row ∧ row[j]? = some v := by
          unfold entry at he
          cases hM : s.all_IoU_scores[i]? with
          | none => rw [hM] at he; cases he
          | some row => rw [hM] at he; exact ⟨row, rfl, he⟩
        obtain ⟨row, hrow1, hrow2⟩ := hrow
        refine ⟨{ s with
                  all_IoU_scores := killColumn s.all_IoU_scores j
                  IoU_scores := s.IoU_scores.set i ⟨v, (j : Int)⟩
                  avg_IoU := Dbl.add s.avg_IoU v
                  fp := s.fp - 1
                  tp := s.tp + 1
                  picks := s.picks ++ [⟨(i : Int), (j : Int), true⟩] }, i, j, v, ?_, ?_, hlt⟩
        · unfold loopBody
          simp only [hfm, hlt, Bool.false_eq_true, if_false]
          unfold recordMatch
          simp only [vecGet_ok _ i _ hrec, hd, if_true, vecGet_ok _ i _ hrow1,
            vecGet_ok _ j _ hrow2, vecSet_ok _ i _ hir, invalidate_ok j _ hcols]
        · exact ⟨hfm, he, hp, rfl, Or.inl ⟨_, hrec, hd, rfl, rfl, rfl, rfl, rfl⟩⟩
      · -- the row is already matched: only the column is consumed
        refine ⟨{ s with
                  all_IoU_scores := killColumn s.all_IoU_scores j
                  picks := s.picks ++ [⟨(i : Int), (j : Int), false⟩] }, i, j, v, ?_, ?_, hlt⟩
        · unfold loopBody
          simp only [hfm, hlt, Bool.false_eq_true, if_false]
          unfold recordMatch
          simp only [vecGet_ok _ i _ hrec, hd, if_false, invalidate_ok j _ hcols]
        · exact ⟨hfm, he, hp, rfl, Or.inr ⟨_, hrec, hd, rfl, rfl, rfl, rfl, rfl⟩⟩

theorem StepSpec.shape {n m : Nat} {s s1 : LoopState} {i j : Nat} {v : Dbl}
    (hs : Shape n m s) (h : StepSpec s s1 i j v) : Shape n m s1 := by
  refine ⟨?_, ?_, ?_⟩
  · rw [h.mat, killColumn, List.length_map, hs.rows]
  · intro row hrow
    rw [h.mat, killColumn, List.mem_map] at hrow
    obtain ⟨r0, hr0, rfl⟩ := hrow
    rw [List.length_set]
    exact hs.cols r0 hr0
  · rcases h.upd with ⟨_, _, _, h1, _⟩ | ⟨_, _, _, h1, _⟩
    · rw [h1, List.length_set, hs.recs]
    · rw [h1, hs.recs]

/-- Loop-invariant rule for the main loop under a positive threshold: the loop
terminates without failure in a state that satisfies every property preserved by
the steps. -/
theorem mainLoop_inv {n m : Nat} {τ : Dbl} (hτ : Dbl.gt τ (Dbl.num 0) = true)
    (P : LoopState → Prop)
    (hP : ∀ s s1 i j v, Shape n m s → P s → StepSpec s s1 i j v → Dbl.lt v τ = false → P s1) :
    ∀ (k : Nat) (s : LoopState), Shape n m s → P s →
      ∃ s1, mainLoop τ k s = .ok s1 ∧ Shape n m s1 ∧ P s1 := by
  intro k
  induction k with
  | zero => intro s hs hp; exact ⟨s, rfl, hs, hp⟩
  | succ k ih =>
      intro s hs hp
      rcases loopBody_spec hτ hs with ⟨hb, _⟩ | ⟨s1, i, j, v, hb, hstep, hlt⟩
      · refine ⟨s, ?_, hs, hp⟩
        simp only [mainLoop, hb]
      · obtain ⟨s2, h2, hs2, hp2⟩ := ih s1 (hstep.shape hs) (hP s s1 i j v hs hp hstep hlt)
        refine ⟨s2, ?_, hs2, hp2⟩
        simp only [mainLoop, hb, h2]

theorem Dbl.val_num (q : ℚ) : (Dbl.num q).val = q := rfl

theorem StepSpec.picks_eq {s s1 : LoopState} {i j : Nat} {v : Dbl} (h : StepSpec s s1 i j v) :
    ∃ b, s1.picks = s.picks ++ [⟨(i : Int), (j : Int), b⟩] := by
  rcases h.upd with ⟨_, _, _, _, _, _, _, h1⟩ | ⟨_, _, _, _, _, _, _, h1⟩
  · exact ⟨true, h1⟩
  · exact ⟨false, h1⟩

/-- A column that still holds a positive entry has not been selected, and that
entry is an entry of the original matrix. -/
theorem Inv.fresh_of_pos {n m : Nat} {τ : Dbl} {M0 : List (List Dbl)} {s : LoopState}
    {i j : Nat} {v : Dbl} (hI : Inv n m τ M0 s) (hent : entry s.all_IoU_scores i j = some v)
    (hpos : Dbl.gt v (Dbl.num 0) = true) :
    (j : Int) ∉ pickedCols s ∧ entry M0 i j = some v := by
  have hmat := hI.mat i j
  rw [hent] at hmat
  by_cases hj : (j : Int) ∈ pickedCols s
  · exfalso
    rw [if_pos hj] at hmat
    cases hM : entry M0 i j with
    | none => rw [hM] at hmat; cases hmat
    | some w =>
        rw [hM] at hmat
        simp only [Option.map_some', Option.some.injEq] at hmat
        rw [hmat] at hpos
        norm_num [Dbl.gt] at hpos
  · rw [if_neg hj] at hmat
    exact ⟨hj, hmat.symm⟩

/-- The column selected by a step has not been selected before, and its arg-max
entry is an entry of the original matrix. -/
theorem Inv.fresh {n m : Nat} {τ : Dbl} {M0 : List (List Dbl)} {s s1 : LoopState}
    {i j : Nat} {v : Dbl} (hI : Inv n m τ M0 s) (h : StepSpec s s1 i j v) :
    (j : Int) ∉ pickedCols s ∧ entry M0 i j = some v :=
  hI.fresh_of_pos h.ent h.pos

theorem Inv.step {n m : Nat} {τ : Dbl} {M0 : List (List Dbl)} {s s1 : LoopState}
    {i j : Nat} {v : Dbl} (hs : Shape n m s) (hI : Inv n m τ M0 s)
    (h : StepSpec s s1 i j v) (hlt : Dbl.lt v τ = false) : Inv n m τ M0 s1 := by
  obtain ⟨hin, hjm⟩ := entry_bounds hs h.ent
  obtain ⟨hfresh, hM0⟩ := hI.fresh h
  obtain ⟨b, hpicks⟩ := h.picks_eq
  have hcols : pickedCols s1 = pickedCols s ++ [(j : Int)] := by
    unfold pickedCols
    rw [hpicks, List.map_append]
    rfl
  have hmono : ∀ p ∈ s.picks, p ∈ s1.picks := by
    intro p hp
    rw [hpicks]
    exact List.mem_append_left _ hp
  have hrows : recordedRows s1 = recordedRows s ++ (if b then [(i : Int)] else []) := by
    unfold recordedRows
    rw [hpicks, List.filter_append, List.map_append]
    cases b <;> rfl
  refine ⟨?_, ?_, ?_, ?_, ?_, ?_, ?_, ?_⟩
  · -- rng
    intro p hp
    rw [hpicks, List.mem_append] at hp
    rcases hp with hp | hp
    · exact hI.rng p hp
    · rw [List.mem_singleton] at hp
      subst hp
      exact ⟨i, j, rfl, rfl, hin, hjm⟩
  · -- mat
    intro i' j'
    rw [h.mat, entry_killColumn, hI.mat i' j', hcols]
    by_cases hj : j = j'
    · subst hj
      rw [if_pos rfl, if_neg hfresh, if_pos (List.mem_append_right _ (List.mem_singleton_self _))]
    · rw [if_neg hj]
      have hj' : (j' : Int) ≠ (j : Int) := by
        intro hc
        exact hj (by exact_mod_cast hc.symm)
      by_cases hm : (j' : Int) ∈ pickedCols s
      · rw [if_pos hm, if_pos (List.mem_append_left _ hm)]
      · rw [if_neg hm, if_neg]
        rw [List.mem_append, List.mem_singleton]
        exact fun hc => hc.elim hm hj'
  · -- det_nodup
    rw [hcols]
    refine List.Nodup.append hI.det_nodup (List.nodup_singleton _) ?_
    intro x hx hx'
    rw [List.mem_singleton] at hx'
    subst hx'
    exact hfresh hx
  · -- gt_nodup
    rw [hrows]
    rcases h.upd with ⟨r, hr, hd, _, _, _, _, hp⟩ | ⟨r, hr, hd, _, _, _, _, hp⟩
    · have hb : b = true := by
        rw [hpicks] at hp
        have := List.append_cancel_left hp
        simp only [List.cons.injEq, Pick.mk.injEq, and_true, true_and] at this
        exact this
      subst hb
      simp only [if_true]
      refine List.Nodup.append hI.gt_nodup (List.nodup_singleton _) ?_
      intro x hx hx'
      rw [List.mem_singleton] at hx'
      subst hx'
      rcases hI.recs i r hr with ⟨_, hnot⟩ | ⟨j', hj', _⟩
      · exact hnot hx
      · rw [hd] at hj'
        omega
    · have hb : b = false := by
        rw [hpicks] at hp
        have := List.append_cancel_left hp
        simp only [List.cons.injEq, Pick.mk.injEq, and_true, true_and] at this
        exact this
      subst hb
      simp only [Bool.false_eq_true, if_false, List.append_nil]
      exact hI.gt_nodup
  · -- tp_eq
    rw [hrows]
    rcases h.upd with ⟨r, hr, hd, _, _, htp, _, hp⟩ | ⟨r, hr, hd, _, _, htp, _, hp⟩
    · have hb : b = true := by
        rw [hpicks] at hp
        have := List.append_cancel_left hp
        simp only [List.cons.injEq, Pick.mk.injEq, and_true, true_and] at this
        exact this
      subst hb
      simp only [if_true, List.length_append, List.length_singleton]
      rw [htp, hI.tp_eq]
      push_cast
      rfl
    · have hb : b = false := by
        rw [hpicks] at hp
        have := List.append_cancel_left hp
        simp only [List.cons.injEq, Pick.mk.injEq, and_true, true_and] at this
        exact this
      subst hb
      simp only [Bool.false_eq_true, if_false, List.append_nil]
      rw [htp, hI.tp_eq]
  · -- fp_eq
    have h0 := hI.fp_eq
    rcases h.upd with ⟨_, _, _, _, _, htp, hfp, _⟩ | ⟨_, _, _, _, _, htp, hfp, _⟩
    · rw [htp, hfp]; omega
    · rw [htp, hfp]; exact h0
  · -- recs
    intro i' r' hr'
    rcases h.upd with ⟨r, hr, hd, hrecs, _, _, _, hp⟩ | ⟨r, hr, hd, hrecs, _, _, _, hp⟩
    · have hb : b = true := by
        rw [hpicks] at hp
        have := List.append_cancel_left hp
        simp only [List.cons.injEq, Pick.mk.injEq, and_true, true_and] at this
        exact this
      subst hb
      rw [hrecs] at hr'
      by_cases hii : i = i'
      · subst hii
        rw [List.getElem?_set] at hr'
        have hlen : i < s.IoU_scores.length := by rw [hs.recs]; exact hin
        simp only [if_true, hlen, Option.some.injEq] at hr'
        subst hr'
        right
        refine ⟨j, rfl, ?_, hM0, h.pos, hlt⟩
        rw [hpicks]
        exact List.mem_append_right _ (List.mem_singleton_self _)
      · rw [List.getElem?_set_ne hii] at hr'
        rcases hI.recs i' r' hr' with ⟨h1, h2⟩ | ⟨j', h1, h2, h3⟩
        · left
          refine ⟨h1, ?_⟩
          rw [hrows]
          simp only [if_true, List.mem_append, List.mem_singleton]
          intro hc
          rcases hc with hc | hc
          · exact h2 hc
          · exact hii (by exact_mod_cast hc.symm)
        · right
          exact ⟨j', h1, hmono _ h2, h3⟩
    · have hb : b = false := by
        rw [hpicks] at hp
        have := List.append_cancel_left hp
        simp only [List.cons.injEq, Pick.mk.injEq, and_true, true_and] at this
        exact this
      subst hb
      rw [hrecs] at hr'
      rcases hI.recs i' r' hr' with ⟨h1, h2⟩ | ⟨j', h1, h2, h3⟩
      · left
        refine ⟨h1, ?_⟩
        rw [hrows]
        simpa using h2
      · right
        exact ⟨j', h1, hmono _ h2, h3⟩
  · -- sum
    intro hnum
    have hsum := hI.sum hnum
    rcases h.upd with ⟨r, hr, hd, hrecs, havg, _, _, _⟩ | ⟨r, hr, hd, hrecs, havg, _, _, _⟩
    · obtain ⟨q, hq⟩ := hnum i j v hM0
      have hr0 : r = Score.init := by
        rcases hI.recs i r hr with ⟨h1, _⟩ | ⟨j', hj', _⟩
        · exact h1
        · rw [hd] at hj'
          omega
      have hlen : i < s.IoU_scores.length := by rw [hs.recs]; exact hin
      have hget : s.IoU_scores[i] = Score.init := by
        rw [List.getElem?_eq_getElem hlen] at hr
        rw [← hr0]
        exact Option.some.inj hr
      rw [havg, hsum, hrecs, List.map_set, List.sum_set']
      have hlen2 : i < (List.map (fun r : Score => r.IoU.val) s.IoU_scores).length := by
        rw [List.length_map]; exact hlen
      rw [dif_pos hlen2, List.getElem_map, hget, hq]
      simp [Dbl.add, Dbl.val_num, Score.init]
    · rw [havg, hrecs]
      exact hsum

/-! ## The whole run under a positive threshold -/

theorem entry_fillMatrix (D G : List Rect) (i j : Nat) :
    entry (fillMatrix D G) i j =
      (G[i]?).bind (fun g => (D[j]?).map (fun d => IoU_score d g)) := by
  unfold entry fillMatrix
  rw [List.getElem?_map]
  cases G[i]? with
  | none => rfl
  | some g =>
      simp only [Option.map_some', Option.some_bind]
      rw [List.getElem?_map]

theorem shape_init (D G : List Rect) : Shape G.length D.length (initState D G) := by
  refine ⟨?_, ?_, ?_⟩
  · simp [initState, fillMatrix]
  · intro row hrow
    simp only [initState, fillMatrix, List.mem_map] at hrow
    obtain ⟨g, _, rfl⟩ := hrow
    rw [List.length_map]
  · simp [initState]

theorem inv_init (D G : List Rect) (τ : Dbl) :
    Inv G.length D.length τ (fillMatrix D G) (initState D G) := by
  refine ⟨?_, ?_, ?_, ?_, ?_, ?_, ?_, ?_⟩
  · intro p hp
    simp [initState] at hp
  · intro i j
    simp [initState, pickedCols]
  · simp [initState, pickedCols]
  · simp [initState, recordedRows]
  · simp [initState, recordedRows]
  · simp [initState]
  · intro i r hr
    left
    simp only [initState, List.getElem?_replicate] at hr
    split at hr
    · exact ⟨(Option.some.inj hr).symm, by simp [recordedRows, initState]⟩
    · cases hr
  · intro _
    simp [initState, Score.init, Dbl.val]

/-- Under a positive threshold the main loop ends without failure in a state that
satisfies the invariant. -/
theorem mainLoop_ok (D G : List Rect) {τ : Dbl} (hτ : Dbl.gt τ (Dbl.num 0) = true) :
    ∃ s, mainLoop τ G.length (initState D G) = .ok s ∧ Shape G.length D.length s ∧
      Inv G.length D.length τ (fillMatrix D G) s :=
  mainLoop_inv hτ (Inv G.length D.length τ (fillMatrix D G))
    (fun _ _ _ _ _ hs hI hstep hlt => hI.step hs hstep hlt)
    G.length (initState D G) (shape_init D G) (inv_init D G τ)

theorem avg_IoU_run_of_mainLoop (D G : List Rect) (τ : Dbl) (s : LoopState)
    (h : mainLoop τ G.length (initState D G) = .ok s) :
    avg_IoU_run D G τ = .ok (outcomeOf s) ∧ avg_IoU_score D G τ = .ok (outcomeOf s).score := by
  have h1 : avg_IoU_run D G τ = .ok (outcomeOf s) := by
    unfold avg_IoU_run
    rw [h]
    rfl
  refine ⟨h1, ?_⟩
  unfold avg_IoU_score
  rw [h1]

/-- A duplicate-free list of indices below `n` has at most `n` elements. -/
theorem length_le_of_nodup_lt (l : List Int) (n : Nat) (hnd : l.Nodup)
    (h : ∀ x ∈ l, ∃ i : Nat, x = (i : Int) ∧ i < n) : l.length ≤ n := by
  have hsub : l ⊆ (List.range n).map (fun k : Nat => (k : Int)) := by
    intro x hx
    obtain ⟨i, rfl, hi⟩ := h x hx
    exact List.mem_map.mpr ⟨i, List.mem_range.mpr hi, rfl⟩
  have h1 := (List.subperm_of_subset hnd hsub).length_le
  simpa using h1

theorem Inv.rows_le {n m : Nat} {τ : Dbl} {M0 : List (List Dbl)} {s : LoopState}
    (hI : Inv n m τ M0 s) : (recordedRows s).length ≤ n := by
  apply length_le_of_nodup_lt _ _ hI.gt_nodup
  intro x hx
  unfold recordedRows at hx
  rw [List.mem_map] at hx
  obtain ⟨p, hp, rfl⟩ := hx
  obtain ⟨i, j, hi, _, hin, _⟩ := hI.rng p (List.mem_of_mem_filter hp)
  exact ⟨i, hi, hin⟩

theorem Inv.cols_le {n m : Nat} {τ : Dbl} {M0 : List (List Dbl)} {s : LoopState}
    (hI : Inv n m τ M0 s) : (pickedCols s).length ≤ m := by
  apply length_le_of_nodup_lt _ _ hI.det_nodup
  intro x hx
  unfold pickedCols at hx
  rw [List.mem_map] at hx
  obtain ⟨p, hp, rfl⟩ := hx
  obtain ⟨i, j, _, hj, _, hjm⟩ := hI.rng p hp
  exact ⟨j, hj, hjm⟩

theorem recordedRows_le_picked (s : LoopState) :
    (recordedRows s).length ≤ (pickedCols s).length := by
  unfold recordedRows pickedCols
  rw [List.length_map, List.length_map]
  exact List.length_filter_le _ _

theorem allNum_fillMatrix (D G : List Rect) (h : ∀ d ∈ D, ∀ g ∈ G, IoU_defined d g) :
    AllNum (fillMatrix D G) := by
  intro i j w hw
  rw [entry_fillMatrix] at hw
  cases hg : G[i]? with
  | none => rw [hg] at hw; cases hw
  | some g =>
      cases hd : D[j]? with
      | none => rw [hg, hd] at hw; cases hw
      | some d =>
          rw [hg, hd] at hw
          simp only [Option.some_bind, Option.map_some', Option.some.injEq] at hw
          have hgm : g ∈ G := List.getElem?_mem hg
          have hdm : d ∈ D := List.getElem?_mem hd
          exact ⟨_, by rw [← hw, IoU_score_num d g (h d hdm g hgm)]⟩

theorem sum_matchRecords (l : List Score)
    (h : ∀ r ∈ l, r.det_index = -1 → r.IoU = Dbl.num 0) :
    (l.map (fun r => r.IoU.val)).sum = ((matchRecords l).map (fun r => r.IoU.val)).sum := by
  induction l with
  | nil => rfl
  | cons r l ih =>
      have ih1 := ih (fun x hx => h x (List.mem_cons_of_mem _ hx))
      unfold matchRecords at ih1 ⊢
      by_cases hr : r.det_index = -1
      · have h0 := h r (List.mem_cons_self _ _) hr
        rw [List.filter_cons, if_neg (by simp [hr]), List.map_cons, List.sum_cons, h0,
          Dbl.val_num, zero_add]
        exact ih1
      · rw [List.filter_cons, if_pos (by simp [hr]), List.map_cons, List.sum_cons,
          List.map_cons, List.sum_cons, ih1]

/-! ## Claims on `IoU_score` -/

/-- C1 (code defect): on A = (0,0,10,10), B = (5,5,10,10) the code divides the
intersection area 25 by the area 225 of the bounding box `A | B`, giving 25/225,
whereas intersection over union is 25/175. -/
theorem IoU_score_divides_by_bounding_box :
    IoU_score ⟨0, 0, 10, 10⟩ ⟨5, 5, 10, 10⟩ = Dbl.num (25 / 225) ∧
      IoU_spec ⟨0, 0, 10, 10⟩ ⟨5, 5, 10, 10⟩ = 25 / 175 ∧
      IoU_score ⟨0, 0, 10, 10⟩ ⟨5, 5, 10, 10⟩ ≠
        Dbl.num (IoU_spec ⟨0, 0, 10, 10⟩ ⟨5, 5, 10, 10⟩) := by
  have h1 : IoU_score ⟨0, 0, 10, 10⟩ ⟨5, 5, 10, 10⟩ = Dbl.num (25 / 225) := by
    with_unfolding_all rfl
  have h2 : IoU_spec ⟨0, 0, 10, 10⟩ ⟨5, 5, 10, 10⟩ = 25 / 175 := by
    with_unfolding_all rfl
  refine ⟨h1, h2, ?_⟩
  rw [h1, h2]
  intro h
  injection h with h
  norm_num at h

/-- C9 (as stated, refuted): R = (0, 0, 65536, 65536) is non-degenerate, but the `int`
product of `area()` is 2^32, which wraps to 0, and `IoU_score(R, R)` is `0.0 / 0.0`,
that is NaN, not 1. -/
theorem IoU_score_self_overflow :
    Rect.nonDegenerate ⟨0, 0, 65536, 65536⟩ ∧
      Rect.area ⟨0, 0, 65536, 65536⟩ = 0 ∧
      IoU_score ⟨0, 0, 65536, 65536⟩ ⟨0, 0, 65536, 65536⟩ = Dbl.nan ∧
      IoU_score ⟨0, 0, 65536, 65536⟩ ⟨0, 0, 65536, 65536⟩ ≠ Dbl.num 1 := by
  have h : IoU_score ⟨0, 0, 65536, 65536⟩ ⟨0, 0, 65536, 65536⟩ = Dbl.nan := by
    with_unfolding_all rfl
  refine ⟨by decide, by decide, h, ?_⟩
  rw [h]
  intro hc
  cases hc

/-- C9 (amended): every non-degenerate rectangle R (width > 0, height > 0, any integer
origin, negative included) whose corners lie in [-2^30, 2^30) and whose area
width * height fits an `int` has `IoU_score(R, R) = 1`. -/
theorem IoU_score_self (R : Rect) (h : R.nonDegenerate) (_hr : R.inRange)
    (hf : R.areaFits) : IoU_score R R = Dbl.num 1 := by
  have hpos : 0 < R.area := by
    rw [Rect.area_eq R hf]
    exact Rect.exactArea_pos R h
  unfold IoU_score Dbl.ofInt Dbl.div
  simp only [Rect.and_self_eq R h, Rect.or_self_eq R h]
  have hne : ((R.area : Int) : ℚ) ≠ 0 := by
    have : R.area ≠ 0 := by omega
    exact_mod_cast this
  rw [if_neg hne, div_self hne]

theorem IoU_score_self_witness :
    Rect.nonDegenerate ⟨-3, -7, 5, 6⟩ ∧ Rect.inRange ⟨-3, -7, 5, 6⟩ ∧
      Rect.areaFits ⟨-3, -7, 5, 6⟩ ∧
      IoU_score ⟨-3, -7, 5, 6⟩ ⟨-3, -7, 5, 6⟩ = Dbl.num 1 :=
  ⟨by decide, by decide, by decide,
    IoU_score_self ⟨-3, -7, 5, 6⟩ (by decide) (by decide) (by decide)⟩

/-- C10 (as stated, refuted): A = (0, 0, 1, 1) and B = (65535, 65535, 1, 1) are
well-formed, share no pixel and have area 1, but the box `A | B` is 65536 by 65536,
its `int` area wraps to 0, and `IoU_score(A, B)` is `0.0 / 0.0`, that is NaN, not 0. -/
theorem IoU_score_disjoint_overflow :
    Rect.wellFormed ⟨0, 0, 1, 1⟩ ∧ Rect.wellFormed ⟨65535, 65535, 1, 1⟩ ∧
      Rect.disjoint ⟨0, 0, 1, 1⟩ ⟨65535, 65535, 1, 1⟩ ∧
      Rect.area ⟨0, 0, 1, 1⟩ ≠ 0 ∧
      Rect.or ⟨0, 0, 1, 1⟩ ⟨65535, 65535, 1, 1⟩ = ⟨0, 0, 65536, 65536⟩ ∧
      IoU_score ⟨0, 0, 1, 1⟩ ⟨65535, 65535, 1, 1⟩ = Dbl.nan ∧
      IoU_score ⟨0, 0, 1, 1⟩ ⟨65535, 65535, 1, 1⟩ ≠ Dbl.num 0 := by
  have h : IoU_score ⟨0, 0, 1, 1⟩ ⟨65535, 65535, 1, 1⟩ = Dbl.nan := by
    with_unfolding_all rfl
  refine ⟨by decide, by decide, ?_, by decide, by decide, h, ?_⟩
  · intro px py hp
    simp only [Rect.contains] at hp
    omega
  · rw [h]
    intro hc
    cases hc

/-- C10 (amended): two well-formed rectangles that share no pixel, at least one of
non-zero area, for which no `int` operation of `IoU_score` overflows, have
`IoU_score = 0`; in particular a well-formed zero-area rectangle scores 0 against
every non-degenerate rectangle, in either argument order. -/
theorem IoU_score_disjoint :
    (∀ A B : Rect, A.wellFormed → B.wellFormed → A.disjoint B →
        (A.area ≠ 0 ∨ B.area ≠ 0) → NoOverflow A B → IoU_score A B = Dbl.num 0) ∧
    (∀ Z R : Rect, Z.wellFormed → Z.exactArea = 0 → R.nonDegenerate →
        NoOverflow Z R → NoOverflow R Z →
        IoU_score Z R = Dbl.num 0 ∧ IoU_score R Z = Dbl.num 0) := by
  have key : ∀ A B : Rect, A.wellFormed → B.wellFormed → A.disjoint B →
      (A.area ≠ 0 ∨ B.area ≠ 0) → NoOverflow A B → IoU_score A B = Dbl.num 0 := by
    intro A B hA hB hd hne hno
    apply IoU_score_eq_zero
    · rw [Rect.and_eq_zero_of_disjoint A B hd]
      exact Rect.zero_area
    · exact ne_of_gt (Rect.or_area_pos A B hA hB hne hno.2.2.2)
  refine ⟨key, ?_⟩
  intro Z R hZ hZ0 hR hno1 hno2
  have hRwf : R.wellFormed := ⟨le_of_lt hR.1, le_of_lt hR.2⟩
  have hZe : Z.empty = true := by
    apply Rect.empty_of_not_nonDegenerate
    intro hc
    exact absurd hZ0 (ne_of_gt (Rect.exactArea_pos Z hc))
  have hRfit : R.areaFits := by
    have h := hno1.2.2.2
    unfold Rect.or at h
    simp only [hZe, if_true] at h
    exact h
  have hRa : R.area ≠ 0 := ne_of_gt (Rect.area_pos R hR hRfit)
  have hnopix : ∀ px py, ¬ Z.contains px py := by
    intro px py hc
    obtain ⟨h1, h2, h3, h4⟩ := hc
    have hw : 0 < Z.width := by omega
    have hh : 0 < Z.height := by omega
    exact absurd hZ0 (ne_of_gt (Rect.exactArea_pos Z ⟨hw, hh⟩))
  constructor
  · exact key Z R hZ hRwf (fun px py h => hnopix px py h.1) (Or.inr hRa) hno1
  · exact key R Z hRwf hZ (fun px py h => hnopix px py h.2) (Or.inl hRa) hno2

theorem IoU_score_disjoint_witness :
    IoU_score ⟨0, 0, 10, 10⟩ ⟨100, 100, 5, 5⟩ = Dbl.num 0 ∧
      (IoU_score ⟨3, 3, 0, 4⟩ ⟨0, 0, 10, 10⟩ = Dbl.num 0 ∧
        IoU_score ⟨0, 0, 10, 10⟩ ⟨3, 3, 0, 4⟩ = Dbl.num 0) :=
  ⟨IoU_score_disjoint.1 ⟨0, 0, 10, 10⟩ ⟨100, 100, 5, 5⟩ (by decide) (by decide)
      (by intro px py h; simp only [Rect.contains] at h; omega)
      (Or.inl (by decide)) (by decide),
    IoU_score_disjoint.2 ⟨3, 3, 0, 4⟩ ⟨0, 0, 10, 10⟩ (by decide) (by decide) (by decide)
      (by decide) (by decide)⟩

/-! ## Claims on `avg_IoU_score` -/

theorem Inv.record_cases {n m : Nat} {τ : Dbl} {M0 : List (List Dbl)} {s : LoopState}
    (hI : Inv n m τ M0 s) (r : Score) (hr : r ∈ s.IoU_scores) :
    r = Score.init ∨ ∃ i j : Nat, r.det_index = (j : Int) ∧ entry M0 i j = some r.IoU := by
  obtain ⟨i, hi⟩ := List.getElem?_of_mem hr
  rcases hI.recs i r hi with ⟨h1, _⟩ | ⟨j, h1, _, h2, _⟩
  · exact Or.inl h1
  · exact Or.inr ⟨i, j, h1, h2⟩

/-- C2: for detections D (size m) and ground truth G (size n), not both empty, with
every pairwise IoU defined, and a threshold tau > 0, `avg_IoU_score` returns with
tp + fn = n, tp + fp = m, 0 ≤ tp ≤ min(n, m), fp ≥ 0, fn ≥ 0, and the returned value is
the sum of the IoU values of the recorded matches divided by
tp + fp + fn = n + m - tp. -/
theorem avg_IoU_score_counters (D G : List Rect) (tau : ℚ)
    (hne : D ≠ [] ∨ G ≠ []) (hdef : ∀ d ∈ D, ∀ g ∈ G, IoU_defined d g) (htau : 0 < tau) :
    ∃ o : Outcome, avg_IoU_run D G (Dbl.num tau) = .ok o ∧
      avg_IoU_score D G (Dbl.num tau) = .ok o.score ∧
      o.tp + o.fn = (G.length : Int) ∧ o.tp + o.fp = (D.length : Int) ∧
      0 ≤ o.tp ∧ o.tp ≤ min (G.length : Int) (D.length : Int) ∧ 0 ≤ o.fp ∧ 0 ≤ o.fn ∧
      o.tp + o.fp + o.fn = (G.length : Int) + (D.length : Int) - o.tp ∧
      ∃ qs : List ℚ, (matchRecords o.IoU_scores).map Score.IoU = qs.map Dbl.num ∧
        o.score = Dbl.num (qs.sum / ((o.tp + o.fp + o.fn : Int) : ℚ)) ∧
        o.score = Dbl.num (qs.sum / ((G.length : ℚ) + (D.length : ℚ) - (o.tp : ℚ))) := by
  have hτ : Dbl.gt (Dbl.num tau) (Dbl.num 0) = true := by simpa [Dbl.gt] using htau
  obtain ⟨s, hrun, hs, hI⟩ := mainLoop_ok D G hτ
  obtain ⟨h1, h2⟩ := avg_IoU_run_of_mainLoop D G _ s hrun
  have hnum := allNum_fillMatrix D G hdef
  have hrows := hI.rows_le
  have hcols := hI.cols_le
  have hrc := recordedRows_le_picked s
  have htp := hI.tp_eq
  have hfp := hI.fp_eq
  have hlen : (s.IoU_scores.length : Int) = (G.length : Int) := by rw [hs.recs]
  have hpos : 0 < G.length + D.length := by
    rcases hne with h | h
    · have := List.length_pos.mpr h; omega
    · have := List.length_pos.mpr h; omega
  have hden : s.tp + s.fp + ((s.IoU_scores.length : Int) - s.tp) =
      (G.length : Int) + (D.length : Int) - s.tp := by omega
  have hden0 : (G.length : Int) + (D.length : Int) - s.tp ≠ 0 := by omega
  have hsum := hI.sum hnum
  have hzero : ∀ r ∈ s.IoU_scores, r.det_index = -1 → r.IoU = Dbl.num 0 := by
    intro r hr hd
    rcases hI.record_cases r hr with h | ⟨_, j, hj, _⟩
    · rw [h]; rfl
    · rw [hd] at hj; omega
  have hqs : (matchRecords s.IoU_scores).map Score.IoU =
      ((matchRecords s.IoU_scores).map (fun r => r.IoU.val)).map Dbl.num := by
    rw [List.map_map]
    apply List.map_congr_left
    intro r hr
    have hr1 : r ∈ s.IoU_scores := List.mem_of_mem_filter hr
    rcases hI.record_cases r hr1 with h | ⟨i, j, _, he⟩
    · rw [h]; rfl
    · obtain ⟨q, hq⟩ := hnum i j _ he
      simp only [Function.comp_apply, hq, Dbl.val_num]
  have hscore : (outcomeOf s).score =
      Dbl.num (((matchRecords s.IoU_scores).map (fun r => r.IoU.val)).sum /
        (((G.length : Int) + (D.length : Int) - s.tp : Int) : ℚ)) := by
    show Dbl.div s.avg_IoU (Dbl.ofInt _) = _
    rw [hden, hsum, sum_matchRecords _ hzero]
    unfold Dbl.ofInt Dbl.div
    simp only
    rw [if_neg (by exact_mod_cast hden0)]
  refine ⟨outcomeOf s, h1, h2, ?_, ?_, ?_, ?_, ?_, ?_, ?_, _, hqs, ?_, ?_⟩
  · show s.tp + ((s.IoU_scores.length : Int) - s.tp) = _
    omega
  · exact hfp
  · show 0 ≤ s.tp
    omega
  · show s.tp ≤ _
    omega
  · show 0 ≤ s.fp
    omega
  · show 0 ≤ (s.IoU_scores.length : Int) - s.tp
    omega
  · exact hden
  · rw [hscore]
    show _ = Dbl.num (_ / ((s.tp + s.fp + ((s.IoU_scores.length : Int) - s.tp) : Int) : ℚ))
    rw [hden]
  · rw [hscore]
    push_cast
    rfl

theorem avg_IoU_score_counters_witness :
    ∃ o : Outcome,
      avg_IoU_run [⟨0, 0, 10, 10⟩, ⟨100, 100, 5, 5⟩] [⟨0, 0, 10, 10⟩] (Dbl.num (1 / 2)) = .ok o ∧
      avg_IoU_score [⟨0, 0, 10, 10⟩, ⟨100, 100, 5, 5⟩] [⟨0, 0, 10, 10⟩] (Dbl.num (1 / 2)) =
        .ok o.score ∧
      o.tp + o.fn = (([⟨0, 0, 10, 10⟩] : List Rect).length : Int) ∧
      o.tp + o.fp = (([⟨0, 0, 10, 10⟩, ⟨100, 100, 5, 5⟩] : List Rect).length : Int) ∧
      0 ≤ o.tp ∧
      o.tp ≤ min (([⟨0, 0, 10, 10⟩] : List Rect).length : Int)
        (([⟨0, 0, 10, 10⟩, ⟨100, 100, 5, 5⟩] : List Rect).length : Int) ∧
      0 ≤ o.fp ∧ 0 ≤ o.fn ∧
      o.tp + o.fp + o.fn = (([⟨0, 0, 10, 10⟩] : List Rect).length : Int) +
        (([⟨0, 0, 10, 10⟩, ⟨100, 100, 5, 5⟩] : List Rect).length : Int) - o.tp ∧
      ∃ qs : List ℚ, (matchRecords o.IoU_scores).map Score.IoU = qs.map Dbl.num ∧
        o.score = Dbl.num (qs.sum / ((o.tp + o.fp + o.fn : Int) : ℚ)) ∧
        o.score = Dbl.num (qs.sum / (((([⟨0, 0, 10, 10⟩] : List Rect).length : ℕ) : ℚ) +
          ((([⟨0, 0, 10, 10⟩, ⟨100, 100, 5, 5⟩] : List Rect).length : ℕ) : ℚ) - (o.tp : ℚ))) :=
  avg_IoU_score_counters [⟨0, 0, 10, 10⟩, ⟨100, 100, 5, 5⟩] [⟨0, 0, 10, 10⟩] (1 / 2)
    (Or.inl (by simp)) (by decide) (by norm_num)

/-- C3: for every D, G and threshold tau > 0 the matching built by `avg_IoU_score`
is one-to-one.  Each detection index is selected as arg-max by at most one iteration:
its column holds -1 in every row afterwards and a further scan of the final matrix
cannot select it, whether or not the iteration recorded a match.  Hence a detection
index appears in at most one match record, every match record stems from one
recording iteration, and each ground-truth index is recorded by at most one
iteration. -/
theorem avg_IoU_score_one_to_one (D G : List Rect) (tau : ℚ) (htau : 0 < tau) :
    ∃ o : Outcome, avg_IoU_run D G (Dbl.num tau) = .ok o ∧
      (o.picks.map Pick.det_index).Nodup ∧
      (∀ p ∈ o.picks, ∀ i : Nat, i < G.length → ∃ j : Nat, p.det_index = (j : Int) ∧
        entry o.all_IoU_scores i j = some (Dbl.num (-1))) ∧
      (findMax o.all_IoU_scores).det_index ∉ o.picks.map Pick.det_index ∧
      (∀ (i i1 : Nat) (r r1 : Score), o.IoU_scores[i]? = some r → o.IoU_scores[i1]? = some r1 →
        r.det_index ≠ -1 → r.det_index = r1.det_index → i = i1) ∧
      (∀ (i : Nat) (r : Score), o.IoU_scores[i]? = some r → r.det_index ≠ -1 →
        (⟨(i : Int), r.det_index, true⟩ : Pick) ∈ o.picks) ∧
      ((o.picks.filter Pick.recorded).map Pick.gt_index).Nodup := by
  have hτ : Dbl.gt (Dbl.num tau) (Dbl.num 0) = true := by simpa [Dbl.gt] using htau
  obtain ⟨s, hrun, hs, hI⟩ := mainLoop_ok D G hτ
  obtain ⟨h1, _⟩ := avg_IoU_run_of_mainLoop D G _ s hrun
  have hrec : ∀ (i : Nat) (r : Score), s.IoU_scores[i]? = some r → r.det_index ≠ -1 →
      (⟨(i : Int), r.det_index, true⟩ : Pick) ∈ s.picks := by
    intro i r hr hd
    rcases hI.recs i r hr with ⟨h0, _⟩ | ⟨j, hj, hp, _⟩
    · rw [h0] at hd
      exact absurd rfl hd
    · rw [hj]; exact hp
  refine ⟨outcomeOf s, h1, hI.det_nodup, ?_, ?_, ?_, hrec, hI.gt_nodup⟩
  · intro p hp i hi
    obtain ⟨i0, j, _, hj, _, hjm⟩ := hI.rng p hp
    refine ⟨j, hj, ?_⟩
    obtain ⟨w, hw⟩ := entry_some_of_bounds hs hi hjm
    have hmat := hI.mat i j
    have hmem : (j : Int) ∈ pickedCols s := by
      rw [← hj]
      exact List.mem_map_of_mem _ hp
    rw [if_pos hmem, hw] at hmat
    show entry s.all_IoU_scores i j = _
    rw [hw]
    cases hM : entry (fillMatrix D G) i j with
    | none => rw [hM] at hmat; cases hmat
    | some w0 =>
        rw [hM] at hmat
        simpa using hmat
  · show (findMax s.all_IoU_scores).det_index ∉ pickedCols s
    rcases findMax_cases s.all_IoU_scores with h0 | ⟨i, j, _, hj, he, hp⟩
    · rw [h0]
      intro hc
      unfold pickedCols at hc
      rw [List.mem_map] at hc
      obtain ⟨p, hp, hpd⟩ := hc
      obtain ⟨_, j, _, hj, _⟩ := hI.rng p hp
      rw [hj] at hpd
      simp only at hpd
      omega
    · rw [hj]
      exact (hI.fresh_of_pos he hp).1
  · intro i i1 r r1 hr hr1 hd heq
    have hp := hrec i r hr hd
    have hp1 := hrec i1 r1 hr1 (by rw [← heq]; exact hd)
    have hinj := List.inj_on_of_nodup_map hI.det_nodup hp hp1 heq
    simp only [Pick.mk.injEq, and_true] at hinj
    exact_mod_cast hinj.1

theorem avg_IoU_score_one_to_one_witness :
    (0 : ℚ) < 1 / 2 ∧ ∃ o : Outcome,
      avg_IoU_run [⟨0, 0, 10, 10⟩, ⟨0, 0, 10, 9⟩, ⟨100, 100, 10, 6⟩]
        [⟨0, 0, 10, 10⟩, ⟨100, 100, 10, 10⟩] (Dbl.num (1 / 2)) = .ok o ∧
      (o.picks.map Pick.det_index).Nodup ∧
      (∀ p ∈ o.picks, ∀ i : Nat,
        i < ([⟨0, 0, 10, 10⟩, ⟨100, 100, 10, 10⟩] : List Rect).length →
        ∃ j : Nat, p.det_index = (j : Int) ∧
        entry o.all_IoU_scores i j = some (Dbl.num (-1))) ∧
      (findMax o.all_IoU_scores).det_index ∉ o.picks.map Pick.det_index ∧
      (∀ (i i1 : Nat) (r r1 : Score), o.IoU_scores[i]? = some r → o.IoU_scores[i1]? = some r1 →
        r.det_index ≠ -1 → r.det_index = r1.det_index → i = i1) ∧
      (∀ (i : Nat) (r : Score), o.IoU_scores[i]? = some r → r.det_index ≠ -1 →
        (⟨(i : Int), r.det_index, true⟩ : Pick) ∈ o.picks) ∧
      ((o.picks.filter Pick.recorded).map Pick.gt_index).Nodup :=
  ⟨by norm_num,
    avg_IoU_score_one_to_one [⟨0, 0, 10, 10⟩, ⟨0, 0, 10, 9⟩, ⟨100, 100, 10, 6⟩]
      [⟨0, 0, 10, 10⟩, ⟨100, 100, 10, 10⟩] (1 / 2) (by norm_num)⟩

theorem scanRows_empty_rows : ∀ (rows : List (List Dbl)) (i : Nat) (a : ArgMax),
    (∀ row ∈ rows, row = []) → scanRows i rows a = a := by
  intro rows
  induction rows with
  | nil => intro i a _; rfl
  | cons row rows ih =>
      intro i a h
      have h1 : row = [] := h row (List.mem_cons_self _ _)
      subst h1
      simp only [scanRows, scanRow]
      exact ih (i + 1) a (fun r hr => h r (List.mem_cons_of_mem _ hr))

/-- With no detection and a positive threshold the first iteration breaks: no
match record and no matrix entry is touched, tp = fp = 0, fn = |G|, and the value
returned is 0. -/
theorem avg_IoU_score_no_detections (G : List Rect) (τ : Dbl) (hG : G ≠ [])
    (hτ : Dbl.gt τ (Dbl.num 0) = true) :
    loopBody τ (initState [] G) = .ok none ∧
    ∃ o : Outcome, avg_IoU_run [] G τ = .ok o ∧ o.tp = 0 ∧ o.fp = 0 ∧
      o.fn = (G.length : Int) ∧ o.picks = [] ∧
      o.IoU_scores = (initState [] G).IoU_scores ∧
      o.all_IoU_scores = (initState [] G).all_IoU_scores ∧
      avg_IoU_score [] G τ = .ok (Dbl.num 0) := by
  have hfm : findMax (initState [] G).all_IoU_scores = ⟨Dbl.num 0, -1, -1⟩ := by
    unfold findMax
    apply scanRows_empty_rows
    intro row hrow
    simp only [initState, fillMatrix, List.map_nil, List.mem_map] at hrow
    obtain ⟨_, _, h⟩ := hrow
    exact h.symm
  have hbody : loopBody τ (initState [] G) = .ok none := by
    unfold loopBody
    simp only [hfm]
    rw [if_pos (show Dbl.lt (Dbl.num 0) τ = true from hτ)]
  refine ⟨hbody, ?_⟩
  obtain ⟨k, hk⟩ := Nat.exists_eq_succ_of_ne_zero (fun h => hG (List.length_eq_zero.mp h))
  have hrun : mainLoop τ G.length (initState [] G) = .ok (initState [] G) := by
    rw [hk]
    simp only [mainLoop, hbody]
  obtain ⟨h1, h2⟩ := avg_IoU_run_of_mainLoop [] G τ _ hrun
  have hlen : (initState [] G).IoU_scores.length = G.length := by simp [initState]
  have hscore : (outcomeOf (initState [] G)).score = Dbl.num 0 := by
    show Dbl.div (Dbl.num 0) (Dbl.ofInt ((0 : Int) + ((0 : Nat) : Int) +
      (((initState [] G).IoU_scores.length : Int) - 0))) = _
    rw [hlen, hk]
    have hne : (((0 : Int) + ((0 : Nat) : Int) + (((k.succ : Nat) : Int) - 0) : Int) : ℚ) ≠ 0 := by
      push_cast
      have : (0 : ℚ) ≤ (k : ℚ) := Nat.cast_nonneg k
      linarith
    unfold Dbl.ofInt Dbl.div
    simp only
    rw [if_neg hne]
    simp
  refine ⟨_, h1, rfl, rfl, ?_, rfl, rfl, rfl, ?_⟩
  · show ((initState [] G).IoU_scores.length : Int) - 0 = _
    rw [hlen]; simp
  · rw [h2, hscore]

/-- C7 (code defect): with no detection, one ground-truth box and the threshold 0 the
first iteration does not stop: `max_IoU = 0` is not below the threshold, and the
code goes on to read `IoU_scores[gt_index]` with `gt_index = -1`. -/
theorem avg_IoU_score_no_detections_threshold_zero :
    findMax (initState [] [⟨0, 0, 10, 10⟩]).all_IoU_scores = ⟨Dbl.num 0, -1, -1⟩ ∧
      Dbl.lt (Dbl.num 0) (Dbl.num 0) = false ∧
      loopBody (Dbl.num 0) (initState [] [⟨0, 0, 10, 10⟩]) = .error Failure.outOfRange ∧
      avg_IoU_score [] [⟨0, 0, 10, 10⟩] (Dbl.num 0) = .error Failure.outOfRange := by
  refine ⟨?_, ?_, ?_, ?_⟩ <;> with_unfolding_all rfl

/-- C8 (as stated, refuted): with both lists empty the call does not fail; the
division `0.0 / 0` is carried out and its result NaN is returned. -/
theorem avg_IoU_score_both_empty_returns :
    avg_IoU_score [] [] (Dbl.num (1 / 2)) = .ok Dbl.nan ∧
      avg_IoU_score [] [] (Dbl.num (1 / 2)) ≠ .error Failure.assertion := by
  have h : avg_IoU_score [] [] (Dbl.num (1 / 2)) = .ok Dbl.nan := by
    with_unfolding_all rfl
  refine ⟨h, ?_⟩
  rw [h]
  intro hc
  cases hc

/-- C8 (amended): with an empty ground-truth list and any threshold, a detection
list of m ≥ 1 boxes ends with tp = fn = 0, fp = m and the value 0; when the detection
list is empty too, nothing guards the division: the call returns with
tp = fp = fn = 0 and the value NaN. -/
theorem avg_IoU_score_no_ground_truth (D : List Rect) (τ : Dbl) :
    (D ≠ [] → ∃ o : Outcome, avg_IoU_run D [] τ = .ok o ∧ o.tp = 0 ∧ o.fn = 0 ∧
        o.fp = (D.length : Int) ∧ o.score = Dbl.num 0 ∧
        avg_IoU_score D [] τ = .ok (Dbl.num 0)) ∧
    (∃ o : Outcome, avg_IoU_run [] [] τ = .ok o ∧ o.tp = 0 ∧ o.fn = 0 ∧ o.fp = 0 ∧
        o.score = Dbl.nan ∧ avg_IoU_score [] [] τ = .ok Dbl.nan) := by
  constructor
  · intro hD
    have hrun : mainLoop τ ([] : List Rect).length (initState D []) = .ok (initState D []) := rfl
    obtain ⟨h1, h2⟩ := avg_IoU_run_of_mainLoop D [] τ _ hrun
    have hlen : (D.length : ℚ) ≠ 0 := by
      have := List.length_pos.mpr hD
      exact_mod_cast (Nat.pos_iff_ne_zero.mp this)
    have hscore : (outcomeOf (initState D [])).score = Dbl.num 0 := by
      show Dbl.div (Dbl.num 0) (Dbl.ofInt ((0 : Int) + (D.length : Int) + (((0 : Nat) : Int) - 0))) = _
      unfold Dbl.ofInt Dbl.div
      simp only
      rw [if_neg (by push_cast; simpa using hlen)]
      simp
    refine ⟨_, h1, rfl, rfl, rfl, hscore, ?_⟩
    rw [h2, hscore]
  · exact ⟨_, rfl, rfl, rfl, rfl, rfl, rfl⟩

theorem avg_IoU_score_no_ground_truth_witness :
    (([⟨0, 0, 10, 10⟩, ⟨3, 4, 5, 6⟩] : List Rect) ≠ []) ∧
      ∃ o : Outcome, avg_IoU_run [⟨0, 0, 10, 10⟩, ⟨3, 4, 5, 6⟩] [] (Dbl.num (1 / 2)) = .ok o ∧
        o.tp = 0 ∧ o.fn = 0 ∧
        o.fp = (([⟨0, 0, 10, 10⟩, ⟨3, 4, 5, 6⟩] : List Rect).length : Int) ∧
        o.score = Dbl.num 0 ∧
        avg_IoU_score [⟨0, 0, 10, 10⟩, ⟨3, 4, 5, 6⟩] [] (Dbl.num (1 / 2)) = .ok (Dbl.num 0) :=
  ⟨by simp, (avg_IoU_score_no_ground_truth [⟨0, 0, 10, 10⟩, ⟨3, 4, 5, 6⟩] (Dbl.num (1 / 2))).1
    (by simp)⟩

/-! ### Scoring a box set against itself -/

theorem mem_diagPicks (c : Nat) (p : Pick) :
    p ∈ diagPicks c ↔ ∃ k : Nat, k < c ∧ p = ⟨(k : Int), (k : Int), true⟩ := by
  unfold diagPicks
  rw [List.mem_map]
  constructor
  · rintro ⟨k, hk, rfl⟩
    exact ⟨k, List.mem_range.mp hk, rfl⟩
  · rintro ⟨k, hk, rfl⟩
    exact ⟨k, List.mem_range.mpr hk, rfl⟩

theorem pickedCols_diag {s : LoopState} {c : Nat} (h : s.picks = diagPicks c) (j : Nat) :
    (j : Int) ∈ pickedCols s ↔ j < c := by
  unfold pickedCols
  rw [h, List.mem_map]
  constructor
  · rintro ⟨p, hp, hj⟩
    obtain ⟨k, hk, rfl⟩ := (mem_diagPicks c p).mp hp
    simp only at hj
    have : k = j := by exact_mod_cast hj
    omega
  · intro hj
    exact ⟨_, (mem_diagPicks c _).mpr ⟨j, hj, rfl⟩, rfl⟩

theorem recordedRows_diag {s : LoopState} {c : Nat} (h : s.picks = diagPicks c) :
    recordedRows s = (List.range c).map (fun k : Nat => (k : Int)) := by
  unfold recordedRows
  rw [h]
  unfold diagPicks
  rw [List.filter_map, List.map_map]
  have hf : List.filter (Pick.recorded ∘ fun k : Nat => (⟨(k : Int), (k : Int), true⟩ : Pick))
      (List.range c) = List.range c := by
    apply List.filter_eq_self.mpr
    intro a _
    rfl
  rw [hf]
  rfl

theorem diagPicks_succ (c : Nat) :
    diagPicks (c + 1) = diagPicks c ++ [⟨(c : Int), (c : Int), true⟩] := by
  unfold diagPicks
  rw [List.range_succ, List.map_append]
  rfl

/-- The matrix of a duplicate-free list of non-degenerate boxes against itself:
1 on the diagonal, a finite value below 1 elsewhere. -/
theorem self_entry (G : List Rect) (hnd : G.Nodup) (hdeg : ∀ g ∈ G, g.nonDegenerate)
    (hno : ∀ a ∈ G, ∀ b ∈ G, NoOverflow a b)
    (i j : Nat) (w : Dbl) (h : entry (fillMatrix G G) i j = some w) :
    (i = j ∧ w = Dbl.num 1) ∨ (i ≠ j ∧ ∃ q : ℚ, w = Dbl.num q ∧ q < 1) := by
  rw [entry_fillMatrix] at h
  cases hg : G[i]? with
  | none => rw [hg] at h; cases h
  | some g =>
      cases hd : G[j]? with
      | none => rw [hg, hd] at h; cases h
      | some d =>
          rw [hg, hd] at h
          simp only [Option.some_bind, Option.map_some', Option.some.injEq] at h
          have hgm : g ∈ G := List.getElem?_mem hg
          have hdm : d ∈ G := List.getElem?_mem hd
          by_cases hij : i = j
          · left
            subst hij
            rw [hg] at hd
            cases hd
            exact ⟨rfl, by rw [← h, IoU_score_same g (hdeg g hgm)
              (NoOverflow.self_fits (hdeg g hgm) (hno g hgm g hgm))]⟩
          · right
            refine ⟨hij, ?_⟩
            have hne : d ≠ g := by
              intro hc
              subst hc
              obtain ⟨hi, hgi⟩ := List.getElem?_eq_some.mp hg
              obtain ⟨hj, hgj⟩ := List.getElem?_eq_some.mp hd
              exact hij ((List.Nodup.getElem_inj_iff hnd).mp (hgi.trans hgj.symm))
            obtain ⟨q, hq, _, hq1⟩ := IoU_score_lt_one d g (hdeg d hdm) (hdeg g hgm) hne
              (hno d hdm g hgm).2.2.1 (hno d hdm g hgm).2.2.2
            exact ⟨q, by rw [← h, hq], hq1⟩

theorem self_entry_diag (G : List Rect) (hdeg : ∀ g ∈ G, g.nonDegenerate)
    (hno : ∀ a ∈ G, ∀ b ∈ G, NoOverflow a b) (i : Nat)
    (hi : i < G.length) : entry (fillMatrix G G) i i = some (Dbl.num 1) := by
  rw [entry_fillMatrix, List.getElem?_eq_getElem hi]
  simp only [Option.some_bind, Option.map_some']
  rw [IoU_score_same _ (hdeg _ (List.getElem_mem _))
    (NoOverflow.self_fits (hdeg _ (List.getElem_mem _))
      (hno _ (List.getElem_mem _) _ (List.getElem_mem _)))]

/-- While rows and columns `0 .. c-1` are matched on the diagonal, the scan selects the
diagonal entry `(c, c)`, whose value is 1. -/
theorem self_findMax (G : List Rect) (hnd : G.Nodup) (hdeg : ∀ g ∈ G, g.nonDegenerate)
    (hno : ∀ a ∈ G, ∀ b ∈ G, NoOverflow a b)
    {τ : Dbl} {s : LoopState} {c : Nat} (hc : c < G.length)
    (hI : Inv G.length G.length τ (fillMatrix G G) s) (hp : s.picks = diagPicks c) :
    findMax s.all_IoU_scores = ⟨Dbl.num 1, (c : Int), (c : Int)⟩ := by
  apply findMax_eq
  · rw [hI.mat c c, if_neg (by rw [pickedCols_diag hp]; omega)]
    exact self_entry_diag G hdeg hno c hc
  · norm_num [Dbl.gt]
  · intro i j w hw
    rw [hI.mat i j] at hw
    by_cases hj : (j : Int) ∈ pickedCols s
    · rw [if_pos hj] at hw
      cases hM : entry (fillMatrix G G) i j with
      | none => rw [hM] at hw; cases hw
      | some w0 =>
          rw [hM] at hw
          simp only [Option.map_some', Option.some.injEq] at hw
          rw [← hw]
          norm_num [Dbl.gt]
    · rw [if_neg hj] at hw
      rcases self_entry G hnd hdeg hno i j w hw with ⟨_, h1⟩ | ⟨_, q, h1, hq⟩
      · rw [h1]; exact Dbl.gt_irrefl _
      · rw [h1]
        simp only [Dbl.gt, decide_eq_false_iff_not, not_lt]
        exact le_of_lt hq
  · intro i j hb hw
    rw [hI.mat i j] at hw
    by_cases hj : (j : Int) ∈ pickedCols s
    · rw [if_pos hj] at hw
      cases hM : entry (fillMatrix G G) i j with
      | none => rw [hM] at hw; cases hw
      | some w0 =>
          rw [hM] at hw
          simp only [Option.map_some', Option.some.injEq, Dbl.num.injEq] at hw
          norm_num at hw
    · rw [if_neg hj] at hw
      rw [pickedCols_diag hp] at hj
      rcases self_entry G hnd hdeg hno i j _ hw with ⟨h1, _⟩ | ⟨_, q, h1, hq⟩
      · unfold Before at hb
        omega
      · simp only [Dbl.num.injEq] at h1
        rw [← h1] at hq
        exact absurd hq (lt_irrefl _)

/-- The main loop on a self-scoring matches the diagonal, one row per iteration. -/
theorem self_loop (G : List Rect) (hnd : G.Nodup) (hdeg : ∀ g ∈ G, g.nonDegenerate)
    (hno : ∀ a ∈ G, ∀ b ∈ G, NoOverflow a b)
    (tau : ℚ) (h0 : 0 < tau) (h1 : tau ≤ 1) :
    ∀ (k c : Nat) (s : LoopState), c + k = G.length → Shape G.length G.length s →
      Inv G.length G.length (Dbl.num tau) (fillMatrix G G) s → s.picks = diagPicks c →
      ∃ s1, mainLoop (Dbl.num tau) k s = .ok s1 ∧ Shape G.length G.length s1 ∧
        Inv G.length G.length (Dbl.num tau) (fillMatrix G G) s1 ∧
        s1.picks = diagPicks G.length := by
  have hτ : Dbl.gt (Dbl.num tau) (Dbl.num 0) = true := by simpa [Dbl.gt] using h0
  intro k
  induction k with
  | zero =>
      intro c s hck hs hI hp
      have hc : c = G.length := by omega
      subst hc
      exact ⟨s, rfl, hs, hI, hp⟩
  | succ k ih =>
      intro c s hck hs hI hp
      have hc : c < G.length := by omega
      have hfm := self_findMax G hnd hdeg hno hc hI hp
      rcases loopBody_spec hτ hs with ⟨_, hlt⟩ | ⟨s1, i, j, v, hb, hstep, hlt⟩
      · exfalso
        rw [hfm] at hlt
        simp only [Dbl.lt, Dbl.gt, decide_eq_true_eq] at hlt
        exact absurd hlt (not_lt.mpr h1)
      · have hfm2 := hstep.fm
        rw [hfm] at hfm2
        simp only [ArgMax.mk.injEq] at hfm2
        obtain ⟨hv, hi, hj⟩ := hfm2
        have hi : c = i := by exact_mod_cast hi
        have hj : c = j := by exact_mod_cast hj
        subst hi; subst hj
        have hpicks : s1.picks = diagPicks (c + 1) := by
          rw [diagPicks_succ, ← hp]
          rcases hstep.upd with ⟨_, _, _, _, _, _, _, h⟩ | ⟨r, hr, hd, _⟩
          · exact h
          · exfalso
            rcases hI.recs c r hr with ⟨hinit, _⟩ | ⟨j, _, hmem, _⟩
            · rw [hinit] at hd
              exact hd rfl
            · rw [hp] at hmem
              obtain ⟨k0, hk0, hk1⟩ := (mem_diagPicks c _).mp hmem
              simp only [Pick.mk.injEq, and_true] at hk1
              have : c = k0 := by exact_mod_cast hk1.1
              omega
        obtain ⟨s2, hrun, hs2, hI2, hp2⟩ :=
          ih (c + 1) s1 (by omega) (hstep.shape hs) (hI.step hs hstep hlt) hpicks
        refine ⟨s2, ?_, hs2, hI2, hp2⟩
        simp only [mainLoop, hb, hrun]

/-- C5 (as stated, refuted): G = [(0, 0, 65536, 65536)] is a non-empty list of one
non-degenerate rectangle, but its `int` area wraps to 0, its overlap ratio with itself
is NaN, no match is recorded, and the call ends with tp = 0, fp = 1, fn = 1 and the
value 0, not 1. -/
theorem avg_IoU_score_self_overflow :
    Rect.nonDegenerate ⟨0, 0, 65536, 65536⟩ ∧
      ([⟨0, 0, 65536, 65536⟩] : List Rect).Nodup ∧
      avg_IoU_run [⟨0, 0, 65536, 65536⟩] [⟨0, 0, 65536, 65536⟩] (Dbl.num (1 / 2)) =
        .ok { score := Dbl.num 0
              tp := 0
              fp := 1
              fn := 1
              IoU_scores := [⟨Dbl.num 0, -1⟩]
              all_IoU_scores := [[Dbl.nan]]
              picks := [] } ∧
      avg_IoU_score [⟨0, 0, 65536, 65536⟩] [⟨0, 0, 65536, 65536⟩] (Dbl.num (1 / 2)) =
        .ok (Dbl.num 0) ∧
      avg_IoU_score [⟨0, 0, 65536, 65536⟩] [⟨0, 0, 65536, 65536⟩] (Dbl.num (1 / 2)) ≠
        .ok (Dbl.num 1) := by
  have h : avg_IoU_score [⟨0, 0, 65536, 65536⟩] [⟨0, 0, 65536, 65536⟩] (Dbl.num (1 / 2)) =
      .ok (Dbl.num 0) := by
    with_unfolding_all rfl
  refine ⟨by decide, by simp, by with_unfolding_all rfl, h, ?_⟩
  rw [h]
  intro hc
  injection hc with hc
  injection hc with hc
  norm_num at hc

/-- C5 (amended): scoring a non-empty list G of pairwise-distinct non-degenerate
rectangles, for which no `int` operation of `IoU_score` overflows on any pair,
against itself with a threshold 0 < tau ≤ 1 ends with tp = |G|, fp = 0, fn = 0 and
returns exactly 1. -/
theorem avg_IoU_score_self (G : List Rect) (tau : ℚ) (hne : G ≠ []) (hnd : G.Nodup)
    (hdeg : ∀ g ∈ G, g.nonDegenerate)
    (hno : ∀ a ∈ G, ∀ b ∈ G, NoOverflow a b) (h0 : 0 < tau) (h1 : tau ≤ 1) :
    ∃ o : Outcome, avg_IoU_run G G (Dbl.num tau) = .ok o ∧ o.tp = (G.length : Int) ∧
      o.fp = 0 ∧ o.fn = 0 ∧ o.score = Dbl.num 1 ∧
      avg_IoU_score G G (Dbl.num tau) = .ok (Dbl.num 1) := by
  obtain ⟨s, hrun, hs, hI, hp⟩ := self_loop G hnd hdeg hno tau h0 h1 G.length 0
    (initState G G) (by omega) (shape_init G G) (inv_init G G _) rfl
  obtain ⟨hr1, hr2⟩ := avg_IoU_run_of_mainLoop G G _ s hrun
  have hnpos : 0 < G.length := List.length_pos.mpr hne
  have htp : s.tp = (G.length : Int) := by
    rw [hI.tp_eq, recordedRows_diag hp]
    simp
  have hfp : s.fp = 0 := by
    have := hI.fp_eq
    omega
  have hlen : (s.IoU_scores.length : Int) = (G.length : Int) := by rw [hs.recs]
  have hnum : AllNum (fillMatrix G G) := by
    intro i j w hw
    rcases self_entry G hnd hdeg hno i j w hw with ⟨_, h⟩ | ⟨_, q, h, _⟩
    · exact ⟨1, h⟩
    · exact ⟨q, h⟩
  have hone : ∀ r ∈ s.IoU_scores, r.IoU.val = 1 := by
    intro r hr
    obtain ⟨i, hi⟩ := List.getElem?_of_mem hr
    have hin : i < G.length := by
      rw [← hs.recs]
      exact (List.getElem?_eq_some.mp hi).1
    rcases hI.recs i r hi with ⟨_, hnot⟩ | ⟨j, _, hmem, hent, _⟩
    · exfalso
      apply hnot
      rw [recordedRows_diag hp]
      exact List.mem_map.mpr ⟨i, List.mem_range.mpr hin, rfl⟩
    · rw [hp] at hmem
      obtain ⟨k0, _, hk1⟩ := (mem_diagPicks _ _).mp hmem
      simp only [Pick.mk.injEq, and_true] at hk1
      have hik : i = k0 := by exact_mod_cast hk1.1
      have hjk : j = k0 := by exact_mod_cast hk1.2
      have hji : j = i := by omega
      rw [hji, self_entry_diag G hdeg hno i hin] at hent
      rw [← Option.some.inj hent]
      rfl
  have hsum : s.avg_IoU = Dbl.num (G.length : ℚ) := by
    rw [hI.sum hnum]
    congr 1
    rw [List.map_congr_left hone]
    simp [hs.recs]
  have hscore : (outcomeOf s).score = Dbl.num 1 := by
    show Dbl.div s.avg_IoU (Dbl.ofInt (s.tp + s.fp + ((s.IoU_scores.length : Int) - s.tp))) = _
    rw [hsum, htp, hfp, hlen]
    have hq : (G.length : ℚ) ≠ 0 := by exact_mod_cast (Nat.pos_iff_ne_zero.mp hnpos)
    unfold Dbl.ofInt Dbl.div
    simp only
    rw [if_neg (by push_cast; simpa using hq)]
    congr 1
    push_cast
    field_simp
  refine ⟨outcomeOf s, hr1, htp, hfp, ?_, hscore, ?_⟩
  · show (s.IoU_scores.length : Int) - s.tp = 0
    omega
  · rw [hr2, hscore]

theorem avg_IoU_score_self_witness :
    ∃ o : Outcome, avg_IoU_run [⟨0, 0, 10, 10⟩] [⟨0, 0, 10, 10⟩] (Dbl.num (1 / 2)) = .ok o ∧
      o.tp = (([⟨0, 0, 10, 10⟩] : List Rect).length : Int) ∧
      o.fp = 0 ∧ o.fn = 0 ∧ o.score = Dbl.num 1 ∧
      avg_IoU_score [⟨0, 0, 10, 10⟩] [⟨0, 0, 10, 10⟩] (Dbl.num (1 / 2)) = .ok (Dbl.num 1) :=
  avg_IoU_score_self [⟨0, 0, 10, 10⟩] (1 / 2) (by simp) (by simp) (by decide) (by decide)
    (by norm_num) (by norm_num)

/-! ### One ground-truth box and extra detections -/

/-- The first position of an element of a list. -/
theorem exists_first_index {α : Type} (a : α) : ∀ l : List α, a ∈ l →
    ∃ j : Nat, l[j]? = some a ∧ ∀ k : Nat, k < j → l[k]? ≠ some a := by
  intro l
  induction l with
  | nil => intro h; cases h
  | cons b l ih =>
      intro h
      by_cases hb : b = a
      · subst hb
        exact ⟨0, List.getElem?_cons_zero, fun k hk => absurd hk (Nat.not_lt_zero k)⟩
      · have hl : a ∈ l := by
          rcases List.mem_cons.mp h with h1 | h1
          · exact absurd h1.symm hb
          · exact h1
        obtain ⟨j, hj, hfirst⟩ := ih hl
        refine ⟨j + 1, by simpa using hj, ?_⟩
        intro k hk
        cases k with
        | zero =>
            simp only [List.getElem?_cons_zero, ne_eq, Option.some.injEq]
            exact hb
        | succ k =>
            simp only [List.getElem?_cons_succ]
            exact hfirst k (by omega)

/-- C6 (as stated, refuted): R = (0, 0, 65536, 65536) is non-degenerate and D = [R]
is R with k = 0 further rectangles, but the `int` area of R wraps to 0, the overlap
ratio of R with itself is NaN, and `avg_IoU_score(D, [R], 1/2)` ends with tp = 0,
fp = 1, fn = 1 and the value 0, not 1 / (1 + 0). -/
theorem avg_IoU_score_extra_detections_overflow :
    Rect.nonDegenerate ⟨0, 0, 65536, 65536⟩ ∧
      ([⟨0, 0, 65536, 65536⟩] : List Rect).Perm (⟨0, 0, 65536, 65536⟩ :: []) ∧
      (∃ o : Outcome,
        avg_IoU_run [⟨0, 0, 65536, 65536⟩] [⟨0, 0, 65536, 65536⟩] (Dbl.num (1 / 2)) = .ok o ∧
        o.tp = 0 ∧ o.fp = 1 ∧ o.fn = 1 ∧ o.score = Dbl.num 0) ∧
      avg_IoU_score [⟨0, 0, 65536, 65536⟩] [⟨0, 0, 65536, 65536⟩] (Dbl.num (1 / 2)) ≠
        .ok (Dbl.num (1 / (1 + ((([] : List Rect).length : ℕ) : ℚ)))) := by
  have h : avg_IoU_score [⟨0, 0, 65536, 65536⟩] [⟨0, 0, 65536, 65536⟩] (Dbl.num (1 / 2)) =
      .ok (Dbl.num 0) := by
    with_unfolding_all rfl
  refine ⟨by decide, List.Perm.refl _,
    ⟨{ score := Dbl.num 0
       tp := 0
       fp := 1
       fn := 1
       IoU_scores := [⟨Dbl.num 0, -1⟩]
       all_IoU_scores := [[Dbl.nan]]
       picks := [] }, by with_unfolding_all rfl, rfl, rfl, rfl, rfl⟩, ?_⟩
  rw [h]
  intro hc
  injection hc with hc
  injection hc with hc
  norm_num at hc

/-- C6 (amended): for a non-degenerate rectangle R, a detection list D made of R (once,
at any position) and k rectangles that share no pixel with R, such that no `int`
operation of `IoU_score` overflows on any detection paired with R, and a threshold
0 < tau ≤ 1, `avg_IoU_score(D, [R], tau)` ends with tp = 1, fp = k, fn = 0 and returns
1 / (1 + k). -/
theorem avg_IoU_score_extra_detections (R : Rect) (others D : List Rect) (tau : ℚ)
    (hR : R.nonDegenerate) (hperm : D.Perm (R :: others))
    (hdisj : ∀ d ∈ others, d.disjoint R) (hno : ∀ d ∈ D, NoOverflow d R)
    (h0 : 0 < tau) (h1 : tau ≤ 1) :
    ∃ o : Outcome, avg_IoU_run D [R] (Dbl.num tau) = .ok o ∧ o.tp = 1 ∧
      o.fp = (others.length : Int) ∧ o.fn = 0 ∧
      o.score = Dbl.num (1 / (1 + (others.length : ℚ))) ∧
      avg_IoU_score D [R] (Dbl.num tau) = .ok (Dbl.num (1 / (1 + (others.length : ℚ)))) := by
  have hτ : Dbl.gt (Dbl.num tau) (Dbl.num 0) = true := by simpa [Dbl.gt] using h0
  have hm : D.length = others.length + 1 := by
    rw [hperm.length_eq, List.length_cons]
  have hRD : R ∈ D := hperm.mem_iff.mpr (List.mem_cons_self _ _)
  have hRf : R.areaFits := NoOverflow.self_fits hR (hno R hRD)
  have hs := shape_init D [R]
  have hI := inv_init D [R] (Dbl.num tau)
  -- the entries of the single row
  have hentry : ∀ i j w, entry (fillMatrix D [R]) i j = some w →
      i = 0 ∧ ((D[j]? = some R ∧ w = Dbl.num 1) ∨ (D[j]? ≠ some R ∧ w = Dbl.num 0)) := by
    intro i j w hw
    rw [entry_fillMatrix] at hw
    cases i with
    | succ i => simp at hw
    | zero =>
        refine ⟨rfl, ?_⟩
        cases hd : D[j]? with
        | none => rw [hd] at hw; simp at hw
        | some d =>
            rw [hd] at hw
            simp only [List.getElem?_cons_zero, Option.some_bind, Option.map_some',
              Option.some.injEq] at hw
            by_cases hdR : d = R
            · left
              subst hdR
              exact ⟨rfl, by rw [← hw, IoU_score_same d hR hRf]⟩
            · right
              refine ⟨fun hc => hdR (Option.some.inj hc), ?_⟩
              have hdm : d ∈ R :: others := hperm.mem_iff.mp (List.getElem?_mem hd)
              have hdo : d ∈ others := by
                rcases List.mem_cons.mp hdm with h | h
                · exact absurd h hdR
                · exact h
              rw [← hw]
              apply IoU_score_eq_zero
              · rw [Rect.and_eq_zero_of_disjoint d R (hdisj d hdo)]
                rfl
              · exact ne_of_gt (Rect.or_area_pos_right d R hR
                  (hno d (List.getElem?_mem hd)).2.2.2)
  obtain ⟨j0, hj0, hfirst⟩ := exists_first_index R D hRD
  have hfm : findMax (initState D [R]).all_IoU_scores = ⟨Dbl.num 1, ((0 : Nat) : Int), (j0 : Int)⟩ := by
    apply findMax_eq
    · show entry (fillMatrix D [R]) 0 j0 = _
      rw [entry_fillMatrix, hj0]
      simp only [List.getElem?_cons_zero, Option.some_bind, Option.map_some']
      rw [IoU_score_same R hR hRf]
    · norm_num [Dbl.gt]
    · intro i j w hw
      rcases (hentry i j w hw).2 with ⟨_, h⟩ | ⟨_, h⟩
      · rw [h]; exact Dbl.gt_irrefl _
      · rw [h]; norm_num [Dbl.gt]
    · intro i j hb hw
      obtain ⟨hi, h⟩ := hentry i j _ hw
      rcases h with ⟨hD, _⟩ | ⟨_, h⟩
      · unfold Before at hb
        have hj : j < j0 := by omega
        exact hfirst j hj hD
      · simp only [Dbl.num.injEq] at h
        norm_num at h
  rcases loopBody_spec hτ hs with ⟨_, hlt⟩ | ⟨s1, i, j, v, hb, hstep, hlt⟩
  · exfalso
    rw [hfm] at hlt
    simp only [Dbl.lt, Dbl.gt, decide_eq_true_eq] at hlt
    exact absurd hlt (not_lt.mpr h1)
  · have hfm2 := hstep.fm
    rw [hfm] at hfm2
    simp only [ArgMax.mk.injEq] at hfm2
    obtain ⟨hv, hi, _⟩ := hfm2
    have hi : 0 = i := by exact_mod_cast hi
    subst hi
    have hrun : mainLoop (Dbl.num tau) ([R] : List Rect).length (initState D [R]) = .ok s1 := by
      show mainLoop (Dbl.num tau) 1 (initState D [R]) = .ok s1
      simp only [mainLoop, hb]
    obtain ⟨hr1, hr2⟩ := avg_IoU_run_of_mainLoop D [R] _ s1 hrun
    have hs1 := hstep.shape hs
    have hupd : s1.avg_IoU = Dbl.add (Dbl.num 0) v ∧ s1.tp = 0 + 1 ∧
        s1.fp = (D.length : Int) - 1 := by
      rcases hstep.upd with ⟨_, _, _, _, ha, ht, hf, _⟩ | ⟨r, hr, hd, _⟩
      · exact ⟨ha, ht, hf⟩
      · exfalso
        have : r = Score.init := by
          simp only [initState, List.length_singleton, List.replicate_one,
            List.getElem?_cons_zero, Option.some.injEq] at hr
          exact hr.symm
        rw [this] at hd
        exact hd rfl
    obtain ⟨ha, ht, hf⟩ := hupd
    have hlen : (s1.IoU_scores.length : Int) = 1 := by
      rw [hs1.recs]; rfl
    have hscore : (outcomeOf s1).score = Dbl.num (1 / (1 + (others.length : ℚ))) := by
      show Dbl.div s1.avg_IoU
        (Dbl.ofInt (s1.tp + s1.fp + ((s1.IoU_scores.length : Int) - s1.tp))) = _
      rw [ha, ht, hf, hlen, ← hv, hm]
      have hq : (1 : ℚ) + (others.length : ℚ) ≠ 0 := by
        have : (0 : ℚ) ≤ (others.length : ℚ) := Nat.cast_nonneg _
        linarith
      unfold Dbl.ofInt Dbl.div Dbl.add
      simp only
      have hcast : (((0 : Int) + 1 + (((others.length + 1 : Nat) : Int) - 1) + (1 - (0 + 1)) : Int) : ℚ) =
          1 + (others.length : ℚ) := by
        push_cast
        ring
      rw [hcast, if_neg hq, zero_add]
    refine ⟨outcomeOf s1, hr1, ?_, ?_, ?_, hscore, ?_⟩
    · show s1.tp = 1
      rw [ht]; rfl
    · show s1.fp = _
      rw [hf, hm]
      push_cast
      omega
    · show (s1.IoU_scores.length : Int) - s1.tp = 0
      rw [hlen, ht]; rfl
    · rw [hr2, hscore]

theorem avg_IoU_score_extra_detections_witness :
    ∃ o : Outcome,
      avg_IoU_run [⟨0, 0, 10, 10⟩, ⟨100, 100, 5, 5⟩] [⟨0, 0, 10, 10⟩] (Dbl.num (1 / 2)) = .ok o ∧
      o.tp = 1 ∧ o.fp = (([⟨100, 100, 5, 5⟩] : List Rect).length : Int) ∧ o.fn = 0 ∧
      o.score = Dbl.num (1 / (1 + ((([⟨100, 100, 5, 5⟩] : List Rect).length : ℕ) : ℚ))) ∧
      avg_IoU_score [⟨0, 0, 10, 10⟩, ⟨100, 100, 5, 5⟩] [⟨0, 0, 10, 10⟩] (Dbl.num (1 / 2)) =
        .ok (Dbl.num (1 / (1 + ((([⟨100, 100, 5, 5⟩] : List Rect).length : ℕ) : ℚ)))) :=
  avg_IoU_score_extra_detections ⟨0, 0, 10, 10⟩ [⟨100, 100, 5, 5⟩]
    [⟨0, 0, 10, 10⟩, ⟨100, 100, 5, 5⟩] (1 / 2) (by decide) (List.Perm.refl _)
    (by
      intro d hd
      rw [List.mem_singleton] at hd
      subst hd
      intro px py h
      simp only [Rect.contains] at h
      omega)
    (by decide) (by norm_num) (by norm_num)

/-! ### Order of the boxes -/

/-- A permutation of a list is a reindexing by a bijection of the indices. -/
theorem perm_reindex {α : Type} {l1 l2 : List α} (h : l1.Perm l2) :
    ∃ f g : Nat → Nat, (∀ i, g (f i) = i) ∧ (∀ i, f (g i) = i) ∧ ∀ i, l1[i]? = l2[f i]? := by
  induction h with
  | nil => exact ⟨id, id, fun _ => rfl, fun _ => rfl, fun _ => rfl⟩
  | cons a _ ih =>
      obtain ⟨f, g, hgf, hfg, hl⟩ := ih
      refine ⟨fun i => match i with | 0 => 0 | k + 1 => f k + 1,
        fun i => match i with | 0 => 0 | k + 1 => g k + 1, ?_, ?_, ?_⟩
      · intro i
        cases i with
        | zero => rfl
        | succ k => simp only [hgf]
      · intro i
        cases i with
        | zero => rfl
        | succ k => simp only [hfg]
      · intro i
        cases i with
        | zero => simp
        | succ k => simp only [List.getElem?_cons_succ, hl]
  | swap a b l =>
      refine ⟨fun i => match i with | 0 => 1 | 1 => 0 | k + 2 => k + 2,
        fun i => match i with | 0 => 1 | 1 => 0 | k + 2 => k + 2, ?_, ?_, ?_⟩
      · intro i
        match i with
        | 0 => rfl
        | 1 => rfl
        | k + 2 => rfl
      · intro i
        match i with
        | 0 => rfl
        | 1 => rfl
        | k + 2 => rfl
      · intro i
        match i with
        | 0 => simp
        | 1 => simp
        | k + 2 => simp
  | trans _ _ ih1 ih2 =>
      obtain ⟨f1, g1, hgf1, hfg1, hl1⟩ := ih1
      obtain ⟨f2, g2, hgf2, hfg2, hl2⟩ := ih2
      refine ⟨f2 ∘ f1, g1 ∘ g2, ?_, ?_, ?_⟩
      · intro i; simp only [Function.comp_apply, hgf2, hgf1]
      · intro i; simp only [Function.comp_apply, hfg1, hfg2]
      · intro i; simp only [Function.comp_apply, hl1, hl2]

/-- On a matrix without ties among its positive entries, the scan of a renumbered
copy finds the same entry. -/
theorem findMax_reindexed {M M1 : List (List Dbl)} {σ π σi πi : Nat → Nat}
    (hσ : ∀ i, σ (σi i) = i) (hσ1 : ∀ i, σi (σ i) = i)
    (hπ : ∀ j, π (πi j) = j) (hπ1 : ∀ j, πi (π j) = j)
    (hmat : ∀ i j, entry M1 i j = entry M (σ i) (π j))
    (huniq : ∀ (i j a b : Nat) (v : Dbl), entry M i j = some v → entry M a b = some v →
      Dbl.gt v (Dbl.num 0) = true → i = a ∧ j = b) :
    (findMax M = ⟨Dbl.num 0, -1, -1⟩ ∧ findMax M1 = ⟨Dbl.num 0, -1, -1⟩) ∨
    (∃ (i j : Nat) (v : Dbl), findMax M = ⟨v, (i : Int), (j : Int)⟩ ∧
      findMax M1 = ⟨v, ((σi i : Nat) : Int), ((πi j : Nat) : Int)⟩) := by
  rcases findMax_cases M with h0 | ⟨i, j, hi, hj, he, hp⟩
  · left
    refine ⟨h0, ?_⟩
    rcases findMax_cases M1 with h1 | ⟨i1, j1, _, _, he1, hp1⟩
    · exact h1
    · exfalso
      rw [hmat] at he1
      have hmax := findMax_max M _ _ _ he1
      rw [h0] at hmax
      simp only at hmax
      rw [hp1] at hmax
      exact Bool.noConfusion hmax
  · right
    have hfm : findMax M = ⟨(findMax M).max_IoU, (i : Int), (j : Int)⟩ := by
      cases hf : findMax M with
      | mk mx gi di =>
        rw [hf] at hi hj
        simp only at hi hj
        rw [hi, hj]
    generalize (findMax M).max_IoU = v at hfm he hp
    refine ⟨i, j, v, hfm, ?_⟩
    apply findMax_eq
    · rw [hmat, hσ, hπ]
      exact he
    · exact hp
    · intro a b w hw
      rw [hmat] at hw
      have := findMax_max M _ _ _ hw
      rw [hfm] at this
      exact this
    · intro a b hb hw
      rw [hmat] at hw
      obtain ⟨h1, h2⟩ := huniq _ _ _ _ _ hw he hp
      have ha : a = σi i := by rw [← h1, hσ1]
      have hb2 : b = πi j := by rw [← h2, hπ1]
      subst ha; subst hb2
      unfold Before at hb
      omega

theorem option_map_const {α : Type} {f : α → Bool} {o1 o2 : Option α} (c1 c2 : α)
    (h : o1.map f = o2.map f) (hc : f c1 = f c2) :
    (Function.const α c1 <$> o1).map f = (Function.const α c2 <$> o2).map f := by
  cases o1 <;> cases o2 <;> simp_all

/-- Two runs whose states are renumberings of each other stay so, iteration after
iteration, provided the original matrix has no ties among its positive entries. -/
theorem mainLoop_reindexed {n m : Nat} {τ : Dbl} (hτ : Dbl.gt τ (Dbl.num 0) = true)
    {M0 : List (List Dbl)} (hfree : TieFree M0) {σ π σi πi : Nat → Nat}
    (hσ : ∀ i, σ (σi i) = i) (hσ1 : ∀ i, σi (σ i) = i)
    (hπ : ∀ j, π (πi j) = j) (hπ1 : ∀ j, πi (π j) = j) :
    ∀ (k : Nat) (s s1 : LoopState), Shape n m s → Shape n m s1 → Inv n m τ M0 s →
      Reindexed σ π s s1 →
      ∃ t t1, mainLoop τ k s = .ok t ∧ mainLoop τ k s1 = .ok t1 ∧ Shape n m t ∧
        Shape n m t1 ∧ Reindexed σ π t t1 := by
  intro k
  induction k with
  | zero => intro s s1 hs hs1 _ hR; exact ⟨s, s1, rfl, rfl, hs, hs1, hR⟩
  | succ k ih =>
      intro s s1 hs hs1 hI hR
      have huniq : ∀ (i j a b : Nat) (v : Dbl), entry s.all_IoU_scores i j = some v →
          entry s.all_IoU_scores a b = some v → Dbl.gt v (Dbl.num 0) = true → i = a ∧ j = b := by
        intro i j a b v h1 h2 hp
        exact hfree i j a b v (hI.fresh_of_pos h1 hp).2 (hI.fresh_of_pos h2 hp).2 hp
      have hfm := findMax_reindexed hσ hσ1 hπ hπ1 hR.mat huniq
      have hmaxeq : (findMax s1.all_IoU_scores).max_IoU = (findMax s.all_IoU_scores).max_IoU := by
        rcases hfm with ⟨h1, h2⟩ | ⟨_, _, _, h1, h2⟩
        · rw [h1, h2]
        · rw [h1, h2]
      rcases loopBody_spec hτ hs with ⟨hb, hlt⟩ | ⟨s2, i, j, v, hb, hstep, hlt⟩
      · rcases loopBody_spec hτ hs1 with ⟨hb1, _⟩ | ⟨s3, i1, j1, v1, _, hstep1, hlt1⟩
        · refine ⟨s, s1, ?_, ?_, hs, hs1, hR⟩
          · simp only [mainLoop, hb]
          · simp only [mainLoop, hb1]
        · exfalso
          rw [← hmaxeq, hstep1.fm] at hlt
          simp only at hlt
          rw [hlt1] at hlt
          exact Bool.noConfusion hlt
      · rcases loopBody_spec hτ hs1 with ⟨_, hlt1⟩ | ⟨s3, i1, j1, v1, hb1, hstep1, hlt1⟩
        · exfalso
          rw [hmaxeq, hstep.fm] at hlt1
          simp only at hlt1
          rw [hlt] at hlt1
          exact Bool.noConfusion hlt1
        · -- both runs perform a step: the selections correspond
          have hsel : v1 = v ∧ i1 = σi i ∧ j1 = πi j := by
            rcases hfm with ⟨h1, _⟩ | ⟨i0, j0, v0, h1, h2⟩
            · exfalso
              rw [hstep.fm] at h1
              simp only [ArgMax.mk.injEq] at h1
              omega
            · rw [hstep.fm] at h1
              rw [hstep1.fm] at h2
              simp only [ArgMax.mk.injEq] at h1 h2
              obtain ⟨hv, hi, hj⟩ := h1
              obtain ⟨hv1, hi1, hj1⟩ := h2
              have hi : i = i0 := by exact_mod_cast hi
              have hj : j = j0 := by exact_mod_cast hj
              have hi1 : i1 = σi i0 := by exact_mod_cast hi1
              have hj1 : j1 = πi j0 := by exact_mod_cast hj1
              subst hi; subst hj
              exact ⟨hv1.trans hv.symm, hi1, hj1⟩
          obtain ⟨hv, hi1, hj1⟩ := hsel
          subst hv
          have hrec0 := hR.recs i1
          rw [hi1, hσ] at hrec0
          have hiff : ∀ a, (i1 = a) ↔ (i = σ a) := by
            intro a
            rw [hi1]
            constructor
            · intro h; rw [← h, hσ]
            · intro h; rw [h, hσ1]
          have hR2 : Reindexed σ π s2 s3 := by
            refine ⟨?_, ?_, ?_, ?_, ?_⟩
            · intro a b
              rw [hstep1.mat, hstep.mat, entry_killColumn, entry_killColumn, hR.mat]
              by_cases hjb : j1 = b
              · have hjb2 : j = π b := by rw [← hjb, hj1, hπ]
                rw [if_pos hjb, if_pos hjb2]
              · have hjb2 : ¬ j = π b := by
                  intro hc
                  apply hjb
                  rw [hj1, hc, hπ1]
                rw [if_neg hjb, if_neg hjb2]
            · intro a
              rcases hstep.upd with ⟨r, hr, hd, hrecs, _⟩ | ⟨r, hr, hd, hrecs, _⟩
              · rcases hstep1.upd with ⟨r1, hr1, hd1, hrecs1, _⟩ | ⟨r1, hr1, hd1, _⟩
                · rw [hrecs, hrecs1, List.getElem?_set', List.getElem?_set']
                  by_cases hia : i1 = a
                  · rw [if_pos hia, if_pos ((hiff a).mp hia)]
                    apply option_map_const _ _ (hR.recs a)
                    simp only [Score.free, decide_eq_decide]
                    constructor <;> intro h <;> omega
                  · rw [if_neg hia, if_neg (fun h => hia ((hiff a).mpr h))]
                    exact hR.recs a
                · exfalso
                  rw [← hi1, hr1, hr] at hrec0
                  simp only [Option.map_some', Option.some.injEq, Score.free,
                    decide_eq_decide] at hrec0
                  exact hd1 (hrec0.mpr hd)
              · rcases hstep1.upd with ⟨r1, hr1, hd1, _⟩ | ⟨r1, hr1, hd1, hrecs1, _⟩
                · exfalso
                  rw [← hi1, hr1, hr] at hrec0
                  simp only [Option.map_some', Option.some.injEq, Score.free,
                    decide_eq_decide] at hrec0
                  exact hd (hrec0.mp hd1)
                · rw [hrecs, hrecs1]
                  exact hR.recs a
            · rcases hstep.upd with ⟨r, hr, hd, _, ha, _⟩ | ⟨r, hr, hd, _, ha, _⟩
              · rcases hstep1.upd with ⟨r1, hr1, hd1, _, ha1, _⟩ | ⟨r1, hr1, hd1, _⟩
                · rw [ha, ha1, hR.avg]
                · exfalso
                  rw [← hi1, hr1, hr] at hrec0
                  simp only [Option.map_some', Option.some.injEq, Score.free,
                    decide_eq_decide] at hrec0
                  exact hd1 (hrec0.mpr hd)
              · rcases hstep1.upd with ⟨r1, hr1, hd1, _⟩ | ⟨r1, hr1, hd1, _, ha1, _⟩
                · exfalso
                  rw [← hi1, hr1, hr] at hrec0
                  simp only [Option.map_some', Option.some.injEq, Score.free,
                    decide_eq_decide] at hrec0
                  exact hd (hrec0.mp hd1)
                · rw [ha, ha1, hR.avg]
            · rcases hstep.upd with ⟨r, hr, hd, _, _, ht, _⟩ | ⟨r, hr, hd, _, _, ht, _⟩
              · rcases hstep1.upd with ⟨r1, hr1, hd1, _, _, ht1, _⟩ | ⟨r1, hr1, hd1, _⟩
                · rw [ht, ht1, hR.tp]
                · exfalso
                  rw [← hi1, hr1, hr] at hrec0
                  simp only [Option.map_some', Option.some.injEq, Score.free,
                    decide_eq_decide] at hrec0
                  exact hd1 (hrec0.mpr hd)
              · rcases hstep1.upd with ⟨r1, hr1, hd1, _⟩ | ⟨r1, hr1, hd1, _, _, ht1, _⟩
                · exfalso
                  rw [← hi1, hr1, hr] at hrec0
                  simp only [Option.map_some', Option.some.injEq, Score.free,
                    decide_eq_decide] at hrec0
                  exact hd (hrec0.mp hd1)
                · rw [ht, ht1, hR.tp]
            · rcases hstep.upd with ⟨r, hr, hd, _, _, _, hf, _⟩ | ⟨r, hr, hd, _, _, _, hf, _⟩
              · rcases hstep1.upd with ⟨r1, hr1, hd1, _, _, _, hf1, _⟩ | ⟨r1, hr1, hd1, _⟩
                · rw [hf, hf1, hR.fp]
                · exfalso
                  rw [← hi1, hr1, hr] at hrec0
                  simp only [Option.map_some', Option.some.injEq, Score.free,
                    decide_eq_decide] at hrec0
                  exact hd1 (hrec0.mpr hd)
              · rcases hstep1.upd with ⟨r1, hr1, hd1, _⟩ | ⟨r1, hr1, hd1, _, _, _, hf1, _⟩
                · exfalso
                  rw [← hi1, hr1, hr] at hrec0
                  simp only [Option.map_some', Option.some.injEq, Score.free,
                    decide_eq_decide] at hrec0
                  exact hd (hrec0.mp hd1)
                · rw [hf, hf1, hR.fp]
          obtain ⟨t, t1, hrun, hrun1, ht, ht1, hRt⟩ :=
            ih s2 s3 (hstep.shape hs) (hstep1.shape hs1) (hI.step hs hstep hlt) hR2
          refine ⟨t, t1, ?_, ?_, ht, ht1, hRt⟩
          · simp only [mainLoop, hb, hrun]
          · simp only [mainLoop, hb1, hrun1]

theorem reindexed_init (D G D1 G1 : List Rect) (σ π : Nat → Nat)
    (hG : ∀ i, G1[i]? = G[σ i]?) (hD : ∀ j, D1[j]? = D[π j]?) (hlen : G1.length = G.length)
    (hlenD : D1.length = D.length) :
    Reindexed σ π (initState D G) (initState D1 G1) := by
  refine ⟨?_, ?_, rfl, rfl, ?_⟩
  · intro i j
    show entry (fillMatrix D1 G1) i j = entry (fillMatrix D G) (σ i) (π j)
    rw [entry_fillMatrix, entry_fillMatrix, hG, hD]
  · intro i
    show Option.map Score.free (List.replicate G1.length Score.init)[i]? =
      Option.map Score.free (List.replicate G.length Score.init)[σ i]?
    rw [List.getElem?_replicate, List.getElem?_replicate, hlen]
    have h := hG i
    by_cases hi : i < G.length
    · have h1 : σ i < G.length := by
        have hsome : G1[i]? ≠ none := by
          rw [ne_eq, List.getElem?_eq_none_iff]
          omega
        rw [h, ne_eq, List.getElem?_eq_none_iff] at hsome
        omega
      rw [if_pos hi, if_pos h1]
    · have h1 : ¬ σ i < G.length := by
        have hnone : G1[i]? = none := by
          rw [List.getElem?_eq_none_iff]
          omega
        rw [h, List.getElem?_eq_none_iff] at hnone
        omega
      rw [if_neg hi, if_neg h1]
  · show ((D1.length : Nat) : Int) = ((D.length : Nat) : Int)
    rw [hlenD]

/-- C4 (as stated, refuted): D = [(0,0,20,10), (0,0,16,6)], tau = 0.5; with
G = [(0,0,16,10), (4,0,16,10)] the value is 0.8 / 3, with the two ground-truth boxes
swapped it is (0.8 + 0.6) / 2. -/
theorem avg_IoU_score_order_dependent :
    List.Perm ([⟨4, 0, 16, 10⟩, ⟨0, 0, 16, 10⟩] : List Rect) [⟨0, 0, 16, 10⟩, ⟨4, 0, 16, 10⟩] ∧
      avg_IoU_score [⟨0, 0, 20, 10⟩, ⟨0, 0, 16, 6⟩] [⟨0, 0, 16, 10⟩, ⟨4, 0, 16, 10⟩]
        (Dbl.num (1 / 2)) = .ok (Dbl.num (4 / 15)) ∧
      avg_IoU_score [⟨0, 0, 20, 10⟩, ⟨0, 0, 16, 6⟩] [⟨4, 0, 16, 10⟩, ⟨0, 0, 16, 10⟩]
        (Dbl.num (1 / 2)) = .ok (Dbl.num (7 / 10)) ∧
      avg_IoU_score [⟨0, 0, 20, 10⟩, ⟨0, 0, 16, 6⟩] [⟨4, 0, 16, 10⟩, ⟨0, 0, 16, 10⟩]
        (Dbl.num (1 / 2)) ≠
      avg_IoU_score [⟨0, 0, 20, 10⟩, ⟨0, 0, 16, 6⟩] [⟨0, 0, 16, 10⟩, ⟨4, 0, 16, 10⟩]
        (Dbl.num (1 / 2)) := by
  have h1 : avg_IoU_score [⟨0, 0, 20, 10⟩, ⟨0, 0, 16, 6⟩] [⟨0, 0, 16, 10⟩, ⟨4, 0, 16, 10⟩]
      (Dbl.num (1 / 2)) = .ok (Dbl.num (4 / 15)) := by
    with_unfolding_all rfl
  have h2 : avg_IoU_score [⟨0, 0, 20, 10⟩, ⟨0, 0, 16, 6⟩] [⟨4, 0, 16, 10⟩, ⟨0, 0, 16, 10⟩]
      (Dbl.num (1 / 2)) = .ok (Dbl.num (7 / 10)) := by
    with_unfolding_all rfl
  refine ⟨List.Perm.swap _ _ _, h1, h2, ?_⟩
  rw [h1, h2]
  intro h
  injection h with h
  injection h with h
  norm_num at h

/-- C4 (amended): when no two positions of the IoU matrix of D and G hold the same
positive value, scoring is order-irrelevant: for D and G not both empty, a threshold
tau > 0, a permutation D1 of D and a permutation G1 of G, the call on D1, G1 returns,
and returns the same value as the call on D, G. -/
theorem avg_IoU_score_perm_of_tieFree (D G D1 G1 : List Rect) (tau : ℚ)
    (_hne : D ≠ [] ∨ G ≠ []) (htau : 0 < tau) (hD : D1.Perm D) (hG : G1.Perm G)
    (hfree : TieFree (fillMatrix D G)) :
    (∃ v : Dbl, avg_IoU_score D G (Dbl.num tau) = .ok v) ∧
      avg_IoU_score D1 G1 (Dbl.num tau) = avg_IoU_score D G (Dbl.num tau) := by
  have hτ : Dbl.gt (Dbl.num tau) (Dbl.num 0) = true := by simpa [Dbl.gt] using htau
  obtain ⟨σ, σi, hσ1, hσ, hGi⟩ := perm_reindex hG
  obtain ⟨π, πi, hπ1, hπ, hDi⟩ := perm_reindex hD
  have hlenG := hG.length_eq
  have hlenD := hD.length_eq
  have hs := shape_init D G
  have hs1 : Shape G.length D.length (initState D1 G1) := by
    have := shape_init D1 G1
    rw [hlenG, hlenD] at this
    exact this
  obtain ⟨t, t1, hrun, hrun1, ht, ht1, hR⟩ :=
    mainLoop_reindexed hτ hfree hσ hσ1 hπ hπ1 G.length (initState D G) (initState D1 G1)
      hs hs1 (inv_init D G _) (reindexed_init D G D1 G1 σ π hGi hDi hlenG hlenD)
  obtain ⟨_, h2⟩ := avg_IoU_run_of_mainLoop D G _ t hrun
  rw [← hlenG] at hrun1
  obtain ⟨_, h3⟩ := avg_IoU_run_of_mainLoop D1 G1 _ t1 hrun1
  refine ⟨⟨_, h2⟩, ?_⟩
  rw [h2, h3]
  show Except.ok (Dbl.div t1.avg_IoU
      (Dbl.ofInt (t1.tp + t1.fp + ((t1.IoU_scores.length : Int) - t1.tp)))) =
    Except.ok (Dbl.div t.avg_IoU
      (Dbl.ofInt (t.tp + t.fp + ((t.IoU_scores.length : Int) - t.tp))))
  rw [hR.avg, hR.tp, hR.fp, ht.recs, ht1.recs]

theorem avg_IoU_score_perm_of_tieFree_witness :
    (∃ v : Dbl, avg_IoU_score [⟨0, 0, 10, 10⟩, ⟨0, 0, 10, 5⟩] [⟨0, 0, 10, 10⟩, ⟨0, 0, 10, 4⟩]
        (Dbl.num (1 / 2)) = .ok v) ∧
      avg_IoU_score [⟨0, 0, 10, 5⟩, ⟨0, 0, 10, 10⟩] [⟨0, 0, 10, 4⟩, ⟨0, 0, 10, 10⟩]
        (Dbl.num (1 / 2)) =
      avg_IoU_score [⟨0, 0, 10, 10⟩, ⟨0, 0, 10, 5⟩] [⟨0, 0, 10, 10⟩, ⟨0, 0, 10, 4⟩]
        (Dbl.num (1 / 2)) :=
  avg_IoU_score_perm_of_tieFree [⟨0, 0, 10, 10⟩, ⟨0, 0, 10, 5⟩]
    [⟨0, 0, 10, 10⟩, ⟨0, 0, 10, 4⟩] [⟨0, 0, 10, 5⟩, ⟨0, 0, 10, 10⟩]
    [⟨0, 0, 10, 4⟩, ⟨0, 0, 10, 10⟩] (1 / 2) (Or.inl (by simp)) (by norm_num)
    (List.Perm.swap _ _ _) (List.Perm.swap _ _ _)
    (by
      have key : ∀ (i j : Nat) (v : Dbl),
          entry (fillMatrix [⟨0, 0, 10, 10⟩, ⟨0, 0, 10, 5⟩]
            [⟨0, 0, 10, 10⟩, ⟨0, 0, 10, 4⟩]) i j = some v →
          (i = 0 ∧ j = 0 ∧ v = Dbl.num 1) ∨ (i = 0 ∧ j = 1 ∧ v = Dbl.num (1 / 2)) ∨
          (i = 1 ∧ j = 0 ∧ v = Dbl.num (2 / 5)) ∨ (i = 1 ∧ j = 1 ∧ v = Dbl.num (4 / 5)) := by
        intro i j v h
        match i, j with
        | 0, 0 =>
            left
            refine ⟨rfl, rfl, ?_⟩
            have h0 : entry (fillMatrix [⟨0, 0, 10, 10⟩, ⟨0, 0, 10, 5⟩]
                [⟨0, 0, 10, 10⟩, ⟨0, 0, 10, 4⟩]) 0 0 = some (Dbl.num 1) := by
              with_unfolding_all rfl
            rw [h0] at h
            exact (Option.some.inj h).symm
        | 0, 1 =>
            right; left
            refine ⟨rfl, rfl, ?_⟩
            have h0 : entry (fillMatrix [⟨0, 0, 10, 10⟩, ⟨0, 0, 10, 5⟩]
                [⟨0, 0, 10, 10⟩, ⟨0, 0, 10, 4⟩]) 0 1 = some (Dbl.num (1 / 2)) := by
              with_unfolding_all rfl
            rw [h0] at h
            exact (Option.some.inj h).symm
        | 1, 0 =>
            right; right; left
            refine ⟨rfl, rfl, ?_⟩
            have h0 : entry (fillMatrix [⟨0, 0, 10, 10⟩, ⟨0, 0, 10, 5⟩]
                [⟨0, 0, 10, 10⟩, ⟨0, 0, 10, 4⟩]) 1 0 = some (Dbl.num (2 / 5)) := by
              with_unfolding_all rfl
            rw [h0] at h
            exact (Option.some.inj h).symm
        | 1, 1 =>
            right; right; right
            refine ⟨rfl, rfl, ?_⟩
            have h0 : entry (fillMatrix [⟨0, 0, 10, 10⟩, ⟨0, 0, 10, 5⟩]
                [⟨0, 0, 10, 10⟩, ⟨0, 0, 10, 4⟩]) 1 1 = some (Dbl.num (4 / 5)) := by
              with_unfolding_all rfl
            rw [h0] at h
            exact (Option.some.inj h).symm
        | 0, k + 2 => simp [entry, fillMatrix] at h
        | 1, k + 2 => simp [entry, fillMatrix] at h
        | k + 2, _ => simp [entry, fillMatrix] at h
      intro i j a b v h1 h2 _
      rcases key i j v h1 with ⟨hi, hj, hv⟩ | ⟨hi, hj, hv⟩ | ⟨hi, hj, hv⟩ | ⟨hi, hj, hv⟩ <;>
        rcases key a b v h2 with ⟨ha, hb, hw⟩ | ⟨ha, hb, hw⟩ | ⟨ha, hb, hw⟩ | ⟨ha, hb, hw⟩ <;>
        first
          | exact ⟨hi.trans ha.symm, hj.trans hb.symm⟩
          | (rw [hv] at hw; injection hw with hw; norm_num at hw))

/-! ## Range of `IoU_score` -/

/-- An empty operand makes the intersection `Rect()`. -/
theorem and_eq_zero_of_empty (a b : Rect) (h : a.empty = true ∨ b.empty = true) :
    a.and b = Rect.zero := by
  unfold Rect.empty at h
  simp only [Bool.or_eq_true, decide_eq_true_eq] at h
  unfold Rect.and
  simp only
  rw [if_pos (by omega)]

/-- Whenever the denominator is not zero and no `int` operation overflows, the
overlap ratio is a finite value between 0 and 1. -/
theorem IoU_score_unit (d g : Rect) (h : IoU_defined d g) (hno : NoOverflow d g) :
    ∃ q : ℚ, IoU_score d g = Dbl.num q ∧ 0 ≤ q ∧ q ≤ 1 := by
  by_cases hd : d.nonDegenerate
  · by_cases hg : g.nonDegenerate
    · by_cases heq : d = g
      · subst heq
        exact ⟨1, IoU_score_same d hd (NoOverflow.self_fits hd hno), zero_le_one, le_refl _⟩
      · obtain ⟨q, hq, h0, h1⟩ := IoU_score_lt_one d g hd hg heq hno.2.2.1 hno.2.2.2
        exact ⟨q, hq, h0, le_of_lt h1⟩
    · refine ⟨0, ?_, le_refl _, zero_le_one⟩
      apply IoU_score_eq_zero _ _ _ h
      rw [and_eq_zero_of_empty d g (Or.inr (Rect.empty_of_not_nonDegenerate g hg))]
      rfl
  · refine ⟨0, ?_, le_refl _, zero_le_one⟩
    apply IoU_score_eq_zero _ _ _ h
    rw [and_eq_zero_of_empty d g (Or.inl (Rect.empty_of_not_nonDegenerate d hd))]
    rfl

theorem entry_fillMatrix_some (D G : List Rect) (i j : Nat) (w : Dbl)
    (h : entry (fillMatrix D G) i j = some w) :
    ∃ d g, d ∈ D ∧ g ∈ G ∧ D[j]? = some d ∧ G[i]? = some g ∧ w = IoU_score d g := by
  rw [entry_fillMatrix] at h
  cases hg : G[i]? with
  | none => rw [hg] at h; cases h
  | some g =>
      cases hd : D[j]? with
      | none => rw [hg, hd] at h; cases h
      | some d =>
          rw [hg, hd] at h
          simp only [Option.some_bind, Option.map_some', Option.some.injEq] at h
          exact ⟨d, g, List.getElem?_mem hd, List.getElem?_mem hg, rfl, rfl, h.symm⟩

/-- C11 (as stated, refuted): A = (0, 0, 10, 10) and B = (5, 5, 46336, 46336) are
well-formed and of non-zero area, but the box `A | B` is 46341 x 46341, its `int` area
wraps to -2147479015, and `IoU_score(A, B)` is 25 / (-2147479015), a negative value
outside [0, 1]; it is also the single matrix entry filled for D = [A], G = [B]. -/
theorem IoU_score_range_overflow :
    Rect.wellFormed ⟨0, 0, 10, 10⟩ ∧ Rect.wellFormed ⟨5, 5, 46336, 46336⟩ ∧
      Rect.area ⟨0, 0, 10, 10⟩ ≠ 0 ∧ Rect.area ⟨5, 5, 46336, 46336⟩ ≠ 0 ∧
      (Rect.or ⟨0, 0, 10, 10⟩ ⟨5, 5, 46336, 46336⟩).area = -2147479015 ∧
      IoU_score ⟨0, 0, 10, 10⟩ ⟨5, 5, 46336, 46336⟩ = Dbl.num (25 / (-2147479015)) ∧
      (¬ ∃ q : ℚ, IoU_score ⟨0, 0, 10, 10⟩ ⟨5, 5, 46336, 46336⟩ = Dbl.num q ∧
        0 ≤ q ∧ q ≤ 1) ∧
      entry (initState [⟨0, 0, 10, 10⟩] [⟨5, 5, 46336, 46336⟩]).all_IoU_scores 0 0 =
        some (Dbl.num (25 / (-2147479015))) := by
  have h : IoU_score ⟨0, 0, 10, 10⟩ ⟨5, 5, 46336, 46336⟩ = Dbl.num (25 / (-2147479015)) := by
    with_unfolding_all rfl
  refine ⟨by decide, by decide, by decide, by decide, by decide, h, ?_,
    by with_unfolding_all rfl⟩
  rintro ⟨q, hq, h0, _⟩
  rw [h] at hq
  injection hq with hq
  rw [← hq] at h0
  norm_num at h0

/-- C11 (amended): for well-formed rectangles A and B, at least one of non-zero area,
on which no `int` operation of `IoU_score` overflows, the denominator of `IoU_score`
is not zero and 0 ≤ IoU_score(A, B) ≤ 1; therefore every entry of the matrix filled by
`avg_IoU_score` for such boxes lies in [0, 1] before any column is invalidated. -/
theorem IoU_score_range :
    (∀ A B : Rect, A.wellFormed → B.wellFormed → (A.area ≠ 0 ∨ B.area ≠ 0) →
      NoOverflow A B →
      IoU_defined A B ∧ ∃ q : ℚ, IoU_score A B = Dbl.num q ∧ 0 ≤ q ∧ q ≤ 1) ∧
    (∀ D G : List Rect, (∀ d ∈ D, d.wellFormed) → (∀ g ∈ G, g.wellFormed) →
      (∀ d ∈ D, ∀ g ∈ G, d.area ≠ 0 ∨ g.area ≠ 0) →
      (∀ d ∈ D, ∀ g ∈ G, NoOverflow d g) →
      ∀ (i j : Nat) (w : Dbl), entry (initState D G).all_IoU_scores i j = some w →
        ∃ q : ℚ, w = Dbl.num q ∧ 0 ≤ q ∧ q ≤ 1) := by
  have key : ∀ A B : Rect, A.wellFormed → B.wellFormed → (A.area ≠ 0 ∨ B.area ≠ 0) →
      NoOverflow A B →
      IoU_defined A B ∧ ∃ q : ℚ, IoU_score A B = Dbl.num q ∧ 0 ≤ q ∧ q ≤ 1 := by
    intro A B hA hB hne hno
    have hdef : IoU_defined A B := ne_of_gt (Rect.or_area_pos A B hA hB hne hno.2.2.2)
    exact ⟨hdef, IoU_score_unit A B hdef hno⟩
  refine ⟨key, ?_⟩
  intro D G hD hG hne hno i j w hw
  obtain ⟨d, g, hd, hg, _, _, hwe⟩ := entry_fillMatrix_some D G i j w hw
  obtain ⟨_, q, hq, h0, h1⟩ := key d g (hD d hd) (hG g hg) (hne d hd g hg) (hno d hd g hg)
  exact ⟨q, by rw [hwe, hq], h0, h1⟩

theorem IoU_score_range_witness :
    (IoU_defined ⟨0, 0, 10, 10⟩ ⟨5, 5, 10, 10⟩ ∧
      ∃ q : ℚ, IoU_score ⟨0, 0, 10, 10⟩ ⟨5, 5, 10, 10⟩ = Dbl.num q ∧ 0 ≤ q ∧ q ≤ 1) ∧
    (∀ (i j : Nat) (w : Dbl),
      entry (initState [⟨0, 0, 10, 10⟩, ⟨3, 3, 0, 4⟩] [⟨5, 5, 10, 10⟩]).all_IoU_scores i j =
        some w → ∃ q : ℚ, w = Dbl.num q ∧ 0 ≤ q ∧ q ≤ 1) :=
  ⟨IoU_score_range.1 ⟨0, 0, 10, 10⟩ ⟨5, 5, 10, 10⟩ (by decide) (by decide)
      (Or.inl (by decide)) (by decide),
    IoU_score_range.2 [⟨0, 0, 10, 10⟩, ⟨3, 3, 0, 4⟩] [⟨5, 5, 10, 10⟩] (by decide) (by decide)
      (by decide) (by decide)⟩

/-! ## Claims on `crop_bboxes` -/

/-- C12 (as stated, refuted): in a 100 x 100 image the rectangle (1, 0, 2147483647, 10)
has x + w = 2^31, which wraps to -2^31 as an `int`; the test `cols < x + w` is false,
the rectangle is left unchanged, x' + w' = 2147483648 > cols, and the pixel (100, 0)
it covers lies outside the image. -/
theorem crop_bboxes_bounds_overflow :
    (0 : Int) ≤ Mat.cols ⟨100, 100, CV_8UC1, []⟩ ∧
      (0 : Int) ≤ Mat.rows ⟨100, 100, CV_8UC1, []⟩ ∧
      isInt 1 ∧ isInt 0 ∧ isInt 2147483647 ∧ isInt 10 ∧
      crop_bboxes ⟨100, 100, CV_8UC1, []⟩ ⟨1, 0, 2147483647, 10⟩ =
        ⟨1, 0, 2147483647, 10⟩ ∧
      ¬ ((crop_bboxes ⟨100, 100, CV_8UC1, []⟩ ⟨1, 0, 2147483647, 10⟩).x +
          (crop_bboxes ⟨100, 100, CV_8UC1, []⟩ ⟨1, 0, 2147483647, 10⟩).width ≤
        Mat.cols ⟨100, 100, CV_8UC1, []⟩) ∧
      (crop_bboxes ⟨100, 100, CV_8UC1, []⟩ ⟨1, 0, 2147483647, 10⟩).contains 100 0 ∧
      ¬ Mat.inside ⟨100, 100, CV_8UC1, []⟩ 100 0 := by
  have h1 : crop_bboxes ⟨100, 100, CV_8UC1, []⟩ ⟨1, 0, 2147483647, 10⟩ =
      ⟨1, 0, 2147483647, 10⟩ := by decide
  refine ⟨by decide, by decide, by decide, by decide, by decide, by decide, h1, ?_, ?_, ?_⟩
  · rw [h1]
    decide
  · rw [h1]
    decide
  · unfold Mat.inside
    decide

/-- C12 (amended): for every rectangle whose origin is an `int` and every image of
0 ≤ cols by 0 ≤ rows pixels (both `int`s), when the sums x + w and y + h taken after
the origin has been moved to max(x, 0), max(y, 0) do not overflow an `int`, the
rectangle (x', y', w', h') left by `crop_bboxes` has x' ≥ 0, y' ≥ 0, x' + w' ≤ cols
and y' + h' ≤ rows; consequently every pixel it covers (there is none when w' ≤ 0 or
h' ≤ 0) lies in [0, cols) × [0, rows). -/
theorem crop_bboxes_bounds (input : Mat) (box : Rect) (_hc : 0 ≤ input.cols)
    (_hr : 0 ≤ input.rows) (hci : isInt input.cols) (hri : isInt input.rows)
    (hxi : isInt box.x) (hyi : isInt box.y)
    (hsx : isInt (max box.x 0 + box.width)) (hsy : isInt (max box.y 0 + box.height)) :
    0 ≤ (crop_bboxes input box).x ∧ 0 ≤ (crop_bboxes input box).y ∧
      (crop_bboxes input box).x + (crop_bboxes input box).width ≤ input.cols ∧
      (crop_bboxes input box).y + (crop_bboxes input box).height ≤ input.rows ∧
      (∀ px py : Int, (crop_bboxes input box).contains px py → input.inside px py) ∧
      ((crop_bboxes input box).empty = true →
        ∀ px py : Int, ¬ (crop_bboxes input box).contains px py) := by
  have h4 : 0 ≤ (crop_bboxes input box).x ∧ 0 ≤ (crop_bboxes input box).y ∧
      (crop_bboxes input box).x + (crop_bboxes input box).width ≤ input.cols ∧
      (crop_bboxes input box).y + (crop_bboxes input box).height ≤ input.rows := by
    obtain ⟨x, y, w, h⟩ := box
    unfold isInt at hci hri hxi hyi hsx hsy
    unfold crop_bboxes wrap32
    dsimp only at hxi hyi hsx hsy ⊢
    split_ifs <;> dsimp only at * <;> omega
  obtain ⟨h1, h2, h3, h5⟩ := h4
  refine ⟨h1, h2, h3, h5, ?_, ?_⟩
  · intro px py hp
    unfold Rect.contains at hp
    unfold Mat.inside
    omega
  · intro he px py hp
    unfold Rect.empty at he
    simp only [Bool.or_eq_true, decide_eq_true_eq] at he
    unfold Rect.contains at hp
    omega

theorem crop_bboxes_bounds_witness :
    0 ≤ (crop_bboxes ⟨100, 100, 0, []⟩ ⟨95, -5, 10, 10⟩).x ∧
      0 ≤ (crop_bboxes ⟨100, 100, 0, []⟩ ⟨95, -5, 10, 10⟩).y ∧
      (crop_bboxes ⟨100, 100, 0, []⟩ ⟨95, -5, 10, 10⟩).x +
        (crop_bboxes ⟨100, 100, 0, []⟩ ⟨95, -5, 10, 10⟩).width ≤ 100 ∧
      (crop_bboxes ⟨100, 100, 0, []⟩ ⟨95, -5, 10, 10⟩).y +
        (crop_bboxes ⟨100, 100, 0, []⟩ ⟨95, -5, 10, 10⟩).height ≤ 100 ∧
      (∀ px py : Int, (crop_bboxes ⟨100, 100, 0, []⟩ ⟨95, -5, 10, 10⟩).contains px py →
          Mat.inside ⟨100, 100, 0, []⟩ px py) ∧
      ((crop_bboxes ⟨100, 100, 0, []⟩ ⟨95, -5, 10, 10⟩).empty = true →
        ∀ px py : Int, ¬ (crop_bboxes ⟨100, 100, 0, []⟩ ⟨95, -5, 10, 10⟩).contains px py) :=
  crop_bboxes_bounds ⟨100, 100, 0, []⟩ ⟨95, -5, 10, 10⟩ (by decide) (by decide) (by decide)
    (by decide) (by decide) (by decide) (by decide) (by decide)

/-- A rectangle whose origin is not negative is clipped, when no `int` sum overflows:
the result covers exactly the pixels of the rectangle that lie in the image. -/
theorem crop_bboxes_clips_of_nonneg_origin (input : Mat) (box : Rect) (hx : 0 ≤ box.x)
    (hy : 0 ≤ box.y) (hc : 0 ≤ input.cols) (hr : 0 ≤ input.rows)
    (hci : isInt input.cols) (hri : isInt input.rows)
    (hxi : isInt box.x) (hyi : isInt box.y)
    (hsx : isInt (box.x + box.width)) (hsy : isInt (box.y + box.height)) (px py : Int) :
    (crop_bboxes input box).contains px py ↔ (box.contains px py ∧ input.inside px py) := by
  obtain ⟨x, y, w, h⟩ := box
  unfold isInt at hci hri hxi hyi hsx hsy
  unfold crop_bboxes wrap32 Rect.contains Mat.inside
  dsimp only at hx hy hxi hyi hsx hsy ⊢
  split_ifs <;> dsimp only at * <;> omega

/-- C18 (code defect): on b = (-5, 0, 10, 10) in a 100 x 100 image the code moves the
left edge to 0 and keeps the width 10, leaving (0, 0, 10, 10); the pixel (7, 0) is
covered by the result although b, which spans the columns -5 .. 4, does not cover it. -/
theorem crop_bboxes_shifts_left_edge :
    crop_bboxes ⟨100, 100, CV_8UC1, []⟩ ⟨-5, 0, 10, 10⟩ = ⟨0, 0, 10, 10⟩ ∧
      (crop_bboxes ⟨100, 100, CV_8UC1, []⟩ ⟨-5, 0, 10, 10⟩).contains 7 0 ∧
      ¬ Rect.contains ⟨-5, 0, 10, 10⟩ 7 0 ∧
      ¬ (∀ px py : Int, (crop_bboxes ⟨100, 100, CV_8UC1, []⟩ ⟨-5, 0, 10, 10⟩).contains px py ↔
        (Rect.contains ⟨-5, 0, 10, 10⟩ px py ∧
          Mat.inside ⟨100, 100, CV_8UC1, []⟩ px py)) := by
  have h1 : crop_bboxes ⟨100, 100, CV_8UC1, []⟩ ⟨-5, 0, 10, 10⟩ = ⟨0, 0, 10, 10⟩ := by decide
  have h2 : Rect.contains ⟨0, 0, 10, 10⟩ 7 0 := by decide
  have h3 : ¬ Rect.contains ⟨-5, 0, 10, 10⟩ 7 0 := by decide
  refine ⟨h1, by rw [h1]; exact h2, h3, ?_⟩
  intro hall
  rw [h1] at hall
  exact h3 ((hall 7 0).mp h2).1

/-! ## Claims on `extract_bboxes` -/

/-- The loop appends, in order, the padded box of every record that passes the test. -/
theorem extractLoop_eq (sqrt : ℚ → ℚ) (scale_factor : ℚ) :
    ∀ (records : List Quad) (boxes : List Rect),
      extractLoop sqrt scale_factor records boxes =
        boxes ++ (records.filter Quad.valid).map (paddedBox sqrt scale_factor) := by
  intro records
  induction records with
  | nil => intro boxes; simp [extractLoop]
  | cons q rest ih =>
      intro boxes
      by_cases hq : q.x < 0 ∨ q.y < 0 ∨ q.w < 0 ∨ q.h < 0
      · have hv : q.valid = false := by
          unfold Quad.valid
          simp only [Bool.not_eq_false', Bool.or_eq_true, decide_eq_true_eq]
          tauto
        simp only [extractLoop, if_pos hq, ih, List.filter_cons, hv, Bool.false_eq_true,
          if_false]
      · have hv : q.valid = true := by
          unfold Quad.valid
          simp only [Bool.not_eq_true', Bool.or_eq_false_iff, decide_eq_false_iff_not]
          tauto
        simp only [extractLoop, if_neg hq, ih, List.filter_cons, hv, if_true, List.map_cons,
          List.append_assoc, List.singleton_append]

theorem cvRound_zero : cvRound 0 = 0 := by
  unfold cvRound
  simp

/-- The value of `cvRound` is an integer nearest to its argument. -/
theorem cvRound_near (q : ℚ) : |((cvRound q : Int) : ℚ) - q| ≤ 1 / 2 := by
  have h1 : ((⌊q⌋ : Int) : ℚ) ≤ q := Int.floor_le q
  have h2 : q < ((⌊q⌋ : Int) : ℚ) + 1 := Int.lt_floor_add_one q
  unfold cvRound
  simp only
  rw [abs_le]
  split_ifs with ha hb hc
  · constructor <;> linarith
  · push_cast
    constructor <;> linarith
  · have hr : q - ((⌊q⌋ : Int) : ℚ) = 1 / 2 := le_antisymm (not_lt.mp hb) (not_lt.mp ha)
    constructor <;> linarith
  · have hr : q - ((⌊q⌋ : Int) : ℚ) = 1 / 2 := le_antisymm (not_lt.mp hb) (not_lt.mp ha)
    push_cast
    constructor <;> linarith

/-- C13: with scale factor 1 (and `sqrt(1.0) = 1.0`) `extract_bboxes` returns, in
source order, exactly the quadruples whose four values are all non-negative, each as
the unmodified rectangle (x, y, w, h): both paddings are 0, a quadruple with a negative
value is omitted and nothing else is added. -/
theorem extract_bboxes_scale_one (sqrt : ℚ → ℚ) (hsqrt : sqrt 1 = 1) (records : List Quad) :
    extract_bboxes sqrt (some records) 1 =
        .ok ((records.filter
          (fun q => decide (0 ≤ q.x ∧ 0 ≤ q.y ∧ 0 ≤ q.w ∧ 0 ≤ q.h))).map
          (fun q => (⟨q.x, q.y, q.w, q.h⟩ : Rect))) ∧
      ∀ q : Quad, paddedBox sqrt 1 q = ⟨q.x, q.y, q.w, q.h⟩ := by
  have hpad : ∀ q : Quad, paddedBox sqrt 1 q = ⟨q.x, q.y, q.w, q.h⟩ := by
    intro q
    obtain ⟨hx, hy, hw, hh⟩ := q.inRange
    unfold paddedBox
    simp only [hsqrt, sub_self, mul_zero, cvRound_zero, Int.sub_zero, Int.add_zero,
      Int.mul_zero, Rect.wrap32_zero]
    rw [Rect.wrap32_eq _ hx, Rect.wrap32_eq _ hy, Rect.wrap32_eq _ hw, Rect.wrap32_eq _ hh]
  have hvalid : Quad.valid = fun q => decide (0 ≤ q.x ∧ 0 ≤ q.y ∧ 0 ≤ q.w ∧ 0 ≤ q.h) := by
    funext q
    unfold Quad.valid
    rw [Bool.eq_iff_iff]
    simp only [Bool.not_eq_true', Bool.or_eq_false_iff, decide_eq_false_iff_not,
      decide_eq_true_eq]
    omega
  refine ⟨?_, hpad⟩
  unfold extract_bboxes
  rw [if_neg (by norm_num)]
  simp only [extractLoop_eq, List.nil_append]
  rw [hvalid]
  congr 1
  apply List.map_congr_left
  intro q _
  exact hpad q

theorem extract_bboxes_scale_one_witness :
    extract_bboxes Rat.sqrt
        (some ([{ x := 1, y := 2, w := 3, h := 4 }, { x := 5, y := -1, w := 6, h := 7 },
          { x := 8, y := 9, w := 0, h := 10 }, { x := -1, y := -1, w := -1, h := -1 }] :
            List Quad)) 1 =
        .ok ((([{ x := 1, y := 2, w := 3, h := 4 }, { x := 5, y := -1, w := 6, h := 7 },
          { x := 8, y := 9, w := 0, h := 10 }, { x := -1, y := -1, w := -1, h := -1 }] :
            List Quad).filter
          (fun q : Quad => decide (0 ≤ q.x ∧ 0 ≤ q.y ∧ 0 ≤ q.w ∧ 0 ≤ q.h))).map
          (fun q => (⟨q.x, q.y, q.w, q.h⟩ : Rect))) ∧
      ∀ q : Quad, paddedBox Rat.sqrt 1 q = ⟨q.x, q.y, q.w, q.h⟩ :=
  extract_bboxes_scale_one Rat.sqrt (by with_unfolding_all rfl)
    [{ x := 1, y := 2, w := 3, h := 4 }, { x := 5, y := -1, w := 6, h := 7 },
      { x := 8, y := 9, w := 0, h := 10 }, { x := -1, y := -1, w := -1, h := -1 }]

/-- C14 (as stated, refuted): with scale factor 4 the record (0, 0, 1073741824, 0) of
non-negative values has the padding 536870912, the `int` sum w + 2 * padding is 2^31
and wraps, and the rectangle pushed is (-536870912, 0, -2147483648, 0): its width is
not within 1 of 2w and its center is not the center of the record. -/
theorem extract_bboxes_scale_four_overflow :
    Rat.sqrt 4 = 2 ∧
      extract_bboxes Rat.sqrt
        (some [({ x := 0, y := 0, w := 1073741824, h := 0 } : Quad)]) 4 =
        .ok [⟨-536870912, 0, -2147483648, 0⟩] ∧
      paddedBox Rat.sqrt 4 { x := 0, y := 0, w := 1073741824, h := 0 } =
        ⟨-536870912, 0, -2147483648, 0⟩ ∧
      ¬ (|(paddedBox Rat.sqrt 4 { x := 0, y := 0, w := 1073741824, h := 0 }).width -
          2 * 1073741824| ≤ 1) ∧
      2 * (paddedBox Rat.sqrt 4 { x := 0, y := 0, w := 1073741824, h := 0 }).x +
          (paddedBox Rat.sqrt 4 { x := 0, y := 0, w := 1073741824, h := 0 }).width ≠
        2 * 0 + 1073741824 := by
  have hs : Rat.sqrt 4 = 2 := by with_unfolding_all rfl
  have hr : cvRound ((1 / 2 : ℚ) * ((1073741824 : Int) : ℚ) * (2 - 1)) = 536870912 := by
    unfold cvRound
    norm_num
  have hr0 : cvRound ((1 / 2 : ℚ) * ((0 : Int) : ℚ) * (2 - 1)) = 0 := by
    unfold cvRound
    norm_num
  have hp : paddedBox Rat.sqrt 4 { x := 0, y := 0, w := 1073741824, h := 0 } =
      ⟨-536870912, 0, -2147483648, 0⟩ := by
    unfold paddedBox
    simp only [hs, hr, hr0]
    decide
  refine ⟨hs, ?_, hp, ?_, ?_⟩
  · unfold extract_bboxes
    rw [if_neg (by norm_num)]
    simp only [extractLoop]
    rw [if_neg (by decide)]
    simp only [List.nil_append, hp]
  · rw [hp]
    decide
  · rw [hp]
    decide

/-- C14 (amended): with scale factor 4 (and `sqrt(4.0) = 2.0`) every record
(x, y, w, h) of non-negative values with w < 2^30 and h < 2^30 yields the rectangle
(x', y', w', h') with |w' - 2w| ≤ 1, |h' - 2h| ≤ 1 (the paddings are `cvRound(w/2)`
and `cvRound(h/2)`) and with the same center: 2x' + w' = 2x + w and
2y' + h' = 2y + h. -/
theorem extract_bboxes_scale_four (sqrt : ℚ → ℚ) (hsqrt : sqrt 4 = 2) (records : List Quad) :
    extract_bboxes sqrt (some records) 4 =
        .ok ((records.filter Quad.valid).map (paddedBox sqrt 4)) ∧
      ∀ q : Quad, 0 ≤ q.x → 0 ≤ q.y → 0 ≤ q.w → 0 ≤ q.h →
        q.w < 1073741824 → q.h < 1073741824 →
        (paddedBox sqrt 4 q).width = q.w + 2 * cvRound ((q.w : ℚ) / 2) ∧
        (paddedBox sqrt 4 q).height = q.h + 2 * cvRound ((q.h : ℚ) / 2) ∧
        |(paddedBox sqrt 4 q).width - 2 * q.w| ≤ 1 ∧
        |(paddedBox sqrt 4 q).height - 2 * q.h| ≤ 1 ∧
        2 * (paddedBox sqrt 4 q).x + (paddedBox sqrt 4 q).width = 2 * q.x + q.w ∧
        2 * (paddedBox sqrt 4 q).y + (paddedBox sqrt 4 q).height = 2 * q.y + q.h := by
  constructor
  · unfold extract_bboxes
    rw [if_neg (by norm_num)]
    simp only [extractLoop_eq, List.nil_append]
  · intro q hqx hqy hqw hqh hwlt hhlt
    have hx : (1 / 2 : ℚ) * (q.w : ℚ) * (sqrt 4 - 1) = (q.w : ℚ) / 2 := by
      rw [hsqrt]; ring
    have hy : (1 / 2 : ℚ) * (q.h : ℚ) * (sqrt 4 - 1) = (q.h : ℚ) / 2 := by
      rw [hsqrt]; ring
    have hdouble : ∀ v : Int, |v + 2 * cvRound ((v : ℚ) / 2) - 2 * v| ≤ 1 := by
      intro v
      have hn := cvRound_near ((v : ℚ) / 2)
      rw [abs_le] at hn
      obtain ⟨hn1, hn2⟩ := hn
      have h1 : (-1 : ℚ) ≤ ((v + 2 * cvRound ((v : ℚ) / 2) - 2 * v : Int) : ℚ) := by
        push_cast; linarith
      have h2 : ((v + 2 * cvRound ((v : ℚ) / 2) - 2 * v : Int) : ℚ) ≤ 1 := by
        push_cast; linarith
      rw [abs_le]
      exact ⟨by exact_mod_cast h1, by exact_mod_cast h2⟩
    obtain ⟨hix, hiy, _, _⟩ := q.inRange
    unfold isInt at hix hiy
    have hdw := abs_le.mp (hdouble q.w)
    have hdh := abs_le.mp (hdouble q.h)
    have hwx : wrap32 (2 * cvRound ((q.w : ℚ) / 2)) = 2 * cvRound ((q.w : ℚ) / 2) :=
      Rect.wrap32_eq _ (by unfold isInt; omega)
    have hwy : wrap32 (2 * cvRound ((q.h : ℚ) / 2)) = 2 * cvRound ((q.h : ℚ) / 2) :=
      Rect.wrap32_eq _ (by unfold isInt; omega)
    have hww : wrap32 (q.w + 2 * cvRound ((q.w : ℚ) / 2)) =
        q.w + 2 * cvRound ((q.w : ℚ) / 2) :=
      Rect.wrap32_eq _ (by unfold isInt; omega)
    have hwh : wrap32 (q.h + 2 * cvRound ((q.h : ℚ) / 2)) =
        q.h + 2 * cvRound ((q.h : ℚ) / 2) :=
      Rect.wrap32_eq _ (by unfold isInt; omega)
    have hxx : wrap32 (q.x - cvRound ((q.w : ℚ) / 2)) = q.x - cvRound ((q.w : ℚ) / 2) :=
      Rect.wrap32_eq _ (by unfold isInt; omega)
    have hyy : wrap32 (q.y - cvRound ((q.h : ℚ) / 2)) = q.y - cvRound ((q.h : ℚ) / 2) :=
      Rect.wrap32_eq _ (by unfold isInt; omega)
    unfold paddedBox
    simp only [hx, hy, hwx, hwy, hww, hwh, hxx, hyy]
    refine ⟨trivial, trivial, hdouble q.w, hdouble q.h, ?_, ?_⟩ <;> ring

theorem extract_bboxes_scale_four_witness :
    extract_bboxes Rat.sqrt
        (some ([{ x := 1, y := 2, w := 3, h := 4 },
          { x := -1, y := -1, w := -1, h := -1 }] : List Quad)) 4 =
        .ok ((([{ x := 1, y := 2, w := 3, h := 4 },
          { x := -1, y := -1, w := -1, h := -1 }] : List Quad).filter Quad.valid).map
            (paddedBox Rat.sqrt 4)) ∧
      ∀ q : Quad, 0 ≤ q.x → 0 ≤ q.y → 0 ≤ q.w → 0 ≤ q.h →
        q.w < 1073741824 → q.h < 1073741824 →
        (paddedBox Rat.sqrt 4 q).width = q.w + 2 * cvRound ((q.w : ℚ) / 2) ∧
        (paddedBox Rat.sqrt 4 q).height = q.h + 2 * cvRound ((q.h : ℚ) / 2) ∧
        |(paddedBox Rat.sqrt 4 q).width - 2 * q.w| ≤ 1 ∧
        |(paddedBox Rat.sqrt 4 q).height - 2 * q.h| ≤ 1 ∧
        2 * (paddedBox Rat.sqrt 4 q).x + (paddedBox Rat.sqrt 4 q).width = 2 * q.x + q.w ∧
        2 * (paddedBox Rat.sqrt 4 q).y + (paddedBox Rat.sqrt 4 q).height = 2 * q.y + q.h :=
  extract_bboxes_scale_four Rat.sqrt (by with_unfolding_all rfl)
    [{ x := 1, y := 2, w := 3, h := 4 }, { x := -1, y := -1, w := -1, h := -1 }]

/-! ## Claims on `pixel_accuracy` -/

theorem xor_row_self (row : List Nat) :
    (List.zipWith (fun p q => Nat.xor p q) row row).filter (fun p => decide (p ≠ 0)) = [] := by
  induction row with
  | nil => rfl
  | cons p row ih =>
      have hp : Nat.xor p p = 0 := Nat.xor_self p
      simp only [List.zipWith_cons_cons, List.filter_cons, hp, ne_eq, not_true_eq_false,
        decide_False, Bool.false_eq_true, if_false]
      exact ih

/-- A mask differs from itself in no pixel. -/
theorem countNonZero_xor_self (rows : List (List Nat)) :
    countNonZero
      (List.zipWith (fun ra rb => List.zipWith (fun p q => Nat.xor p q) ra rb) rows rows) =
        0 := by
  have h : ∀ rows : List (List Nat),
      ((List.zipWith (fun ra rb => List.zipWith (fun p q => Nat.xor p q) ra rb) rows rows).map
        (fun row => (row.filter (fun p => decide (p ≠ 0))).length)).sum = 0 := by
    intro rows
    induction rows with
    | nil => rfl
    | cons row rows ih =>
        simp only [List.zipWith_cons_cons, List.map_cons, List.sum_cons, xor_row_self,
          List.length_nil, Nat.zero_add]
        exact ih
  unfold countNonZero
  rw [h rows]
  rfl

/-- C15 (as stated, refuted): the empty mask M (0 rows, 0 columns, type `CV_8UC1`)
passes the three assertions, the expression `M ^ M` then raises the OpenCV error for
an empty operand, and `pixel_accuracy(M, M)` fails instead of returning 1. -/
theorem pixel_accuracy_empty_mask :
    Mat.type ⟨0, 0, CV_8UC1, []⟩ = CV_8UC1 ∧
      (0 : Int) ≤ Mat.rows ⟨0, 0, CV_8UC1, []⟩ ∧ (0 : Int) ≤ Mat.cols ⟨0, 0, CV_8UC1, []⟩ ∧
      Mat.xor ⟨0, 0, CV_8UC1, []⟩ ⟨0, 0, CV_8UC1, []⟩ = .error Failure.badArg ∧
      pixel_accuracy ⟨0, 0, CV_8UC1, []⟩ ⟨0, 0, CV_8UC1, []⟩ = .error Failure.badArg ∧
      pixel_accuracy ⟨0, 0, CV_8UC1, []⟩ ⟨0, 0, CV_8UC1, []⟩ ≠ .ok (Dbl.num 1) := by
  have h : pixel_accuracy ⟨0, 0, CV_8UC1, []⟩ ⟨0, 0, CV_8UC1, []⟩ = .error Failure.badArg := by
    with_unfolding_all rfl
  refine ⟨rfl, by decide, by decide, by with_unfolding_all rfl, h, ?_⟩
  rw [h]
  intro hc
  cases hc

/-- C15 (amended): for every single-channel 8-bit mask M with rows ≥ 1 and cols ≥ 1
whose pixel count rows * cols fits an `int`, `pixel_accuracy(M, M)` passes the
assertions and returns 1: the count of differing pixels is 0 and the result is
1 minus that count divided by rows * cols. -/
theorem pixel_accuracy_self (M : Mat) (htype : M.type = CV_8UC1) (hr : 1 ≤ M.rows)
    (hc : 1 ≤ M.cols) (hfit : isInt (M.rows * M.cols)) :
    (∃ pixels, M.xor M = .ok pixels ∧ countNonZero pixels = 0) ∧
      pixel_accuracy M M = .ok (Dbl.num 1) := by
  have hne0 : M.empty = false := by
    unfold Mat.empty
    simp only [Bool.or_eq_false_iff, decide_eq_false_iff_not]
    omega
  have hxor : M.xor M = .ok (List.zipWith
      (fun ra rb => List.zipWith (fun p q => Nat.xor p q) ra rb) M.data M.data) := by
    unfold Mat.xor
    simp [hne0]
  have hcount := countNonZero_xor_self M.data
  refine ⟨⟨_, hxor, hcount⟩, ?_⟩
  have hpos : 0 < M.rows * M.cols := Int.mul_pos (by omega) (by omega)
  have hne : ((M.rows * M.cols : Int) : ℚ) ≠ 0 := by exact_mod_cast ne_of_gt hpos
  unfold pixel_accuracy
  rw [if_neg (by rw [htype]; exact fun h => h rfl), if_neg (by rw [htype]; exact fun h => h rfl),
    if_neg (by exact fun h => h ⟨rfl, rfl⟩)]
  rw [hxor]
  simp only [hcount, Rect.wrap32_eq _ hfit]
  unfold Dbl.ofInt Dbl.div
  simp only [Int.cast_zero]
  rw [if_neg hne]
  simp [Dbl.sub]

theorem pixel_accuracy_self_witness :
    (∃ pixels, Mat.xor ⟨2, 2, CV_8UC1, [[0, 255], [7, 0]]⟩
        ⟨2, 2, CV_8UC1, [[0, 255], [7, 0]]⟩ = .ok pixels ∧ countNonZero pixels = 0) ∧
      pixel_accuracy ⟨2, 2, CV_8UC1, [[0, 255], [7, 0]]⟩ ⟨2, 2, CV_8UC1, [[0, 255], [7, 0]]⟩ =
        .ok (Dbl.num 1) :=
  pixel_accuracy_self ⟨2, 2, CV_8UC1, [[0, 255], [7, 0]]⟩ rfl (by decide) (by decide)
    (by decide)

/-! ## Further claims on `avg_IoU_score` -/

/-- C16: the matcher consumes one detection per iteration, not one match per
iteration.  For G = [(0,0,10,10), (100,100,10,10)],
D = [(0,0,10,10), (0,0,10,9), (100,100,10,6)] and tau = 0.5 the first iteration matches
row 0 with column 0; the second finds its arg-max 0.9 in row 0 again, records nothing
and overwrites column 1 with -1; the loop ends after its two iterations with tp = 1,
fp = 2, fn = 1 and the value 1/4, ground truth 1 unmatched, although detection 2 was
never selected and has IoU 0.6 ≥ tau with it. -/
theorem avg_IoU_score_one_detection_per_iteration :
    avg_IoU_run [⟨0, 0, 10, 10⟩, ⟨0, 0, 10, 9⟩, ⟨100, 100, 10, 6⟩]
        [⟨0, 0, 10, 10⟩, ⟨100, 100, 10, 10⟩] (Dbl.num (1 / 2)) =
      .ok { score := Dbl.num (1 / 4)
            tp := 1
            fp := 2
            fn := 1
            IoU_scores := [⟨Dbl.num 1, 0⟩, ⟨Dbl.num 0, -1⟩]
            all_IoU_scores := [[Dbl.num (-1), Dbl.num (-1), Dbl.num 0],
              [Dbl.num (-1), Dbl.num (-1), Dbl.num (3 / 5)]]
            picks := [⟨0, 0, true⟩, ⟨0, 1, false⟩] } ∧
      (fillMatrix [⟨0, 0, 10, 10⟩, ⟨0, 0, 10, 9⟩, ⟨100, 100, 10, 6⟩]
        [⟨0, 0, 10, 10⟩, ⟨100, 100, 10, 10⟩]) =
        [[Dbl.num 1, Dbl.num (9 / 10), Dbl.num 0], [Dbl.num 0, Dbl.num 0, Dbl.num (3 / 5)]] ∧
      IoU_score ⟨100, 100, 10, 6⟩ ⟨100, 100, 10, 10⟩ = Dbl.num (3 / 5) ∧
      Dbl.lt (Dbl.num (3 / 5)) (Dbl.num (1 / 2)) = false ∧
      avg_IoU_score [⟨0, 0, 10, 10⟩, ⟨0, 0, 10, 9⟩, ⟨100, 100, 10, 6⟩]
        [⟨0, 0, 10, 10⟩, ⟨100, 100, 10, 10⟩] (Dbl.num (1 / 2)) = .ok (Dbl.num (1 / 4)) := by
  refine ⟨?_, ?_, ?_, ?_, ?_⟩ <;> with_unfolding_all rfl

/-- The overlap ratio can be an infinity: the box `A | B` of (0, 0, 65536, 1) and
(0, 0, 1, 65536) is 65536 x 65536, its `int` area wraps to 0, and the intersection
(0, 0, 1, 1) has area 1, so the quotient is 1 / 0. -/
theorem IoU_score_infinite :
    IoU_score ⟨0, 0, 65536, 1⟩ ⟨0, 0, 1, 65536⟩ = Dbl.inf true := by
  with_unfolding_all rfl

/-- An infinite overlap ratio is recorded as a match: for D = [(0, 0, 65536, 1)],
G = [(0, 0, 1, 65536)] and tau = 1/2 the single entry is +inf, it passes both tests of
the loop, and the record of ground truth 0 holds +inf. -/
theorem avg_IoU_score_records_infinity :
    avg_IoU_run [⟨0, 0, 65536, 1⟩] [⟨0, 0, 1, 65536⟩] (Dbl.num (1 / 2)) =
      .ok { score := Dbl.inf true
            tp := 1
            fp := 0
            fn := 0
            IoU_scores := [⟨Dbl.inf true, 0⟩]
            all_IoU_scores := [[Dbl.num (-1)]]
            picks := [⟨0, 0, true⟩] } := by
  with_unfolding_all rfl

/-- A double that is larger than 0 and not below a finite `t` is a finite value at
least `t` or the positive infinity. -/
theorem Dbl.pos_not_lt (v : Dbl) (t : ℚ) (hpos : Dbl.gt v (Dbl.num 0) = true)
    (hlt : Dbl.lt v (Dbl.num t) = false) :
    (∃ q : ℚ, v = Dbl.num q ∧ 0 < q ∧ t ≤ q) ∨ v = Dbl.inf true := by
  cases v with
  | num q =>
      left
      refine ⟨q, rfl, ?_, ?_⟩
      · simpa [Dbl.gt] using hpos
      · simpa [Dbl.lt, Dbl.gt] using hlt
  | inf p =>
      right
      cases p with
      | true => rfl
      | false => simp [Dbl.gt] at hpos
  | nan => simp [Dbl.gt] at hpos

/-- Writing a match over a free record adds one to the number of records that hold
a match. -/
theorem matchRecords_set : ∀ (l : List Score) (i : Nat) (r x : Score), l[i]? = some r →
    r.det_index = -1 → x.det_index ≠ -1 →
    (matchRecords (l.set i x)).length = (matchRecords l).length + 1 := by
  intro l
  induction l with
  | nil => intro i r x h; simp at h
  | cons a l ih =>
      intro i r x h hr hx
      cases i with
      | zero =>
          simp only [List.getElem?_cons_zero, Option.some.injEq] at h
          subst h
          simp only [matchRecords, List.set_cons_zero, List.filter_cons, hx, hr, ne_eq,
            not_false_eq_true, decide_True, if_true, not_true_eq_false, decide_False,
            Bool.false_eq_true, if_false, List.length_cons]
      | succ i =>
          simp only [List.getElem?_cons_succ] at h
          have ih1 := ih i r x h hr hx
          unfold matchRecords at ih1 ⊢
          simp only [List.set_cons_succ, List.filter_cons]
          split_ifs
          · simp only [List.length_cons, ih1]
          · exact ih1

/-- Under a positive threshold the main loop ends in a state that satisfies the
invariant, in which tp counts the records that hold a match and, when every pairwise
IoU is defined and computed without overflow, the running sum is a finite value
between 0 and tp. -/
theorem mainLoop_ok_counts (D G : List Rect) {τ : Dbl} (hτ : Dbl.gt τ (Dbl.num 0) = true) :
    ∃ s, mainLoop τ G.length (initState D G) = .ok s ∧ Shape G.length D.length s ∧
      Inv G.length D.length τ (fillMatrix D G) s ∧
      s.tp = ((matchRecords s.IoU_scores).length : Int) ∧
      ((∀ d ∈ D, ∀ g ∈ G, IoU_defined d g ∧ NoOverflow d g) →
        ∃ S : ℚ, s.avg_IoU = Dbl.num S ∧ 0 ≤ S ∧ S ≤ (s.tp : ℚ)) := by
  have h := mainLoop_inv hτ
    (fun s => Inv G.length D.length τ (fillMatrix D G) s ∧
      s.tp = ((matchRecords s.IoU_scores).length : Int) ∧
      ((∀ d ∈ D, ∀ g ∈ G, IoU_defined d g ∧ NoOverflow d g) →
        ∃ S : ℚ, s.avg_IoU = Dbl.num S ∧ 0 ≤ S ∧ S ≤ (s.tp : ℚ)))
    (by
      intro s s1 i j v hs hP hstep hlt
      obtain ⟨hI, hcount, hsum⟩ := hP
      refine ⟨hI.step hs hstep hlt, ?_, ?_⟩
      · rcases hstep.upd with ⟨r, hr, hd, hrecs, _, htp, _⟩ | ⟨r, hr, hd, hrecs, _, htp, _⟩
        · rw [htp, hrecs, matchRecords_set _ i r _ hr hd (by simp only [ne_eq]; omega), hcount]
          push_cast
          rfl
        · rw [htp, hrecs, hcount]
      · intro hdef
        obtain ⟨S, hS, h0, h1⟩ := hsum hdef
        rcases hstep.upd with ⟨_, _, _, _, havg, htp, _⟩ | ⟨_, _, _, _, havg, htp, _⟩
        · obtain ⟨_, hM0⟩ := hI.fresh hstep
          obtain ⟨d, g, hd, hg, _, _, hv⟩ := entry_fillMatrix_some D G i j v hM0
          obtain ⟨q, hq, hq0, hq1⟩ := IoU_score_unit d g (hdef d hd g hg).1 (hdef d hd g hg).2
          refine ⟨S + q, ?_, by linarith, ?_⟩
          · rw [havg, hS, hv, hq]
            rfl
          · rw [htp]
            push_cast
            linarith
        · exact ⟨S, by rw [havg, hS], h0, by rw [htp]; exact h1⟩)
    G.length (initState D G) (shape_init D G)
    ⟨inv_init D G τ, by simp [initState, matchRecords, Score.init],
      fun _ => ⟨0, rfl, le_refl _, by simp [initState]⟩⟩
  obtain ⟨s, hrun, hs, hI, hcount, hsum⟩ := h
  exact ⟨s, hrun, hs, hI, hcount, hsum⟩

/-- C17: for every D, G and threshold tau > 0, every match record written by
`avg_IoU_score` for ground-truth index i and detection index j holds the value
IoU_score(D[j], G[i]) of the matrix as filled before the loop (a positive value, never
an invalidated -1), that value is at least tau (a finite q with 0 < q and tau ≤ q, or
the positive infinity that a wrapped denominator 0 produces; always a finite q when
the denominator of that pair is not 0), and tp is the number of match records that
hold a match; as soon as the largest value left in the matrix is below tau the loop
stops and no further match is recorded. -/
theorem avg_IoU_score_recorded_matches (D G : List Rect) (tau : ℚ) (htau : 0 < tau) :
    (∃ o : Outcome, avg_IoU_run D G (Dbl.num tau) = .ok o ∧
      (∀ (i : Nat) (r : Score), o.IoU_scores[i]? = some r → r.det_index ≠ -1 →
        ∃ (j : Nat) (d g : Rect), r.det_index = (j : Int) ∧ D[j]? = some d ∧
          G[i]? = some g ∧ r.IoU = IoU_score d g ∧
          entry (fillMatrix D G) i j = some r.IoU ∧
          Dbl.gt r.IoU (Dbl.num 0) = true ∧ Dbl.lt r.IoU (Dbl.num tau) = false ∧
          ((∃ q : ℚ, r.IoU = Dbl.num q ∧ 0 < q ∧ tau ≤ q) ∨ r.IoU = Dbl.inf true) ∧
          (IoU_defined d g → ∃ q : ℚ, r.IoU = Dbl.num q ∧ 0 < q ∧ tau ≤ q)) ∧
      o.tp = ((matchRecords o.IoU_scores).length : Int)) ∧
    (∀ (k : Nat) (s : LoopState),
      Dbl.lt (findMax s.all_IoU_scores).max_IoU (Dbl.num tau) = true →
      loopBody (Dbl.num tau) s = .ok none ∧ mainLoop (Dbl.num tau) k s = .ok s) := by
  have hτ : Dbl.gt (Dbl.num tau) (Dbl.num 0) = true := by simpa [Dbl.gt] using htau
  constructor
  · obtain ⟨s, hrun, hs, hI, hcount, _⟩ := mainLoop_ok_counts D G hτ
    obtain ⟨h1, _⟩ := avg_IoU_run_of_mainLoop D G _ s hrun
    refine ⟨outcomeOf s, h1, ?_, hcount⟩
    intro i r hr hd
    have hr1 : s.IoU_scores[i]? = some r := hr
    rcases hI.recs i r hr1 with ⟨h0, _⟩ | ⟨j, hj, _, hent, hpos, hlt⟩
    · rw [h0] at hd
      exact absurd rfl hd
    · obtain ⟨d, g, _, _, hdj, hgi, hv⟩ := entry_fillMatrix_some D G i j _ hent
      have hcases := Dbl.pos_not_lt r.IoU tau hpos hlt
      refine ⟨j, d, g, hj, hdj, hgi, hv, hent, hpos, hlt, hcases, ?_⟩
      intro hdef
      rcases hcases with hnum | hinf
      · exact hnum
      · rw [hv, IoU_score_num d g hdef] at hinf
        cases hinf
  · intro k s hlt
    have hb : loopBody (Dbl.num tau) s = .ok none := by
      unfold loopBody
      simp only [hlt, if_true]
    refine ⟨hb, ?_⟩
    cases k with
    | zero => rfl
    | succ k => simp only [mainLoop, hb]

theorem avg_IoU_score_recorded_matches_witness :
    (0 : ℚ) < 1 / 2 ∧
    ((∃ o : Outcome, avg_IoU_run [⟨0, 0, 10, 10⟩, ⟨0, 0, 10, 9⟩, ⟨100, 100, 10, 6⟩]
        [⟨0, 0, 10, 10⟩, ⟨100, 100, 10, 10⟩] (Dbl.num (1 / 2)) = .ok o ∧
      (∀ (i : Nat) (r : Score), o.IoU_scores[i]? = some r → r.det_index ≠ -1 →
        ∃ (j : Nat) (d g : Rect), r.det_index = (j : Int) ∧
          ([⟨0, 0, 10, 10⟩, ⟨0, 0, 10, 9⟩, ⟨100, 100, 10, 6⟩] : List Rect)[j]? = some d ∧
          ([⟨0, 0, 10, 10⟩, ⟨100, 100, 10, 10⟩] : List Rect)[i]? = some g ∧
          r.IoU = IoU_score d g ∧
          entry (fillMatrix [⟨0, 0, 10, 10⟩, ⟨0, 0, 10, 9⟩, ⟨100, 100, 10, 6⟩]
            [⟨0, 0, 10, 10⟩, ⟨100, 100, 10, 10⟩]) i j = some r.IoU ∧
          Dbl.gt r.IoU (Dbl.num 0) = true ∧ Dbl.lt r.IoU (Dbl.num (1 / 2)) = false ∧
          ((∃ q : ℚ, r.IoU = Dbl.num q ∧ 0 < q ∧ 1 / 2 ≤ q) ∨ r.IoU = Dbl.inf true) ∧
          (IoU_defined d g → ∃ q : ℚ, r.IoU = Dbl.num q ∧ 0 < q ∧ 1 / 2 ≤ q)) ∧
      o.tp = ((matchRecords o.IoU_scores).length : Int)) ∧
    (∀ (k : Nat) (s : LoopState),
      Dbl.lt (findMax s.all_IoU_scores).max_IoU (Dbl.num (1 / 2)) = true →
      loopBody (Dbl.num (1 / 2)) s = .ok none ∧ mainLoop (Dbl.num (1 / 2)) k s = .ok s)) :=
  ⟨by norm_num,
    avg_IoU_score_recorded_matches [⟨0, 0, 10, 10⟩, ⟨0, 0, 10, 9⟩, ⟨100, 100, 10, 6⟩]
      [⟨0, 0, 10, 10⟩, ⟨100, 100, 10, 10⟩] (1 / 2) (by norm_num)⟩

/-- C19: index safety of the matcher.  For D (size m), G (size n) with every pairwise
IoU defined and a threshold tau > 0, the call does not fail, every arg-max selection
that passed the threshold test has 0 ≤ gt_index < n and 0 ≤ det_index < m, and in
every state with an n × m matrix and n match records an iteration that passes the
threshold test selects in-range indices and completes: the sentinel -1 is never used
as an index. -/
theorem avg_IoU_score_index_safety (D G : List Rect) (tau : ℚ)
    (_hdef : ∀ d ∈ D, ∀ g ∈ G, IoU_defined d g) (htau : 0 < tau) :
    (∃ o : Outcome, avg_IoU_run D G (Dbl.num tau) = .ok o ∧
      ∀ p ∈ o.picks, 0 ≤ p.gt_index ∧ p.gt_index < (G.length : Int) ∧
        0 ≤ p.det_index ∧ p.det_index < (D.length : Int)) ∧
    (∀ s : LoopState, Shape G.length D.length s →
      Dbl.lt (findMax s.all_IoU_scores).max_IoU (Dbl.num tau) = false →
      0 ≤ (findMax s.all_IoU_scores).gt_index ∧
        (findMax s.all_IoU_scores).gt_index < (G.length : Int) ∧
        0 ≤ (findMax s.all_IoU_scores).det_index ∧
        (findMax s.all_IoU_scores).det_index < (D.length : Int) ∧
        (∃ r, vecGet s.IoU_scores (findMax s.all_IoU_scores).gt_index = .ok r) ∧
        (∃ M, invalidate s.all_IoU_scores (findMax s.all_IoU_scores).det_index = .ok M) ∧
        ∃ s1, loopBody (Dbl.num tau) s = .ok (some s1)) := by
  have hτ : Dbl.gt (Dbl.num tau) (Dbl.num 0) = true := by simpa [Dbl.gt] using htau
  constructor
  · obtain ⟨s, hrun, _, hI⟩ := mainLoop_ok D G hτ
    obtain ⟨h1, _⟩ := avg_IoU_run_of_mainLoop D G _ s hrun
    refine ⟨outcomeOf s, h1, ?_⟩
    intro p hp
    obtain ⟨i, j, hi, hj, hin, hjm⟩ := hI.rng p hp
    rw [hi, hj]
    omega
  · intro s hs hlt
    rcases loopBody_spec hτ hs with ⟨_, hb⟩ | ⟨s1, i, j, v, hb, hstep, _⟩
    · rw [hlt] at hb
      exact Bool.noConfusion hb
    · obtain ⟨hin, hjm⟩ := entry_bounds hs hstep.ent
      have hir : i < s.IoU_scores.length := by rw [hs.recs]; exact hin
      have hcols : ∀ row ∈ s.all_IoU_scores, j < row.length := by
        intro row hrow
        rw [hs.cols row hrow]; exact hjm
      rw [hstep.fm]
      refine ⟨by simp, by simp only; omega, by simp, by simp only; omega,
        ⟨_, vecGet_ok _ i _ (List.getElem?_eq_getElem hir)⟩,
        ⟨_, invalidate_ok j _ hcols⟩, s1, hb⟩

theorem avg_IoU_score_index_safety_witness :
    (∃ o : Outcome, avg_IoU_run [⟨0, 0, 10, 10⟩, ⟨100, 100, 5, 5⟩] [⟨0, 0, 10, 10⟩]
        (Dbl.num (1 / 2)) = .ok o ∧
      ∀ p ∈ o.picks, 0 ≤ p.gt_index ∧
        p.gt_index < ((([⟨0, 0, 10, 10⟩] : List Rect).length : Nat) : Int) ∧
        0 ≤ p.det_index ∧
        p.det_index < ((([⟨0, 0, 10, 10⟩, ⟨100, 100, 5, 5⟩] : List Rect).length : Nat) : Int)) ∧
    (∀ s : LoopState, Shape ([⟨0, 0, 10, 10⟩] : List Rect).length
        ([⟨0, 0, 10, 10⟩, ⟨100, 100, 5, 5⟩] : List Rect).length s →
      Dbl.lt (findMax s.all_IoU_scores).max_IoU (Dbl.num (1 / 2)) = false →
      0 ≤ (findMax s.all_IoU_scores).gt_index ∧
        (findMax s.all_IoU_scores).gt_index <
          ((([⟨0, 0, 10, 10⟩] : List Rect).length : Nat) : Int) ∧
        0 ≤ (findMax s.all_IoU_scores).det_index ∧
        (findMax s.all_IoU_scores).det_index <
          ((([⟨0, 0, 10, 10⟩, ⟨100, 100, 5, 5⟩] : List Rect).length : Nat) : Int) ∧
        (∃ r, vecGet s.IoU_scores (findMax s.all_IoU_scores).gt_index = .ok r) ∧
        (∃ M, invalidate s.all_IoU_scores (findMax s.all_IoU_scores).det_index = .ok M) ∧
        ∃ s1, loopBody (Dbl.num (1 / 2)) s = .ok (some s1)) :=
  avg_IoU_score_index_safety [⟨0, 0, 10, 10⟩, ⟨100, 100, 5, 5⟩] [⟨0, 0, 10, 10⟩] (1 / 2)
    (by decide) (by norm_num)

/-- C20 (as stated, refuted): for D = [(0, 0, 65536, 65537)], G = [(0, 0, 1000, 1000)]
and tau = 1/2 the single IoU is defined, but the `int` area of the box `d | g` wraps
from 65536 * 65537 to 65536, the IoU is 1000000 / 65536 = 15625 / 1024, the match is
recorded and `avg_IoU_score` returns 15625 / 1024, which is larger than 1. -/
theorem avg_IoU_score_range_overflow :
    IoU_defined ⟨0, 0, 65536, 65537⟩ ⟨0, 0, 1000, 1000⟩ ∧
      IoU_score ⟨0, 0, 65536, 65537⟩ ⟨0, 0, 1000, 1000⟩ = Dbl.num (15625 / 1024) ∧
      avg_IoU_run [⟨0, 0, 65536, 65537⟩] [⟨0, 0, 1000, 1000⟩] (Dbl.num (1 / 2)) =
        .ok { score := Dbl.num (15625 / 1024)
              tp := 1
              fp := 0
              fn := 0
              IoU_scores := [⟨Dbl.num (15625 / 1024), 0⟩]
              all_IoU_scores := [[Dbl.num (-1)]]
              picks := [⟨0, 0, true⟩] } ∧
      avg_IoU_score [⟨0, 0, 65536, 65537⟩] [⟨0, 0, 1000, 1000⟩] (Dbl.num (1 / 2)) =
        .ok (Dbl.num (15625 / 1024)) ∧
      ¬ ∃ q : ℚ, avg_IoU_score [⟨0, 0, 65536, 65537⟩] [⟨0, 0, 1000, 1000⟩]
        (Dbl.num (1 / 2)) = .ok (Dbl.num q) ∧ 0 ≤ q ∧ q ≤ 1 := by
  have h : avg_IoU_score [⟨0, 0, 65536, 65537⟩] [⟨0, 0, 1000, 1000⟩] (Dbl.num (1 / 2)) =
      .ok (Dbl.num (15625 / 1024)) := by
    with_unfolding_all rfl
  refine ⟨by decide, by with_unfolding_all rfl, by with_unfolding_all rfl, h, ?_⟩
  rintro ⟨q, hq, _, h1⟩
  rw [h] at hq
  injection hq with hq
  injection hq with hq
  rw [← hq] at h1
  norm_num at h1

/-- C20 (amended): for D and G not both empty, with every pairwise IoU defined and
computed without `int` overflow, and a threshold tau > 0, the value returned by
`avg_IoU_score` lies in [0, 1]: the accumulated IoU sum is between 0 and tp, and the
denominator tp + fp + fn = n + m - tp is at least tp and at least 1. -/
theorem avg_IoU_score_range (D G : List Rect) (tau : ℚ) (hne : D ≠ [] ∨ G ≠ [])
    (hdef : ∀ d ∈ D, ∀ g ∈ G, IoU_defined d g)
    (hno : ∀ d ∈ D, ∀ g ∈ G, NoOverflow d g) (htau : 0 < tau) :
    ∃ (o : Outcome) (S q : ℚ), avg_IoU_run D G (Dbl.num tau) = .ok o ∧
      avg_IoU_score D G (Dbl.num tau) = .ok (Dbl.num q) ∧ 0 ≤ q ∧ q ≤ 1 ∧
      o.score = Dbl.num q ∧ q = S / ((o.tp + o.fp + o.fn : Int) : ℚ) ∧
      0 ≤ S ∧ S ≤ (o.tp : ℚ) ∧
      o.tp + o.fp + o.fn = (G.length : Int) + (D.length : Int) - o.tp ∧
      o.tp ≤ o.tp + o.fp + o.fn ∧ 1 ≤ o.tp + o.fp + o.fn := by
  have hτ : Dbl.gt (Dbl.num tau) (Dbl.num 0) = true := by simpa [Dbl.gt] using htau
  obtain ⟨s, hrun, hs, hI, _, hsum⟩ := mainLoop_ok_counts D G hτ
  obtain ⟨S, hS, hS0, hS1⟩ := hsum (fun d hd g hg => ⟨hdef d hd g hg, hno d hd g hg⟩)
  obtain ⟨h1, h2⟩ := avg_IoU_run_of_mainLoop D G _ s hrun
  have hrows := hI.rows_le
  have hcols := hI.cols_le
  have hrc := recordedRows_le_picked s
  have htp := hI.tp_eq
  have hfp := hI.fp_eq
  have hlen : (s.IoU_scores.length : Int) = (G.length : Int) := by rw [hs.recs]
  have hpos : 0 < G.length + D.length := by
    rcases hne with h | h
    · have := List.length_pos.mpr h; omega
    · have := List.length_pos.mpr h; omega
  have hden : s.tp + s.fp + ((s.IoU_scores.length : Int) - s.tp) =
      (G.length : Int) + (D.length : Int) - s.tp := by omega
  have hden1 : 1 ≤ s.tp + s.fp + ((s.IoU_scores.length : Int) - s.tp) := by omega
  have hdentp : s.tp ≤ s.tp + s.fp + ((s.IoU_scores.length : Int) - s.tp) := by omega
  have hdq1 : (1 : ℚ) ≤ ((s.tp + s.fp + ((s.IoU_scores.length : Int) - s.tp) : Int) : ℚ) := by
    exact_mod_cast hden1
  have hdqtp : (s.tp : ℚ) ≤ ((s.tp + s.fp + ((s.IoU_scores.length : Int) - s.tp) : Int) : ℚ) := by
    exact_mod_cast hdentp
  have hdpos : (0 : ℚ) < ((s.tp + s.fp + ((s.IoU_scores.length : Int) - s.tp) : Int) : ℚ) := by
    linarith
  have hscore : (outcomeOf s).score =
      Dbl.num (S / ((s.tp + s.fp + ((s.IoU_scores.length : Int) - s.tp) : Int) : ℚ)) := by
    show Dbl.div s.avg_IoU (Dbl.ofInt _) = _
    rw [hS]
    unfold Dbl.ofInt Dbl.div
    simp only
    rw [if_neg (ne_of_gt hdpos)]
  refine ⟨outcomeOf s, S, S / ((s.tp + s.fp + ((s.IoU_scores.length : Int) - s.tp) : Int) : ℚ),
    h1, ?_, ?_, ?_, hscore, rfl, hS0, hS1, hden, hdentp, hden1⟩
  · rw [h2, hscore]
  · exact div_nonneg hS0 (le_of_lt hdpos)
  · rw [div_le_one hdpos]
    linarith

theorem avg_IoU_score_range_witness :
    ∃ (o : Outcome) (S q : ℚ),
      avg_IoU_run [⟨0, 0, 10, 10⟩, ⟨0, 0, 10, 9⟩, ⟨100, 100, 10, 6⟩]
        [⟨0, 0, 10, 10⟩, ⟨100, 100, 10, 10⟩] (Dbl.num (1 / 2)) = .ok o ∧
      avg_IoU_score [⟨0, 0, 10, 10⟩, ⟨0, 0, 10, 9⟩, ⟨100, 100, 10, 6⟩]
        [⟨0, 0, 10, 10⟩, ⟨100, 100, 10, 10⟩] (Dbl.num (1 / 2)) = .ok (Dbl.num q) ∧
      0 ≤ q ∧ q ≤ 1 ∧
      o.score = Dbl.num q ∧ q = S / ((o.tp + o.fp + o.fn : Int) : ℚ) ∧
      0 ≤ S ∧ S ≤ (o.tp : ℚ) ∧
      o.tp + o.fp + o.fn =
        ((([⟨0, 0, 10, 10⟩, ⟨100, 100, 10, 10⟩] : List Rect).length : Nat) : Int) +
        ((([⟨0, 0, 10, 10⟩, ⟨0, 0, 10, 9⟩, ⟨100, 100, 10, 6⟩] : List Rect).length : Nat) : Int) -
          o.tp ∧
      o.tp ≤ o.tp + o.fp + o.fn ∧ 1 ≤ o.tp + o.fp + o.fn :=
  avg_IoU_score_range [⟨0, 0, 10, 10⟩, ⟨0, 0, 10, 9⟩, ⟨100, 100, 10, 6⟩]
    [⟨0, 0, 10, 10⟩, ⟨100, 100, 10, 10⟩] (1 / 2) (Or.inl (by simp)) (by decide) (by decide)
    (by norm_num)

end hand_detect
